import Mathlib

/-!
# email-domain-counter: the customer importer and the exporter

A shallow embedding of `customerimporter/importer.go` and of `WriteCSV` of
`exporter/exporter.go`, together with the parts of the Go standard library they
call (`strings.TrimSpace`, `strings.ToLower`, `strings.LastIndexByte`,
`sort.SliceStable`, `unicode/utf8`; `encoding/csv`, `bufio`, `strconv.Itoa`).

Conventions of the embedding

* A Go `string` is a finite sequence of bytes: `GoString = List Nat`, a byte being
  a number below 256.  Every definition is total on `List Nat`; every concrete
  input used below consists of bytes.
* A Go `int` is an `Int`.  The counters of the importer only ever grow by one per
  record read, so the 64-bit wrap-around is out of reach and is not modelled.
* A run-time panic (index out of range) is the value `none` of an `Option`.
* A Go `map[string]int` is an association list with pairwise distinct keys; the
  unspecified iteration order of `range` over a map is a parameter `RangeOrder`.
* The CSV reader is modelled at the level of records: the successive results of
  `r.Read()` are given as a list, and once the list is exhausted `Read` reports
  `io.EOF`.
* An `io.Writer` is a transition function on an explicit state; a call that does
  not return (a loop of `bufio` that makes no progress) is the value `none`.
-/

namespace EmailDomainCounter

/-- A Go string, as its sequence of bytes. -/
abbrev GoString := List Nat

/-- The bytes of an ASCII string literal. -/
def ascii (s : String) : GoString := s.toList.map Char.toNat

/-! ## `unicode/utf8` and `unicode` -/

/-- The constant `utf8.RuneError` (U+FFFD). -/
def RuneError : Nat := 0xFFFD

/-- The constant `utf8.RuneSelf`: bytes below it are single-byte runes. -/
def RuneSelf : Nat := 0x80

/-- The constant `utf8.UTFMax`. -/
def UTFMax : Nat := 4

/-- The tables `utf8.first` and `utf8.acceptRanges` for a non-ASCII lead byte:
the length of the sequence and the accepted range of its second byte; `none`
for the bytes marked `xx` (invalid lead byte). -/
def leadInfo (b : Nat) : Option (Nat × Nat × Nat) :=
  if 0xC2 ≤ b ∧ b ≤ 0xDF then some (2, 0x80, 0xBF)
  else if b = 0xE0 then some (3, 0xA0, 0xBF)
  else if 0xE1 ≤ b ∧ b ≤ 0xEC then some (3, 0x80, 0xBF)
  else if b = 0xED then some (3, 0x80, 0x9F)
  else if b = 0xEE ∨ b = 0xEF then some (3, 0x80, 0xBF)
  else if b = 0xF0 then some (4, 0x90, 0xBF)
  else if 0xF1 ≤ b ∧ b ≤ 0xF3 then some (4, 0x80, 0xBF)
  else if b = 0xF4 then some (4, 0x80, 0x8F)
  else none

/-- The function `utf8.DecodeRuneInString`: the first rune of `s` and its width
in bytes; `(RuneError, 1)` on an invalid encoding, `(RuneError, 0)` on `""`. -/
def DecodeRuneInString (s : GoString) : Nat × Nat :=
  match s with
  | [] => (RuneError, 0)
  | s0 :: t =>
    if s0 < RuneSelf then (s0, 1)
    else
      match leadInfo s0 with
      | none => (RuneError, 1)
      | some (sz, lo, hi) =>
        if s.length < sz then (RuneError, 1)
        else
          match t with
          | [] => (RuneError, 1)
          | s1 :: t1 =>
            if s1 < lo ∨ hi < s1 then (RuneError, 1)
            else if sz ≤ 2 then (((s0 &&& 0x1F) <<< 6) ||| (s1 &&& 0x3F), 2)
            else
              match t1 with
              | [] => (RuneError, 1)
              | s2 :: t2 =>
                if s2 < 0x80 ∨ 0xBF < s2 then (RuneError, 1)
                else if sz ≤ 3 then
                  (((s0 &&& 0x0F) <<< 12) ||| ((s1 &&& 0x3F) <<< 6) ||| (s2 &&& 0x3F), 3)
                else
                  match t2 with
                  | [] => (RuneError, 1)
                  | s3 :: _ =>
                    if s3 < 0x80 ∨ 0xBF < s3 then (RuneError, 1)
                    else
                      (((s0 &&& 0x07) <<< 18) ||| ((s1 &&& 0x3F) <<< 12)
                        ||| ((s2 &&& 0x3F) <<< 6) ||| (s3 &&& 0x3F), 4)

/-- The function `utf8.RuneStart`: `b` is not a continuation byte. -/
def RuneStart (b : Nat) : Bool := b &&& 0xC0 != 0x80

/-- The backward scan of `utf8.DecodeLastRuneInString`:
`for start--; start >= lim; start-- { if RuneStart(s[start]) { break } }`,
entered with the already decremented `start`. -/
def scanBack (s : GoString) (lim : Int) : Nat → Int → Int
  | 0, start => start
  | fuel + 1, start =>
    if start ≥ lim then
      if RuneStart (s.getD start.toNat 0) then start
      else scanBack s lim fuel (start - 1)
    else start

/-- The value of `start` in `utf8.DecodeLastRuneInString` after the backward scan
(at most `UTFMax` bytes back, down to `lim`) and the clamp `if start < 0`. -/
def lastRuneStart (s : GoString) : Int :=
  let endpos : Int := s.length
  let lim : Int := if endpos - UTFMax < 0 then 0 else endpos - UTFMax
  let start := scanBack s lim UTFMax (endpos - 1 - 1)
  if start < 0 then 0 else start

/-- The function `utf8.DecodeLastRuneInString`: the last rune of `s` and its width. -/
def DecodeLastRuneInString (s : GoString) : Nat × Nat :=
  let endpos : Int := s.length
  if endpos = 0 then (RuneError, 0)
  else
    let start : Int := endpos - 1
    let r := s.getD start.toNat 0
    if r < RuneSelf then (r, 1)
    else
      let start := lastRuneStart s
      let (r, size) := DecodeRuneInString (s.drop start.toNat)
      if start + size ≠ endpos then (RuneError, 1) else (r, size)

/-- The function `unicode.IsSpace`: the Latin-1 switch, then the `White_Space` table. -/
def IsSpace (r : Nat) : Bool :=
  if r ≤ 0xFF then
    decide (r = 9 ∨ r = 10 ∨ r = 11 ∨ r = 12 ∨ r = 13 ∨ r = 32 ∨ r = 0x85 ∨ r = 0xA0)
  else
    decide (r = 0x1680 ∨ (0x2000 ≤ r ∧ r ≤ 0x200A) ∨ r = 0x2028 ∨ r = 0x2029
      ∨ r = 0x202F ∨ r = 0x205F ∨ r = 0x3000)

/-- The function `utf8.AppendRune` on an empty buffer: the UTF-8 encoding of `r`
(surrogates and values above `MaxRune` are encoded as `RuneError`). -/
def encodeRune (r : Nat) : GoString :=
  if r ≤ 0x7F then [r]
  else if r ≤ 0x7FF then [0xC0 ||| (r >>> 6), 0x80 ||| (r &&& 0x3F)]
  else
    let r := if r > 0x10FFFF ∨ (0xD800 ≤ r ∧ r ≤ 0xDFFF) then RuneError else r
    if r ≤ 0xFFFF then
      [0xE0 ||| (r >>> 12), 0x80 ||| ((r >>> 6) &&& 0x3F), 0x80 ||| (r &&& 0x3F)]
    else
      [0xF0 ||| (r >>> 18), 0x80 ||| ((r >>> 12) &&& 0x3F),
        0x80 ||| ((r >>> 6) &&& 0x3F), 0x80 ||| (r &&& 0x3F)]

/-- The ASCII lower-casing of one byte: `'A'..'Z'` to `'a'..'z'`, `c += 'a' - 'A'`. -/
def asciiLower (c : Nat) : Nat := if 65 ≤ c ∧ c ≤ 90 then c + 32 else c

/-- The function `unicode.ToLower`: the ASCII fast path, and for the other runes
the case tables of the Unicode database, which are the parameter `tbl`. -/
def unicodeToLower (tbl : Nat → Nat) (r : Nat) : Nat :=
  if r ≤ 0x7F then asciiLower r else tbl r

/-! ## `strings` -/

/-- The table `strings.asciiSpace`: `'\t'`, `'\n'`, `'\v'`, `'\f'`, `'\r'`, `' '`. -/
def asciiSpace (c : Nat) : Bool :=
  decide (c = 9 ∨ c = 10 ∨ c = 11 ∨ c = 12 ∨ c = 13 ∨ c = 32)

/-- The loop of `strings.indexFunc(s, unicode.IsSpace, false)` inside
`strings.TrimLeftFunc`, returning the remaining string `s[i:]` directly (`""`
when every rune is white space).  `range` over a string decodes one rune at a
time and advances by its width. -/
def trimLeftLoop : Nat → GoString → GoString
  | 0, _ => []
  | fuel + 1, s =>
    if s = [] then []
    else
      let (r, size) := DecodeRuneInString s
      if IsSpace r then trimLeftLoop fuel (s.drop size) else s

/-- The function `strings.TrimLeftFunc(s, unicode.IsSpace)`. -/
def TrimLeftFunc (s : GoString) : GoString := trimLeftLoop s.length s

/-- The function `strings.lastIndexFunc(s, unicode.IsSpace, false)`, its loop
entered at position `i`: the index of the last rune that is not white space, or
`-1`. -/
def lastIndexLoop (s : GoString) : Nat → Nat → Int
  | 0, _ => -1
  | fuel + 1, i =>
    if i = 0 then -1
    else
      let (r, size) := DecodeLastRuneInString (s.take i)
      let i := i - size
      if IsSpace r then lastIndexLoop s fuel i else (i : Int)

/-- The function `strings.TrimRightFunc(s, unicode.IsSpace)`. -/
def TrimRightFunc (s : GoString) : GoString :=
  let i := lastIndexLoop s s.length s.length
  if 0 ≤ i ∧ s.getD i.toNat 0 ≥ RuneSelf then
    let (_, wid) := DecodeRuneInString (s.drop i.toNat)
    s.take (i + wid).toNat
  else s.take (i + 1).toNat

/-- The function `strings.TrimFunc(s, unicode.IsSpace)`. -/
def TrimFunc (s : GoString) : GoString := TrimRightFunc (TrimLeftFunc s)

/-- The second loop of `strings.TrimSpace`, run on the reversed string
`s[start:stop]`: trailing ASCII white space is dropped, and a non-ASCII byte
hands over to `TrimRightFunc`. -/
def trimSpaceRight : GoString → GoString
  | [] => []
  | c :: t =>
    if c ≥ RuneSelf then TrimRightFunc (c :: t).reverse
    else if asciiSpace c then trimSpaceRight t
    else (c :: t).reverse

/-- The function `strings.TrimSpace`: leading ASCII white space is dropped, a
non-ASCII byte hands over to `TrimFunc`, then the trailing white space goes. -/
def TrimSpace : GoString → GoString
  | [] => []
  | c :: t =>
    if c ≥ RuneSelf then TrimFunc (c :: t)
    else if asciiSpace c then TrimSpace t
    else trimSpaceRight (c :: t).reverse

/-- The second loop of `strings.Map(unicode.ToLower, s)`: every remaining rune is
mapped and appended to the builder. -/
def mapRest (tbl : Nat → Nat) : Nat → GoString → GoString
  | 0, _ => []
  | fuel + 1, s =>
    if s = [] then []
    else
      let (c, size) := DecodeRuneInString s
      encodeRune (unicodeToLower tbl c) ++ mapRest tbl fuel (s.drop size)

/-- The first loop of `strings.Map(unicode.ToLower, s)`: runes that the mapping
leaves alone are skipped; at the first rune that changes (or invalid byte) the
output is the untouched prefix, the mapped rune and the mapped rest.  `pre` is
the prefix `s[:i]` already skipped, `s` the part still to read. -/
def mapFirst (tbl : Nat → Nat) : Nat → GoString → GoString → GoString
  | 0, pre, _ => pre
  | fuel + 1, pre, s =>
    if s = [] then pre
    else
      let (c, size) := DecodeRuneInString s
      let r := unicodeToLower tbl c
      if r = c ∧ ¬ (c = RuneError ∧ size = 1) then
        mapFirst tbl fuel (pre ++ s.take size) (s.drop size)
      else pre ++ encodeRune r ++ mapRest tbl fuel (s.drop size)

/-- The function `strings.ToLower`: byte-wise on an ASCII string, and
`Map(unicode.ToLower, s)` otherwise. -/
def ToLower (tbl : Nat → Nat) (s : GoString) : GoString :=
  if s.all (fun c => decide (c < RuneSelf)) then
    if s.any (fun c => decide (65 ≤ c ∧ c ≤ 90)) then s.map asciiLower else s
  else mapFirst tbl s.length [] s

/-- The loop of `strings.LastIndexByte`, run on the reversed string from index
`i = len(s) - 1` downwards. -/
def lastIndexByteLoop (c : Nat) : GoString → Int → Int
  | [], _ => -1
  | a :: t, i => if a = c then i else lastIndexByteLoop c t (i - 1)

/-- The function `strings.LastIndexByte`: the index of the last `c` in `s`, or `-1`. -/
def LastIndexByte (s : GoString) (c : Nat) : Int :=
  lastIndexByteLoop c s.reverse ((s.length : Int) - 1)

/-! ## `sort.SliceStable` and Go maps -/

/-- Insertion of `a` in front of a sorted list, before the first element that is
not smaller than `a`. -/
def insertStable {α : Type} (less : α → α → Bool) (a : α) : List α → List α
  | [] => [a]
  | b :: l => if less b a then b :: insertStable less a l else a :: b :: l

/-- The function `sort.SliceStable`: the stable sort by `less` (elements that
`less` does not order keep their original order). -/
def sortSliceStable {α : Type} (less : α → α → Bool) : List α → List α
  | [] => []
  | a :: l => insertStable less a (sortSliceStable less l)

/-- A Go `map[string]int`: the entries, with pairwise distinct keys. -/
abbrev GoMap := List (GoString × Int)

/-- The statement `counts[d]++` (a missing key reads as zero). -/
def GoMap.incr : GoMap → GoString → GoMap
  | [], d => [(d, 1)]
  | (k, v) :: m, d => if k = d then (k, v + 1) :: m else (k, v) :: GoMap.incr m d

/-- The order in which `for d, c := range counts` enumerates a map: unspecified
by the language, some rearrangement of the entries. -/
structure RangeOrder where
  enum : GoMap → GoMap
  perm : ∀ m, (enum m).Perm m

/-- The iteration order that enumerates the entries as they are stored. -/
def RangeOrder.stored : RangeOrder := ⟨fun m => m, fun m => List.Perm.refl m⟩

/-- The iteration order that enumerates the entries backwards. -/
def RangeOrder.backwards : RangeOrder := ⟨fun m => m.reverse, fun m => List.reverse_perm m⟩

/-- The comparison `s < t` of Go strings: byte-wise lexicographic. -/
def strLess : GoString → GoString → Bool
  | [], [] => false
  | [], _ :: _ => true
  | _ :: _, [] => false
  | a :: s, b :: t => if a < b then true else if b < a then false else strLess s t

/-! ## `customerimporter` -/

/-- The type `customerimporter.Config`. -/
structure Config where
  Path : GoString
  EmailHeader : GoString
  AllowSingleLabelDomain : Bool

/-- The type `customerimporter.DomainData`. -/
structure DomainData where
  Domain : GoString
  CustomerQuantity : Int
  deriving DecidableEq, Repr

/-- The type `customerimporter.Stats`. -/
structure Stats where
  TotalRows : Int
  BadRows : Int
  UniqueDomains : Int
  deriving DecidableEq, Repr

/-- The type `customerimporter.Result`; its zero value is `⟨[], ⟨0, 0, 0⟩⟩`. -/
structure Result where
  Data : List DomainData
  Stats : Stats
  deriving DecidableEq, Repr

/-- The errors `ImportDomainData` can meet: `io.EOF`, the package's
`ErrEmailHeaderMissing`, and any other error of the operating system or of the
CSV reader. -/
inductive GoError where
  | EOF
  | ErrEmailHeaderMissing
  | other (code : Nat)
  deriving DecidableEq, Repr

/-- What `os.Open(cfg.Path)` and the CSV reader deliver: the error of `os.Open`
if it fails, and the successive results of `r.Read()` (a record, or an error);
when the list is exhausted `Read` returns `io.EOF`. -/
structure CsvSource where
  openErr : Option GoError
  reads : List (Except GoError (List GoString))

/-- Outcome of the loop of `isValidDomain`: an early `return`, or the values of
`dotCount` and `labelLen` at the end of the string. -/
inductive ScanResult where
  | ret (b : Bool)
  | done (dotCount labelLen : Int)
  deriving DecidableEq, Repr

/-- The loop `for i := 0; i < len(domain); i++` of `isValidDomain`; `rest` is
`domain[i:]`, whose head is `c := domain[i]`.  The read `domain[i-1]` is checked:
`none` is the index-out-of-range panic. -/
def isValidDomainLoop (domain : GoString) : GoString → Int → Int → Int → Option ScanResult
  | [], _, dotCount, labelLen => some (ScanResult.done dotCount labelLen)
  | c :: rest, i, dotCount, labelLen =>
    if c = 46 then
      if labelLen = 0 ∨ labelLen > 63 then some (ScanResult.ret false)
      else if i - 1 < 0 then none
      else
        match domain.get? (i - 1).toNat with
        | none => none
        | some p =>
          if p = 45 then some (ScanResult.ret false)
          else isValidDomainLoop domain rest (i + 1) (dotCount + 1) 0
    else
      let isAlpha := (c ≥ 97 ∧ c ≤ 122) ∨ (c ≥ 65 ∧ c ≤ 90)
      let isDigit := c ≥ 48 ∧ c ≤ 57
      if ¬ (isAlpha ∨ isDigit ∨ c = 45) then some (ScanResult.ret false)
      else if labelLen = 0 ∧ c = 45 then some (ScanResult.ret false)
      else if labelLen + 1 > 63 then some (ScanResult.ret false)
      else isValidDomainLoop domain rest (i + 1) dotCount (labelLen + 1)

/-- The statements of `isValidDomain` after its loop (lines 150 to 159), applied
to what the loop produced.  The read `domain[len(domain)-1]` is checked. -/
def validTail (domain : GoString) (allowSingle : Bool) : Option ScanResult → Option Bool
  | none => none
  | some (ScanResult.ret b) => some b
  | some (ScanResult.done dotCount labelLen) =>
    if labelLen = 0 ∨ labelLen > 63 then some false
    else if (domain.length : Int) - 1 < 0 then none
    else
      match domain.get? ((domain.length : Int) - 1).toNat with
      | none => none
      | some p =>
        if p = 45 then some false
        else if !allowSingle && decide (dotCount = 0) then some false
        else some true

/-- The function `isValidDomain`; `none` is a panic. -/
def isValidDomain (domain : GoString) (allowSingle : Bool) : Option Bool :=
  if domain = [] ∨ domain.length > 253 then some false
  else validTail domain allowSingle (isValidDomainLoop domain domain 0 0 0)

/-- The function `findHeaderIndex`, its loop entered at index `i` with the cells
`header[i:]` still to visit. -/
def findHeaderIndexLoop (tbl : Nat → Nat) (target : GoString) : List GoString → Int → Int
  | [], _ => -1
  | h :: rest, i =>
    if ToLower tbl (TrimSpace h) = target then i
    else findHeaderIndexLoop tbl target rest (i + 1)

/-- The function `findHeaderIndex`. -/
def findHeaderIndex (tbl : Nat → Nat) (header : List GoString) (name : GoString) : Int :=
  findHeaderIndexLoop tbl (ToLower tbl (TrimSpace name)) header 0

/-- The statements of `extractDomain` after the trimming (lines 178 to 205), on
the trimmed string `e`. -/
def domainOf (e : GoString) : GoString × Bool :=
  let pos := LastIndexByte e 64
  if e = [] ∨ pos ≤ 0 ∨ pos + 1 ≥ e.length then ([], false)
  else
    let dom := e.drop (pos + 1).toNat
    if dom.any (fun c => decide (c ≥ 65 ∧ c ≤ 90)) then (dom.map asciiLower, true)
    else (dom, true)

/-- The function `extractDomain`. -/
def extractDomain (email : GoString) : GoString × Bool :=
  let n := email.length
  let e :=
    if n > 0 ∧ (email.get? 0 = some 32 ∨ email.get? (n - 1) = some 32
        ∨ email.get? 0 = some 9 ∨ email.get? (n - 1) = some 9) then
      TrimSpace email
    else email
  domainOf e

/-- The closure `less` that `makeSortedData` hands to `sort.SliceStable`. -/
def dataLess (a b : DomainData) : Bool :=
  if a.CustomerQuantity ≠ b.CustomerQuantity then
    decide (a.CustomerQuantity > b.CustomerQuantity)
  else strLess a.Domain b.Domain

/-- The function `makeSortedData`: the entries of the map, in the order `range`
enumerates them, sorted by count descending and then by domain ascending. -/
def makeSortedData (ρ : RangeOrder) (counts : GoMap) : List DomainData :=
  sortSliceStable dataLess ((ρ.enum counts).map (fun p => DomainData.mk p.1 p.2))

/-- The record loop of `ImportDomainData` (lines 82 to 104): the statistics and
the map after the last record, and the error that ended the loop if it was not
`io.EOF`.  `none` is a panic. -/
def importLoop (emailIdx : Int) (allowSingle : Bool) :
    List (Except GoError (List GoString)) → Stats → GoMap →
      Option (Stats × GoMap × Option GoError)
  | [], st, counts => some (st, counts, none)
  | Except.error e :: _, st, counts =>
    if e = GoError.EOF then some (st, counts, none) else some (st, counts, some e)
  | Except.ok rec :: rest, st, counts =>
    let st := { st with TotalRows := st.TotalRows + 1 }
    if emailIdx ≥ rec.length then
      importLoop emailIdx allowSingle rest { st with BadRows := st.BadRows + 1 } counts
    else
      match rec.get? emailIdx.toNat with
      | none => none
      | some field =>
        let (domain, ok) := extractDomain field
        if ok then
          match isValidDomain domain allowSingle with
          | none => none
          | some true => importLoop emailIdx allowSingle rest st (GoMap.incr counts domain)
          | some false =>
            importLoop emailIdx allowSingle rest { st with BadRows := st.BadRows + 1 } counts
        else importLoop emailIdx allowSingle rest { st with BadRows := st.BadRows + 1 } counts

/-- The method `(*Importer).ImportDomainData`, for the configuration `cfg` and the
content `src` of the file at `cfg.Path`: the `Result` and the error returned
(`none` for `nil`).  The outer `none` is a panic.  The capacity hint of the map
(lines 70 to 80) does not change what the map holds and is left out. -/
def ImportDomainData (ρ : RangeOrder) (tbl : Nat → Nat) (cfg : Config) (src : CsvSource) :
    Option (Result × Option GoError) :=
  let res : Result := ⟨[], ⟨0, 0, 0⟩⟩
  match src.openErr with
  | some err => some (res, some err)
  | none =>
    match src.reads with
    | [] => some (res, some GoError.EOF)
    | Except.error err :: _ => some (res, some err)
    | Except.ok header :: reads =>
      let emailIdx := findHeaderIndex tbl header cfg.EmailHeader
      if emailIdx < 0 then some (res, some GoError.ErrEmailHeaderMissing)
      else
        match importLoop emailIdx cfg.AllowSingleLabelDomain reads res.Stats [] with
        | none => none
        | some (st, _, some err) => some (⟨res.Data, st⟩, some err)
        | some (st, counts, none) =>
          let data := makeSortedData ρ counts
          some (⟨data, { st with UniqueDomains := data.length }⟩, none)

/-! ## The rules of the specification, in its own words -/

/-- Spec 4.1, rule 2: a byte of `[a-zA-Z0-9-]`. -/
def specLabelByte (c : Nat) : Bool :=
  decide ((97 ≤ c ∧ c ≤ 122) ∨ (65 ≤ c ∧ c ≤ 90) ∨ (48 ≤ c ∧ c ≤ 57) ∨ c = 45)

/-- Spec 4.1, rule 2: a label has length 1 to 63, is composed only of
`[a-zA-Z0-9-]`, and neither starts nor ends with `-`. -/
def specLabelOk (l : GoString) : Bool :=
  decide (1 ≤ l.length ∧ l.length ≤ 63) && l.all specLabelByte
    && decide (l.head? ≠ some 45) && decide (l.getLast? ≠ some 45)

/-- Spec 4.1, rule 2: the dot-separated labels of a domain (the pieces between
the dots; a leading dot, a trailing dot or a double dot gives an empty label). -/
def specLabels : GoString → List GoString
  | [] => [[]]
  | c :: t =>
    if c = 46 then [] :: specLabels t
    else
      match specLabels t with
      | [] => [[c]]
      | l :: ls => (c :: l) :: ls

/-- The string neither begins nor ends with a space or a tab. -/
def NoSpaceTabEnds (e : GoString) : Prop :=
  e.head? ≠ some 32 ∧ e.head? ≠ some 9 ∧ e.getLast? ≠ some 32 ∧ e.getLast? ≠ some 9

instance (e : GoString) : Decidable (NoSpaceTabEnds e) := by
  unfold NoSpaceTabEnds; infer_instance

/-! ## Auxiliary definitions for the statements -/

/-- The value `m[d]` stored for a key, if any. -/
def GoMap.find : GoMap → GoString → Option Int
  | [], _ => none
  | (k, v) :: m, d => if k = d then some v else GoMap.find m d

/-- What lines 93 to 103 of `ImportDomainData` do with one record: the domain
whose counter is incremented, or `none` when the record is tallied in `BadRows`. -/
def rowDomain (emailIdx : Int) (allowSingle : Bool) (rec : List GoString) : Option GoString :=
  if emailIdx ≥ rec.length then none
  else
    match rec.get? emailIdx.toNat with
    | none => none
    | some field =>
      if (extractDomain field).2 = true
          ∧ isValidDomain (extractDomain field).1 allowSingle = some true then
        some (extractDomain field).1
      else none

/-- Spec 4.2, step 1: some cell of the header matches the configured name, both
being trimmed and lower-cased. -/
def HasEmailColumn (tbl : Nat → Nat) (header : List GoString) (name : GoString) : Prop :=
  ∃ h ∈ header, ToLower tbl (TrimSpace h) = ToLower tbl (TrimSpace name)

instance (tbl : Nat → Nat) (header : List GoString) (name : GoString) :
    Decidable (HasEmailColumn tbl header name) := by
  unfold HasEmailColumn; infer_instance

/-- Spec 4.2, step 3: the record `row` counts for the domain `d`: it has more than
`k` fields, `extractDomain(row[k])` is `(d, true)` and `isValidDomain` accepts `d`. -/
def rowYields (k : Int) (allowSingle : Bool) (d : GoString) (row : List GoString) : Bool :=
  decide (k < row.length) &&
    match row.get? k.toNat with
    | none => false
    | some field =>
      decide (extractDomain field = (d, true)) && decide (isValidDomain d allowSingle = some true)

/-- The data records of a source that is read without error up to end of input. -/
def recordsSource (header : List GoString) (rows : List (List GoString)) : CsvSource :=
  ⟨none, Except.ok header :: rows.map Except.ok⟩

/-- The map `counts` after the records `rows`. -/
def finalCounts (k : Int) (allowSingle : Bool) (rows : List (List GoString)) : GoMap :=
  (rows.filterMap (rowDomain k allowSingle)).foldl GoMap.incr []

/-- A run of white space: the UTF-8 encodings of runes that `unicode.IsSpace`
accepts, one after the other. -/
def SpaceRun (w : GoString) : Prop :=
  ∃ rs : List Nat, (∀ r ∈ rs, IsSpace r = true) ∧ w = (rs.map encodeRune).flatten

/-- The runes of a string as `for _, r := range s` yields them (a byte that is
not part of a valid encoding gives `RuneError`), each mapped by `unicode.ToLower`. -/
def lowerRunes (tbl : Nat → Nat) : Nat → GoString → List Nat
  | 0, _ => []
  | fuel + 1, s =>
    if s = [] then []
    else
      let (c, size) := DecodeRuneInString s
      unicodeToLower tbl c :: lowerRunes tbl fuel (s.drop size)

/-- Spec 8, header matching: `b` differs from `a` only in surrounding white space
and in letter case, as far as `unicode.ToLower` tells: both are a core with runs
of white space around it, and either the cores are equal up to the case of the
ASCII letters, or the cores have no white space at their ends
(`strings.TrimSpace` leaves them as they are) and have, rune by rune, the same
image under `unicode.ToLower`. -/
def CaseSpaceVariant (tbl : Nat → Nat) (a b : GoString) : Prop :=
  ∃ p c s p' c' s', a = p ++ c ++ s ∧ b = p' ++ c' ++ s'
    ∧ SpaceRun p ∧ SpaceRun s ∧ SpaceRun p' ∧ SpaceRun s'
    ∧ (c.map asciiLower = c'.map asciiLower
        ∨ (TrimSpace c = c ∧ TrimSpace c' = c'
            ∧ lowerRunes tbl c.length c = lowerRunes tbl c'.length c'))

/-- A case table for the examples: it agrees with `unicode.ToLower` on the
Latin-1 letters (`U+00C0` to `U+00DE` without the sign `U+00D7` move by 32) and
on the long s `U+017F`, which is a lower-case letter and stays; the other runes
are left alone. -/
def latin1Lower (r : Nat) : Nat :=
  if 0xC0 ≤ r ∧ r ≤ 0xDE ∧ r ≠ 0xD7 then r + 32 else r

/-- Spec 7, RowMalformed: the record has at most `k` fields, or `extractDomain`
fails on the field `k`, or `isValidDomain` rejects the extracted domain. -/
def rowBad (k : Int) (allowSingle : Bool) (row : List GoString) : Bool :=
  decide ((row.length : Int) ≤ k) ||
    match row.get? k.toNat with
    | none => true
    | some field =>
      !(extractDomain field).2
        || decide (isValidDomain (extractDomain field).1 allowSingle = some false)

/-- What the reader delivers when the header and the records `rows` are read and
the next read fails with `err`; `rest` is never asked for. -/
def failingSource (header : List GoString) (rows : List (List GoString)) (err : GoError)
    (rest : List (Except GoError (List GoString))) : CsvSource :=
  ⟨none, Except.ok header :: (rows.map Except.ok ++ Except.error err :: rest)⟩

/-! ## Package `exporter`

`WriteCSV(w, data)` writes through `csv.NewWriter(w)`: a `csv.Writer` with the
comma as delimiter and `"\n"` as line end, on top of a `bufio.Writer` of 4096
bytes, on top of the `io.Writer` of the caller.  The three layers are modelled
as they are written in the standard library; the state of the caller's writer is
passed explicitly. -/

/-- The errors of writing: `io.ErrShortWrite`, or any error of the caller's
writer. -/
inductive WriteError where
  | ErrShortWrite
  | other (code : Nat)
  deriving DecidableEq, Repr

/-- An `io.Writer` whose state has type `σ`: `Write(p)` gives the new state, the
number of bytes taken and the error.  `WriteString` is present when the writer is
also an `io.StringWriter`.  A writer is expected to take at most `len(p)` bytes. -/
structure IoWriter (σ : Type) where
  Write : σ → GoString → σ × Nat × Option WriteError
  WriteString : Option (σ → GoString → σ × Nat × Option WriteError)

/-- The writer `bytes.Buffer`, whose state is its content: it appends and never
fails. -/
def bytesBuffer : IoWriter GoString :=
  ⟨fun s p => (s ++ p, p.length, none), some (fun s p => (s ++ p, p.length, none))⟩

/-- The writer `failingWriter{n: n}` of `exporter_test.go`; the state is the
field `i`. -/
def failingWriter (n : Int) : IoWriter Int :=
  ⟨fun i p => if i ≥ n then (i, 0, some (WriteError.other 0)) else (i + 1, p.length, none),
    none⟩

/-- The writer `shortWriter` of `exporter_test.go`; the state is the field
`done`. -/
def shortWriter : IoWriter Bool :=
  ⟨fun done p =>
      if !done then (true, p.length / 2, some WriteError.ErrShortWrite)
      else (done, 0, some (WriteError.other 0)),
    none⟩

/-- The state of a `bufio.Writer`: the remembered error `err`, the buffered bytes
`buf[0:n]`, and the state of the underlying writer `wr`. -/
structure BufioWriter (σ : Type) where
  err : Option WriteError
  buf : GoString
  wr : σ

/-- The size of the buffer of `bufio.NewWriter`. -/
def defaultBufSize : Nat := 4096

/-- The method `Available` of `bufio.Writer`: `len(b.buf) - b.n`. -/
def BufioWriter.Available {σ : Type} (b : BufioWriter σ) : Nat :=
  defaultBufSize - b.buf.length

/-- The method `Flush` of `bufio.Writer`. -/
def BufioWriter.Flush {σ : Type} (W : IoWriter σ) (b : BufioWriter σ) :
    BufioWriter σ × Option WriteError :=
  if b.err.isSome then (b, b.err)
  else if b.buf.length = 0 then (b, none)
  else
    match W.Write b.wr b.buf with
    | (wr, n, err) =>
      let err := if n < b.buf.length ∧ err = none then some WriteError.ErrShortWrite else err
      if err.isSome then (⟨err, b.buf.drop n, wr⟩, err)
      else (⟨none, [], wr⟩, none)

/-- The loop `for len(s) > b.Available() && b.err == nil` of the method
`WriteString` of `bufio.Writer`: with an empty buffer and an underlying
`io.StringWriter` the string is forwarded, otherwise the buffer is filled and
flushed.  The result is the writer and what is left of `s`; `none` when the loop
has not ended after `fuel` rounds. -/
def BufioWriter.writeStringLoop {σ : Type} (W : IoWriter σ) :
    Nat → BufioWriter σ → GoString → Option (BufioWriter σ × GoString)
  | 0, _, _ => none
  | fuel + 1, b, s =>
    if s.length > b.Available ∧ b.err = none then
      match (if b.buf.length = 0 then W.WriteString else none) with
      | some sw =>
        match sw b.wr s with
        | (wr, n, err) => writeStringLoop W fuel ⟨err, b.buf, wr⟩ (s.drop n)
      | none =>
        let n := min b.Available s.length
        writeStringLoop W fuel (BufioWriter.Flush W ⟨b.err, b.buf ++ s.take n, b.wr⟩).1
          (s.drop n)
    else some (b, s)

/-- The method `WriteString` of `bufio.Writer`; `none` when its loop does not
end (a writer that takes nothing and reports no error). -/
def BufioWriter.WriteString {σ : Type} (W : IoWriter σ) (b : BufioWriter σ) (s : GoString) :
    Option (BufioWriter σ × Option WriteError) :=
  match BufioWriter.writeStringLoop W (s.length + 2) b s with
  | none => none
  | some (b, s) =>
    if b.err.isSome then some (b, b.err)
    else some (⟨b.err, b.buf ++ s.take b.Available, b.wr⟩, none)

/-- The method `WriteByte` of `bufio.Writer`. -/
def BufioWriter.WriteByte {σ : Type} (W : IoWriter σ) (b : BufioWriter σ) (c : Nat) :
    BufioWriter σ × Option WriteError :=
  if b.err.isSome then (b, b.err)
  else if b.Available ≤ 0 then
    match BufioWriter.Flush W b with
    | (b, some _) => (b, b.err)
    | (b, none) => (⟨b.err, b.buf ++ [c], b.wr⟩, none)
  else (⟨b.err, b.buf ++ [c], b.wr⟩, none)

/-- The method `fieldNeedsQuotes` of `csv.Writer`, the delimiter being the
comma: an empty field needs none; the field `\.`, a field with a line feed, a
carriage return, a double quote or a comma, and a field that begins with white
space need quotes. -/
def fieldNeedsQuotes (field : GoString) : Bool :=
  if field = [] then false
  else if field = [92, 46] then true
  else if field.any (fun c => c = 10 || c = 13 || c = 34 || c = 44) then true
  else IsSpace (DecodeRuneInString field).1

/-- The function `strings.IndexAny(s, chars)` for ASCII `chars`, from index `i`
on. -/
def indexAnyLoop (chars : GoString) : GoString → Int → Int
  | [], _ => -1
  | c :: rest, i => if chars.contains c then i else indexAnyLoop chars rest (i + 1)

/-- The function `strings.IndexAny` for ASCII `chars`. -/
def IndexAny (s chars : GoString) : Int := indexAnyLoop chars s 0

/-- The loop `for len(field) > 0` of the method `Write` of `csv.Writer`, which
writes a quoted field: the bytes before the next double quote, carriage return
or line feed are copied, a double quote is doubled, the other two are written as
they are (`UseCRLF` is false). -/
def csvQuoteLoop {σ : Type} (W : IoWriter σ) :
    Nat → BufioWriter σ → GoString → Option (BufioWriter σ × Option WriteError)
  | 0, _, _ => none
  | fuel + 1, b, field =>
    if field.length > 0 then
      let i := IndexAny field [34, 13, 10]
      let i := if i < 0 then (field.length : Int) else i
      match BufioWriter.WriteString W b (field.take i.toNat) with
      | none => none
      | some (b, some err) => some (b, some err)
      | some (b, none) =>
        match field.drop i.toNat with
        | [] => csvQuoteLoop W fuel b []
        | c :: rest =>
          match (if c = 34 then BufioWriter.WriteString W b [34, 34]
                 else if c = 13 then some (BufioWriter.WriteByte W b 13)
                 else if c = 10 then some (BufioWriter.WriteByte W b 10)
                 else some (b, none)) with
          | none => none
          | some (b, some err) => some (b, some err)
          | some (b, none) => csvQuoteLoop W fuel b rest
    else some (b, none)

/-- One round of the loop `for n, field := range record` of the method `Write`
of `csv.Writer`, after the comma: the field as it is, or in double quotes. -/
def csvWriteField {σ : Type} (W : IoWriter σ) (b : BufioWriter σ) (field : GoString) :
    Option (BufioWriter σ × Option WriteError) :=
  if !fieldNeedsQuotes field then BufioWriter.WriteString W b field
  else
    match BufioWriter.WriteByte W b 34 with
    | (b, some err) => some (b, some err)
    | (b, none) =>
      match csvQuoteLoop W (field.length + 1) b field with
      | none => none
      | some (b, some err) => some (b, some err)
      | some (b, none) => some (BufioWriter.WriteByte W b 34)

/-- The loop `for n, field := range record` of the method `Write` of
`csv.Writer`, entered at index `n`. -/
def csvWriteFields {σ : Type} (W : IoWriter σ) :
    BufioWriter σ → Nat → List GoString → Option (BufioWriter σ × Option WriteError)
  | b, _, [] => some (b, none)
  | b, n, field :: rest =>
    match (if n > 0 then BufioWriter.WriteByte W b 44 else (b, none)) with
    | (b, some err) => some (b, some err)
    | (b, none) =>
      match csvWriteField W b field with
      | none => none
      | some (b, some err) => some (b, some err)
      | some (b, none) => csvWriteFields W b (n + 1) rest

/-- The method `Write` of `csv.Writer` (`Comma` is the comma, `UseCRLF` is
false): the fields, separated by commas, then a line feed. -/
def csvWrite {σ : Type} (W : IoWriter σ) (b : BufioWriter σ) (record : List GoString) :
    Option (BufioWriter σ × Option WriteError) :=
  match csvWriteFields W b 0 record with
  | none => none
  | some (b, some err) => some (b, some err)
  | some (b, none) => some (BufioWriter.WriteByte W b 10)

/-- The table `smallsString` of package `strconv`. -/
def smallsString : GoString :=
  ascii ("00010203040506070809" ++
    "10111213141516171819" ++
    "20212223242526272829" ++
    "30313233343536373839" ++
    "40414243444546474849" ++
    "50515253545556575859" ++
    "60616263646566676869" ++
    "70717273747576777879" ++
    "80818283848586878889" ++
    "90919293949596979899")

/-- The function `small` of package `strconv`, for `0 <= i < 100`. -/
def small (i : Nat) : GoString :=
  if i < 10 then [48 + i] else (smallsString.take (i * 2 + 2)).drop (i * 2)

/-- The loop of `formatBits` of package `strconv` for base 10, the digits being
written from the right, two at a time; `a` is what has been written. -/
def formatBits10 : Nat → Nat → GoString → GoString
  | 0, _, a => a
  | fuel + 1, us, a =>
    if us ≥ 100 then
      let is := us % 100 * 2
      formatBits10 fuel (us / 100) (smallsString.getD is 0 :: smallsString.getD (is + 1) 0 :: a)
    else
      let is := us * 2
      let a := smallsString.getD (is + 1) 0 :: a
      if us ≥ 10 then smallsString.getD is 0 :: a else a

/-- The function `strconv.Itoa`, that is `FormatInt(int64(i), 10)`: the fast path
`small` for `0 <= i < 100`, else `formatBits` on the absolute value, with the
sign in front. -/
def Itoa (i : Int) : GoString :=
  if 0 ≤ i ∧ i < 100 then small i.toNat
  else if i < 0 then 45 :: formatBits10 (i.natAbs + 1) i.natAbs []
  else formatBits10 (i.natAbs + 1) i.natAbs []

/-- The errors `WriteCSV` returns: the error of `cw.Error()` as it is, or an
error of `cw.Write` wrapped by `fmt.Errorf` for the header or for the row of a
domain. -/
inductive ExportError where
  | header (err : WriteError)
  | row (domain : GoString) (err : WriteError)
  | flush (err : WriteError)
  deriving DecidableEq, Repr

/-- The variable `csvHeader`. -/
def csvHeader : List GoString := [ascii "domain", ascii "number_of_customers"]

/-- The loop `for _, d := range data` of `WriteCSV`. -/
def writeRows {σ : Type} (W : IoWriter σ) :
    BufioWriter σ → List DomainData → Option (BufioWriter σ × Option ExportError)
  | cw, [] => some (cw, none)
  | cw, d :: rest =>
    match csvWrite W cw [d.Domain, Itoa d.CustomerQuantity] with
    | none => none
    | some (cw, some err) => some (cw, some (ExportError.row d.Domain err))
    | some (cw, none) => writeRows W cw rest

/-- The function `WriteCSV`: the state of the writer `w` at the end, and the
error returned; `none` when the call does not return.  `cw.Error()` is the
error remembered by the `bufio.Writer`. -/
def WriteCSV {σ : Type} (W : IoWriter σ) (w : σ) (data : List DomainData) :
    Option (σ × Option ExportError) :=
  match csvWrite W ⟨none, [], w⟩ csvHeader with
  | none => none
  | some (cw, some err) => some (cw.wr, some (ExportError.header err))
  | some (cw, none) =>
    match writeRows W cw data with
    | none => none
    | some (cw, some err) => some (cw.wr, some err)
    | some (cw, none) =>
      match BufioWriter.Flush W cw with
      | (cw, _) => some (cw.wr, cw.err.map ExportError.flush)

/-- A writer that never fails: every call takes all the bytes and returns no
error, and `written` (the bytes the writer has been given so far) grows by
them. -/
def NeverFails {σ : Type} (W : IoWriter σ) (written : σ → GoString) : Prop :=
  (∀ s p, (W.Write s p).2 = (p.length, none) ∧ written (W.Write s p).1 = written s ++ p)
    ∧ ∀ sw, W.WriteString = some sw →
        ∀ s p, (sw s p).2 = (p.length, none) ∧ written (sw s p).1 = written s ++ p

/-- The decimal numeral of a natural number. -/
def specDecimal (n : Nat) : GoString := ascii (Nat.repr n)

/-- The output the spec asks of the exporter: the header line, then one line
`Domain,count` for each entry, in order. -/
def specCSV (data : List DomainData) : GoString :=
  ascii "domain,number_of_customers\n"
    ++ (data.map (fun d =>
          d.Domain ++ ascii "," ++ specDecimal d.CustomerQuantity.toNat ++ ascii "\n")).flatten

/-! # Lemmas and theorems -/

/-! ### The tests of `importer_test.go`, replayed on the model

The records are given as the CSV reader delivers them (with `TrimLeadingSpace`
the leading white space of a field is already gone). -/

/-- The table of `TestExtractDomain`. -/
theorem test_extractDomain :
    extractDomain (ascii "") = (ascii "", false)
      ∧ extractDomain (ascii "   ") = (ascii "", false)
      ∧ extractDomain (ascii "@") = (ascii "", false)
      ∧ extractDomain (ascii "a@") = (ascii "", false)
      ∧ extractDomain (ascii "@b") = (ascii "", false)
      ∧ extractDomain (ascii "a@b@") = (ascii "", false)
      ∧ extractDomain (ascii "noatsign") = (ascii "", false)
      ∧ extractDomain (ascii " a@B.com ") = (ascii "b.com", true)
      ∧ extractDomain (ascii "Alice@Example.COM") = (ascii "example.com", true)
      ∧ extractDomain (ascii "user@sub.Example.Co.UK") = (ascii "sub.example.co.uk", true)
      ∧ extractDomain (ascii "a@b@c") = (ascii "c", true) := by
  decide

/-- The table of `TestFindHeaderIndex`, whatever the Unicode case table. -/
theorem test_findHeaderIndex (tbl : Nat → Nat) :
    findHeaderIndex tbl [ascii "email"] (ascii "email") = 0
      ∧ findHeaderIndex tbl [ascii "EMAIL"] (ascii "email") = 0
      ∧ findHeaderIndex tbl [ascii "  Email  "] (ascii "email") = 0
      ∧ findHeaderIndex tbl [ascii "name", ascii " email ", ascii "id"] (ascii "email") = 1
      ∧ findHeaderIndex tbl [ascii "name", ascii "mail"] (ascii "email") = -1 :=
  ⟨rfl, rfl, rfl, rfl, rfl⟩

/-- The domains of `TestDomainValidation_StrictMode` and of
`TestDomainValidation_PermissiveMode_SingleLabelAllowed`. -/
theorem test_isValidDomain :
    isValidDomain (ascii "com") false = some false
      ∧ isValidDomain (ascii "c") false = some false
      ∧ isValidDomain (ascii "b.com") false = some true
      ∧ isValidDomain (ascii "b.co.uk") false = some true
      ∧ isValidDomain (ascii "example.com") false = some true
      ∧ isValidDomain (ascii "-b.com") false = some false
      ∧ isValidDomain (ascii "b-.com") false = some false
      ∧ isValidDomain (ascii "b..com") false = some false
      ∧ isValidDomain (ascii ".com") false = some false
      ∧ isValidDomain (ascii "com") true = some true
      ∧ isValidDomain (ascii "c") true = some true
      ∧ isValidDomain (ascii "-corp") true = some false
      ∧ isValidDomain (ascii "corp-") true = some false
      ∧ isValidDomain (ascii "co..rp") true = some false
      ∧ isValidDomain (ascii "foo.com") true = some true := by
  decide

/-- The scenario `Skips_bad_rows_and_tracks_stats` of `TestImporter_Scenarios`. -/
theorem test_skips_bad_rows :
    ImportDomainData RangeOrder.backwards id ⟨ascii "in.csv", ascii "email", false⟩
        (recordsSource [ascii "email", ascii "name"]
          [[ascii "", ascii "nobody"], [ascii "@b", ascii "x"], [ascii "a@", ascii "y"],
            [ascii "a@b@", ascii "z"], [ascii "noatsign", ascii "k"],
            [ascii "a@B.com ", ascii "A"], [ascii "Alice@Example.com", ascii "Alice"],
            [ascii "onlyname"]])
      = some (⟨[⟨ascii "b.com", 1⟩, ⟨ascii "example.com", 1⟩], ⟨8, 6, 2⟩⟩, none) := by
  decide

/-- The scenario `Allows_ragged_rows` of `TestImporter_Scenarios`. -/
theorem test_ragged_rows :
    ImportDomainData RangeOrder.stored id ⟨ascii "in.csv", ascii "email", false⟩
        (recordsSource [ascii "name", ascii "email", ascii "city"]
          [[ascii "Alice", ascii "a@x.com", ascii "Paris"], [ascii "Bob"],
            [ascii "Carol", ascii "c@y.com", ascii "NYC"]])
      = some (⟨[⟨ascii "x.com", 1⟩, ⟨ascii "y.com", 1⟩], ⟨3, 1, 2⟩⟩, none) := by
  decide

/-- The case `Ties_sorted_by_domain` of `TestImporter_SortOrderStable`, the map
being enumerated backwards. -/
theorem test_sort_order :
    ImportDomainData RangeOrder.backwards id ⟨ascii "in.csv", ascii "email", false⟩
        (recordsSource [ascii "email"]
          [[ascii "x@a.com"], [ascii "y@a.com"], [ascii "z@a.com"], [ascii "m@b.com"],
            [ascii "n@b.com"], [ascii "o@b.com"], [ascii "p@c.com"], [ascii "q@c.com"],
            [ascii "r@d.com"]])
      = some (⟨[⟨ascii "a.com", 3⟩, ⟨ascii "b.com", 3⟩, ⟨ascii "c.com", 2⟩,
          ⟨ascii "d.com", 1⟩], ⟨9, 0, 4⟩⟩, none) := by
  decide

/-- The case `Missing_email_column_name` of `TestImporter_MissingEmailHeader`. -/
theorem test_missing_header :
    ImportDomainData RangeOrder.stored id ⟨ascii "in.csv", ascii "email", false⟩
        (recordsSource [ascii "not_email", ascii "name"] [[ascii "a@x.com", ascii "Alice"]])
      = some (⟨[], ⟨0, 0, 0⟩⟩, some GoError.ErrEmailHeaderMissing) := by
  decide

/-- The test `TestImporter_SingleLabel_Strict_vs_Permissive`. -/
theorem test_single_label :
    ImportDomainData RangeOrder.stored id ⟨ascii "in.csv", ascii "email", false⟩
        (recordsSource [ascii "email"] [[ascii "a@corp"], [ascii "b@corp"], [ascii "c@corp"]])
      = some (⟨[], ⟨3, 3, 0⟩⟩, none)
    ∧ ImportDomainData RangeOrder.stored id ⟨ascii "in.csv", ascii "email", true⟩
        (recordsSource [ascii "email"] [[ascii "a@corp"], [ascii "b@corp"], [ascii "c@corp"]])
      = some (⟨[⟨ascii "corp", 3⟩], ⟨3, 0, 1⟩⟩, none) := by
  decide

/-! ### The validator and the rules of the specification -/

theorem specLabels_ne_nil (s : GoString) : specLabels s ≠ [] := by
  induction s with
  | nil => simp [specLabels]
  | cons c t ih =>
    unfold specLabels
    split
    · simp
    · cases h : specLabels t with
      | nil => exact absurd h ih
      | cons l ls => simp

theorem specLabels_append (cur rest : GoString) (hcur : 46 ∉ cur) :
    ∃ hd tl, specLabels rest = hd :: tl ∧ specLabels (cur ++ rest) = (cur ++ hd) :: tl := by
  induction cur with
  | nil =>
    cases h : specLabels rest with
    | nil => exact absurd h (specLabels_ne_nil rest)
    | cons l ls => exact ⟨l, ls, rfl, by simpa using h⟩
  | cons c t ih =>
    have hc : c ≠ 46 := fun h => hcur (by simp [h])
    have ht : 46 ∉ t := fun h => hcur (by simp [h])
    obtain ⟨hd, tl, h1, h2⟩ := ih ht
    refine ⟨hd, tl, h1, ?_⟩
    show specLabels (c :: (t ++ rest)) = _
    rw [specLabels, if_neg hc, h2]
    rfl


theorem intercalate_singleton (sep a : GoString) : List.intercalate sep [a] = a := by
  simp [List.intercalate]

theorem intercalate_cons_cons (sep a b : GoString) (l : List GoString) :
    List.intercalate sep (a :: b :: l) = a ++ sep ++ List.intercalate sep (b :: l) := by
  simp [List.intercalate]

/-- The labels are what lies between the dots: joined with dots they give the
string back, and no label contains a dot. -/
theorem specLabels_join (d : GoString) :
    List.intercalate [46] (specLabels d) = d ∧ ∀ l ∈ specLabels d, 46 ∉ l := by
  induction d with
  | nil => exact ⟨rfl, by simp [specLabels]⟩
  | cons c t ih =>
    obtain ⟨h1, h2⟩ := ih
    unfold specLabels
    cases hs : specLabels t with
    | nil => exact absurd hs (specLabels_ne_nil t)
    | cons l ls =>
      rw [hs] at h1 h2
      by_cases hc : c = 46
      · subst hc
        rw [if_pos rfl]
        constructor
        · rw [intercalate_cons_cons, h1]; rfl
        · intro x hx
          rcases List.mem_cons.mp hx with e | e
          · subst e; simp
          · exact h2 x e
      · rw [if_neg hc]
        simp only []
        constructor
        · cases ls with
          | nil =>
            rw [intercalate_singleton] at h1 ⊢
            rw [h1]
          | cons l2 ls2 =>
            rw [intercalate_cons_cons] at h1 ⊢
            rw [← h1]; simp
        · intro x hx
          rcases List.mem_cons.mp hx with e | e
          · subst e
            intro hm
            rcases List.mem_cons.mp hm with e' | e'
            · exact hc e'.symm
            · exact h2 l (by simp) e'
          · exact h2 x (List.mem_cons_of_mem _ e)

theorem specLabelByte_ne_dot {c : Nat} (h : specLabelByte c = true) : c ≠ 46 := by
  simp [specLabelByte] at h; omega

theorem dot_not_mem_of_all {cur : GoString} (h : cur.all specLabelByte = true) : 46 ∉ cur := by
  intro hm
  rw [List.all_eq_true] at h
  exact specLabelByte_ne_dot (h 46 hm) rfl

theorem get?_last_of_append (pre0 cur : GoString) (hne : cur ≠ []) :
    (pre0 ++ cur).get? ((((pre0.length + cur.length : Nat) : Int) - 1).toNat) = cur.getLast? := by
  have hlen : 0 < cur.length := List.length_pos.mpr hne
  have e : ((((pre0.length + cur.length : Nat) : Int) - 1).toNat) = (pre0 ++ cur).length - 1 := by
    simp; omega
  rw [e, List.get?_eq_getElem?, ← List.getLast?_eq_getElem?, List.getLast?_append_of_ne_nil _ hne]

theorem specLabelOk_cur {cur : GoString} {p : Nat} (hall : cur.all specLabelByte = true)
    (hhead : cur.head? ≠ some 45) (hlen : cur.length ≤ 63) (hp : cur.getLast? = some p) :
    specLabelOk cur = decide (p ≠ 45) := by
  have hne : cur ≠ [] := by intro h; subst h; simp at hp
  have hpos : 0 < cur.length := List.length_pos.mpr hne
  have h1 : decide (1 ≤ cur.length ∧ cur.length ≤ 63) = true := by simp; omega
  have h2 : decide (cur.head? ≠ some 45) = true := by simpa using hhead
  simp only [specLabelOk, h1, hall, h2, hp, Bool.true_and]
  simp

theorem getLast?_some_of_ne_nil {cur : GoString} (hne : cur ≠ []) : ∃ p, cur.getLast? = some p := by
  cases h : cur.getLast? with
  | none => simp at h; exact absurd h hne
  | some p => exact ⟨p, rfl⟩

theorem validTail_loop (domain : GoString) (allow : Bool) :
    ∀ (rest pre0 cur : GoString) (dc : Int), domain = pre0 ++ cur ++ rest → 0 ≤ dc →
      cur.all specLabelByte = true → cur.head? ≠ some 45 → cur.length ≤ 63 →
      validTail domain allow
          (isValidDomainLoop domain rest ((pre0.length + cur.length : Nat) : Int) dc
            ((cur.length : Nat) : Int)) =
        some ((specLabels (cur ++ rest)).all specLabelOk
          && (allow || decide (dc + ((rest.count 46 : Nat) : Int) ≠ 0))) := by
  intro rest
  induction rest with
  | nil =>
    intro pre0 cur dc hdom hdc hall hhead hlen
    have hsplit : specLabels (cur ++ []) = [cur] := by
      obtain ⟨hd, tl, h1, h2⟩ := specLabels_append cur [] (dot_not_mem_of_all hall)
      simp [specLabels] at h1
      rw [h2, h1.1, h1.2]; simp
    rw [hsplit]
    simp only [isValidDomainLoop, validTail]
    by_cases hne : cur = []
    · subst hne; simp [specLabelOk]
    · have hpos : 0 < cur.length := List.length_pos.mpr hne
      have h1 : ¬ (((cur.length : Nat) : Int) = 0 ∨ ((cur.length : Nat) : Int) > 63) := by omega
      have h2 : ¬ ((domain.length : Int) - 1 < 0) := by
        rw [hdom]; simp; omega
      rw [if_neg h1, if_neg h2]
      have h3 : domain.get? ((domain.length : Int) - 1).toNat = cur.getLast? := by
        have := get?_last_of_append pre0 cur hne
        rw [hdom]; simpa using this
      rw [h3]
      obtain ⟨p, hp⟩ := getLast?_some_of_ne_nil hne
      rw [hp]
      simp only [List.all_cons, List.all_nil, Bool.and_true, specLabelOk_cur hall hhead hlen hp,
        List.count_nil, Nat.cast_zero, add_zero]
      by_cases h45 : p = 45
      · simp [h45]
      · cases allow
        · by_cases hz : dc = 0 <;> simp [h45, hz]
        · simp [h45]
  | cons c rest ih =>
    intro pre0 cur dc hdom hdc hall hhead hlen
    have hnd := dot_not_mem_of_all hall
    by_cases hc : c = 46
    · subst hc
      obtain ⟨hd, tl, h1, h2⟩ := specLabels_append cur (46 :: rest) hnd
      have h1' : specLabels (46 :: rest) = [] :: specLabels rest := by simp [specLabels]
      rw [h1'] at h1
      have hhd : hd = [] := (List.cons.inj h1).1.symm
      have htl : tl = specLabels rest := (List.cons.inj h1).2.symm
      subst hhd; subst htl
      rw [h2, List.append_nil]
      simp only [isValidDomainLoop, if_true]
      by_cases hne : cur = []
      · subst hne; simp [validTail, specLabelOk]
      · have hpos : 0 < cur.length := List.length_pos.mpr hne
        have g1 : ¬ (((cur.length : Nat) : Int) = 0 ∨ ((cur.length : Nat) : Int) > 63) := by omega
        have g2 : ¬ (((pre0.length + cur.length : Nat) : Int) - 1 < 0) := by omega
        rw [if_neg g1, if_neg g2]
        have g3 : domain.get? ((((pre0.length + cur.length : Nat) : Int) - 1).toNat)
            = cur.getLast? := by
          have := get?_last_of_append pre0 cur hne
          rw [hdom, List.get?_eq_getElem?, List.getElem?_append_left]
          · rw [← List.get?_eq_getElem?]; exact this
          · simp; omega
        rw [g3]
        obtain ⟨p, hp⟩ := getLast?_some_of_ne_nil hne
        rw [hp]
        simp only [List.all_cons, specLabelOk_cur hall hhead hlen hp]
        by_cases h45 : p = 45
        · simp [h45, validTail]
        · simp only [h45, if_false]
          have := ih (pre0 ++ cur ++ [46]) [] (dc + 1) (by simp [hdom]) (by omega) (by simp)
            (by simp) (by simp)
          have e1 : (((pre0 ++ cur ++ [46]).length + ([] : GoString).length : Nat) : Int)
              = ((pre0.length + cur.length : Nat) : Int) + 1 := by
            simp; omega
          have e2 : (dc + 1 + ((rest.count 46 : Nat) : Int))
              = dc + (((46 :: rest).count 46 : Nat) : Int) := by
            simp [List.count_cons]; ring
          rw [e1, e2] at this
          simp only [List.length_nil, Nat.cast_zero, List.nil_append] at this
          rw [this]
          simp [h45]
    · have hsplit : ∃ hd tl, specLabels (cur ++ c :: rest) = (cur ++ c :: hd) :: tl
          ∧ specLabels ((cur ++ [c]) ++ rest) = (cur ++ c :: hd) :: tl := by
        have hnd' : 46 ∉ cur ++ [c] := by simp [hnd]; exact fun h => hc h.symm
        obtain ⟨hd, tl, _, h2⟩ := specLabels_append (cur ++ [c]) rest hnd'
        refine ⟨hd, tl, ?_, ?_⟩
        · simpa using h2
        · simpa using h2
      obtain ⟨hd, tl, hs1, hs2⟩ := hsplit
      rw [hs1]
      simp only [isValidDomainLoop, if_neg hc]
      by_cases hb : specLabelByte c = true
      · have hb' : ¬ ¬ (((c ≥ 97 ∧ c ≤ 122) ∨ (c ≥ 65 ∧ c ≤ 90)) ∨ (c ≥ 48 ∧ c ≤ 57) ∨ c = 45) := by
          simp [specLabelByte] at hb; omega
        rw [if_neg hb']
        by_cases hstart : ((cur.length : Nat) : Int) = 0 ∧ c = 45
        · rw [if_pos hstart]
          have : cur = [] := by
            have := hstart.1; simp at this; exact this
          subst this
          simp [validTail, specLabelOk, hstart.2]
        · rw [if_neg hstart]
          by_cases hlong : ((cur.length : Nat) : Int) + 1 > 63
          · rw [if_pos hlong]
            have : specLabelOk (cur ++ c :: hd) = false := by
              simp [specLabelOk]; intro _ h; omega
            simp [validTail, this]
          · rw [if_neg hlong]
            have := ih pre0 (cur ++ [c]) dc (by simp [hdom]) hdc (by simp [hall, hb])
              (by
                cases cur with
                | nil => simp at hstart ⊢; exact hstart
                | cons a t => simpa using hhead)
              (by simp; omega)
            have e1 : ((pre0.length + (cur ++ [c]).length : Nat) : Int)
                = ((pre0.length + cur.length : Nat) : Int) + 1 := by
              simp; omega
            have e2 : (((cur ++ [c]).length : Nat) : Int) = ((cur.length : Nat) : Int) + 1 := by
              simp
            have e3 : rest.count 46 = (c :: rest).count 46 := by
              rw [List.count_cons_of_ne (fun h => hc h.symm)]
            rw [e1, e2, hs2, e3] at this
            exact this
      · have hb' : (¬ (((c ≥ 97 ∧ c ≤ 122) ∨ (c ≥ 65 ∧ c ≤ 90)) ∨ (c ≥ 48 ∧ c ≤ 57) ∨ c = 45)) := by
          simp [specLabelByte] at hb; omega
        rw [if_pos hb']
        have : specLabelOk (cur ++ c :: hd) = false := by
          simp [specLabelOk]; intro _ _ _ h; simp [hb] at h
        simp [validTail, this]

/-- The validator in closed form: it never panics, and accepts exactly the
strings the rules of the specification accept. -/
theorem isValidDomain_closed (d : GoString) (allow : Bool) :
    isValidDomain d allow =
      some (decide (d ≠ [] ∧ d.length ≤ 253) && (specLabels d).all specLabelOk
        && (allow || decide (46 ∈ d))) := by
  unfold isValidDomain
  by_cases h : d = [] ∨ d.length > 253
  · rw [if_pos h]
    have : decide (d ≠ [] ∧ d.length ≤ 253) = false := by
      simp only [decide_eq_false_iff_not]; intro hh; rcases h with h | h
      · exact hh.1 h
      · omega
    simp [this]
  · rw [if_neg h]
    have hl := validTail_loop d allow d [] [] 0 (by simp) (le_refl 0) (by simp) (by simp) (by simp)
    simp only [List.length_nil, Nat.cast_zero, List.nil_append, Nat.add_zero, zero_add] at hl
    rw [hl]
    have h1 : decide (d ≠ [] ∧ d.length ≤ 253) = true := by
      simp only [decide_eq_true_eq]; constructor
      · exact fun hh => h (Or.inl hh)
      · have := fun hh => h (Or.inr hh); omega
    have h2 : decide ((((d.count 46 : Nat) : Int)) ≠ 0) = decide (46 ∈ d) := by
      congr 1; apply propext
      rw [← List.count_pos_iff]; omega
    rw [h1, h2]; simp

/-- C4. `isValidDomain(d, true)` returns true exactly when `d` is non-empty, has
length at most 253, and every label obtained by splitting `d` on `'.'` has
length between 1 and 63, consists only of bytes in `[a-zA-Z0-9-]`, and neither
starts nor ends with `'-'`. -/
theorem isValidDomain_permissive_iff (d : GoString) :
    isValidDomain d true = some true ↔
      d ≠ [] ∧ d.length ≤ 253 ∧
        ∀ l ∈ specLabels d,
          (1 ≤ l.length ∧ l.length ≤ 63) ∧
            (∀ c ∈ l, (97 ≤ c ∧ c ≤ 122) ∨ (65 ≤ c ∧ c ≤ 90) ∨ (48 ≤ c ∧ c ≤ 57) ∨ c = 45) ∧
            l.head? ≠ some 45 ∧ l.getLast? ≠ some 45 := by
  rw [isValidDomain_closed]
  simp only [Bool.true_or, Bool.and_true, Option.some.injEq, Bool.and_eq_true, decide_eq_true_eq,
    List.all_eq_true, specLabelOk, specLabelByte, and_assoc]

/-- C5. `isValidDomain(d, false)` is true exactly when `isValidDomain(d, true)` is
true and `d` contains a `'.'`; so strict acceptance implies permissive
acceptance, and a dot-free string is never accepted in strict mode. -/
theorem isValidDomain_strict_iff (d : GoString) :
    (isValidDomain d false = some true ↔ isValidDomain d true = some true ∧ 46 ∈ d)
      ∧ (isValidDomain d false = some true → isValidDomain d true = some true)
      ∧ (46 ∉ d → isValidDomain d false = some false) := by
  rw [isValidDomain_closed, isValidDomain_closed]
  refine ⟨?_, ?_, ?_⟩
  · simp
  · simp; tauto
  · intro h; simp [h]

theorem extractDomain_eq (email : GoString) :
    extractDomain email =
      domainOf (if email.length > 0 ∧ (email.get? 0 = some 32 ∨ email.get? (email.length - 1) = some 32
        ∨ email.get? 0 = some 9 ∨ email.get? (email.length - 1) = some 9) then
      TrimSpace email else email) := rfl

theorem lastIndexByteLoop_not_mem (c : Nat) : ∀ (r : GoString) (i : Int), c ∉ r →
    lastIndexByteLoop c r i = -1 := by
  intro r
  induction r with
  | nil => intro i _; rfl
  | cons a t ih =>
    intro i h
    have ha : a ≠ c := fun e => h (by simp [e])
    have ht : c ∉ t := fun e => h (by simp [e])
    simp [lastIndexByteLoop, ha, ih _ ht]

theorem lastIndexByteLoop_found (c : Nat) : ∀ (r t : GoString) (i : Int), c ∉ r →
    lastIndexByteLoop c (r ++ c :: t) i = i - r.length := by
  intro r
  induction r with
  | nil => intro t i _; simp [lastIndexByteLoop]
  | cons a r ih =>
    intro t i h
    have ha : a ≠ c := fun e => h (by simp [e])
    have ht : c ∉ r := fun e => h (by simp [e])
    simp [lastIndexByteLoop, ha, ih t (i - 1) ht]
    omega

theorem LastIndexByte_not_mem (c : Nat) (s : GoString) (h : c ∉ s) : LastIndexByte s c = -1 := by
  unfold LastIndexByte
  exact lastIndexByteLoop_not_mem c _ _ (by simpa using h)

theorem LastIndexByte_append (c : Nat) (x d : GoString) (h : c ∉ d) :
    LastIndexByte (x ++ c :: d) c = x.length := by
  unfold LastIndexByte
  have : (x ++ c :: d).reverse = d.reverse ++ c :: x.reverse := by simp
  rw [this, lastIndexByteLoop_found c _ _ _ (by simpa using h)]
  simp; omega

/-- Every string either has no `c`, or splits at its last `c`. -/
theorem split_at_last (c : Nat) (s : GoString) :
    c ∉ s ∨ ∃ x d, s = x ++ c :: d ∧ c ∉ d := by
  induction s with
  | nil => left; simp
  | cons a t ih =>
    rcases ih with h | ⟨x, d, h1, h2⟩
    · by_cases ha : a = c
      · right; exact ⟨[], t, by simp [ha], h⟩
      · left; simp [h]; exact fun e => ha e.symm
    · right; exact ⟨a :: x, d, by simp [h1], h2⟩

theorem map_asciiLower_of_not_any (dom : GoString)
    (h : ¬ dom.any (fun c => decide (c ≥ 65 ∧ c ≤ 90)) = true) : dom.map asciiLower = dom := by
  induction dom with
  | nil => rfl
  | cons a t ih =>
    simp only [List.any_cons, Bool.or_eq_true, decide_eq_true_eq, not_or] at h
    have : asciiLower a = a := by
      unfold asciiLower; rw [if_neg]; intro hh; exact h.1 ⟨hh.1, hh.2⟩
    simp [this, ih h.2]

theorem domainOf_split (x d : GoString) (hd : 64 ∉ d) :
    domainOf (x ++ 64 :: d) = if x = [] ∨ d = [] then ([], false) else (d.map asciiLower, true) := by
  unfold domainOf
  simp only [LastIndexByte_append 64 x d hd]
  by_cases hx : x = []
  · subst hx; simp
  · by_cases hdn : d = []
    · subst hdn; simp
    · have hxl : 0 < x.length := List.length_pos.mpr hx
      have hdl : 0 < d.length := List.length_pos.mpr hdn
      have c1 : ¬ (x ++ 64 :: d = [] ∨ ((x.length : Nat) : Int) ≤ 0
          ∨ ((x.length : Nat) : Int) + 1 ≥ ((x ++ 64 :: d).length : Nat)) := by
        rintro (h | h | h)
        · simp at h
        · omega
        · rw [List.length_append, List.length_cons] at h; omega
      rw [if_neg c1]
      have c2 : ¬ (x = [] ∨ d = []) := by simp [hx, hdn]
      rw [if_neg c2]
      have c3 : (x ++ 64 :: d).drop (((x.length : Nat) : Int) + 1).toNat = d := by
        have : (((x.length : Nat) : Int) + 1).toNat = x.length + 1 := by omega
        rw [this]
        simp
      simp only [c3]
      split
      · rfl
      · rename_i h; rw [map_asciiLower_of_not_any d h]

theorem domainOf_no_at (e : GoString) (h : 64 ∉ e) : domainOf e = ([], false) := by
  unfold domainOf
  simp [LastIndexByte_not_mem 64 e h]


theorem extractDomain_of_noSpaceTabEnds (e : GoString) (h : NoSpaceTabEnds e) :
    extractDomain e = domainOf e := by
  rw [extractDomain_eq, if_neg]
  rintro ⟨hpos, hc⟩
  obtain ⟨h1, h2, h3, h4⟩ := h
  have e0 : e.get? 0 = e.head? := by cases e <;> rfl
  have e1 : e.get? (e.length - 1) = e.getLast? := by
    rw [List.get?_eq_getElem?, List.getLast?_eq_getElem?]
  rw [e0, e1] at hc
  rcases hc with hc | hc | hc | hc
  · exact h1 hc
  · exact h3 hc
  · exact h2 hc
  · exact h4 hc

theorem domainOf_ok (e dom : GoString) (h : domainOf e = (dom, true)) :
    ∃ x d, e = x ++ 64 :: d ∧ 64 ∉ d ∧ x ≠ [] ∧ d ≠ [] ∧ dom = d.map asciiLower := by
  rcases split_at_last 64 e with hn | ⟨x, d, he, hd⟩
  · rw [domainOf_no_at e hn] at h; simp at h
  · subst he
    rw [domainOf_split x d hd] at h
    by_cases hc : x = [] ∨ d = []
    · rw [if_pos hc] at h; simp at h
    · rw [if_neg hc] at h
      simp only [not_or] at hc
      exact ⟨x, d, rfl, hd, hc.1, hc.2, by simpa using (Prod.mk.inj h).1.symm⟩

/-- C6. For an email `e` that neither begins nor ends with a space or tab,
`extractDomain(e)` returns `("", false)` exactly when `e` contains no `'@'`, or
its last `'@'` is at position 0, or its last `'@'` is its final byte; in every
other case it returns `ok = true`. -/
theorem extractDomain_fails_iff (e : GoString) (h : NoSpaceTabEnds e) :
    (extractDomain e = ([], false) ↔
        64 ∉ e ∨ (∃ d, e = 64 :: d ∧ 64 ∉ d) ∨ e.getLast? = some 64)
      ∧ (¬ (64 ∉ e ∨ (∃ d, e = 64 :: d ∧ 64 ∉ d) ∨ e.getLast? = some 64) →
          (extractDomain e).2 = true) := by
  rw [extractDomain_of_noSpaceTabEnds e h]
  rcases split_at_last 64 e with hn | ⟨x, d, he, hd⟩
  · simp [domainOf_no_at e hn, hn]
  · subst he
    have hmem : 64 ∈ x ++ 64 :: d := by simp
    have hcond : (64 ∉ x ++ 64 :: d ∨ (∃ d', x ++ 64 :: d = 64 :: d' ∧ 64 ∉ d')
        ∨ (x ++ 64 :: d).getLast? = some 64) ↔ (x = [] ∨ d = []) := by
      constructor
      · rintro (h1 | ⟨d', h2, h3⟩ | h4)
        · exact absurd hmem h1
        · left
          cases x with
          | nil => rfl
          | cons a t =>
            exfalso
            simp only [List.cons_append, List.cons.injEq] at h2
            apply h3; rw [← h2.2]; simp
        · right
          by_contra hne
          have : (x ++ 64 :: d).getLast? = d.getLast? := by
            rw [show x ++ 64 :: d = (x ++ [64]) ++ d by simp, List.getLast?_append_of_ne_nil _ hne]
          rw [this] at h4
          exact hd (List.mem_of_getLast?_eq_some h4)
      · rintro (h1 | h1)
        · subst h1; right; left; exact ⟨d, rfl, hd⟩
        · subst h1; right; right; simp
    rw [hcond, domainOf_split x d hd]
    by_cases hc : x = [] ∨ d = []
    · simp [hc]
    · simp [hc]

/-- C7. For non-empty `x` and non-empty `d` without `'@'`, when `x ++ "@" ++ d`
neither begins nor ends with a space or tab, `extractDomain(x ++ "@" ++ d)` is
`(asciiLower(d), true)`: the domain is everything after the final `'@'`,
lower-cased.  And whenever `extractDomain` succeeds, the domain it returns is
non-empty, has no `'@'` and has no byte in `'A'..'Z'`. -/
theorem extractDomain_after_last_at (x d : GoString) (hx : x ≠ []) (hd : d ≠ [])
    (hat : 64 ∉ d) (hends : NoSpaceTabEnds (x ++ [64] ++ d)) :
    extractDomain (x ++ [64] ++ d) = (d.map asciiLower, true)
      ∧ ∀ e dom, extractDomain e = (dom, true) →
          dom ≠ [] ∧ 64 ∉ dom ∧ ∀ c ∈ dom, ¬ (65 ≤ c ∧ c ≤ 90) := by
  constructor
  · rw [extractDomain_of_noSpaceTabEnds _ hends]
    have : x ++ [64] ++ d = x ++ 64 :: d := by simp
    rw [this, domainOf_split x d hat]
    simp [hx, hd]
  · intro e dom h
    rw [extractDomain_eq] at h
    obtain ⟨x', d', _, hd1, _, hd2, hdom⟩ := domainOf_ok _ dom h
    subst hdom
    refine ⟨by simpa using hd2, ?_, ?_⟩
    · intro hm
      rw [List.mem_map] at hm
      obtain ⟨c, hc, hce⟩ := hm
      have : c = 64 := by
        unfold asciiLower at hce; split at hce <;> omega
      exact hd1 (this ▸ hc)
    · intro c hm
      rw [List.mem_map] at hm
      obtain ⟨c', _, hce⟩ := hm
      unfold asciiLower at hce; split at hce <;> omega

/-- C6 at `"a@"`: the last `'@'` is the final byte, and the call fails. -/
theorem extractDomain_fails_iff_witness :
    NoSpaceTabEnds (ascii "a@") ∧ extractDomain (ascii "a@") = ([], false) :=
  ⟨by decide, ((extractDomain_fails_iff (ascii "a@") (by decide)).1).2 (Or.inr (Or.inr rfl))⟩

/-- C7 at `"a@b@C.D"`: the domain is `"c.d"`, what follows the last `'@'`. -/
theorem extractDomain_after_last_at_witness :
    ascii "a@b" ≠ [] ∧ ascii "C.D" ≠ [] ∧ 64 ∉ ascii "C.D"
      ∧ NoSpaceTabEnds (ascii "a@b" ++ [64] ++ ascii "C.D")
      ∧ extractDomain (ascii "a@b" ++ [64] ++ ascii "C.D") = (ascii "c.d", true) :=
  ⟨by decide, by decide, by decide, by decide,
    (extractDomain_after_last_at (ascii "a@b") (ascii "C.D") (by decide) (by decide) (by decide)
      (by decide)).1⟩

/-! ### Go maps -/

theorem GoMap.find_incr (m : GoMap) (d d' : GoString) :
    GoMap.find (GoMap.incr m d) d' =
      if d' = d then some ((GoMap.find m d).getD 0 + 1) else GoMap.find m d' := by
  induction m with
  | nil =>
    by_cases h : d' = d
    · simp [GoMap.incr, GoMap.find, h]
    · have : ¬ d = d' := fun e => h e.symm
      simp [GoMap.incr, GoMap.find, h, this]
  | cons p m ih =>
    obtain ⟨k, v⟩ := p
    by_cases hk : k = d
    · subst hk
      by_cases h : d' = k
      · subst h; simp [GoMap.incr, GoMap.find]
      · have : ¬ k = d' := fun e => h e.symm
        simp [GoMap.incr, GoMap.find, h, this]
    · by_cases h : d' = d
      · subst h; simp [GoMap.incr, GoMap.find, hk, ih]
      · by_cases hk' : k = d'
        · simp [GoMap.incr, GoMap.find, hk, h, hk']
        · simp [GoMap.incr, GoMap.find, hk, h, hk', ih]

theorem GoMap.keys_incr (m : GoMap) (d : GoString) :
    (GoMap.incr m d).map Prod.fst =
      if d ∈ m.map Prod.fst then m.map Prod.fst else m.map Prod.fst ++ [d] := by
  induction m with
  | nil => simp [GoMap.incr]
  | cons p m ih =>
    obtain ⟨k, v⟩ := p
    by_cases hk : k = d
    · subst hk; simp [GoMap.incr]
    · have hk' : ¬ d = k := fun e => hk e.symm
      simp only [GoMap.incr, if_neg hk, List.map_cons, ih, List.mem_cons, hk', false_or]
      split <;> simp

theorem GoMap.nodup_incr (m : GoMap) (d : GoString) (h : (m.map Prod.fst).Nodup) :
    ((GoMap.incr m d).map Prod.fst).Nodup := by
  rw [GoMap.keys_incr]
  split
  · exact h
  · rename_i hd
    rw [List.nodup_append]
    refine ⟨h, by simp, ?_⟩
    intro a ha hb
    simp at hb
    exact hd (hb ▸ ha)

theorem GoMap.sum_incr (m : GoMap) (d : GoString) :
    ((GoMap.incr m d).map Prod.snd).sum = (m.map Prod.snd).sum + 1 := by
  induction m with
  | nil => simp [GoMap.incr]
  | cons p m ih =>
    obtain ⟨k, v⟩ := p
    by_cases hk : k = d
    · simp [GoMap.incr, hk]; ring
    · simp [GoMap.incr, hk, ih]; ring

theorem GoMap.mem_iff_find (m : GoMap) (h : (m.map Prod.fst).Nodup) (d : GoString) (q : Int) :
    (d, q) ∈ m ↔ GoMap.find m d = some q := by
  induction m with
  | nil => simp [GoMap.find]
  | cons p m ih =>
    obtain ⟨k, v⟩ := p
    rw [List.map_cons, List.nodup_cons] at h
    by_cases hk : k = d
    · subst hk
      simp only [List.mem_cons, Prod.mk.injEq, true_and, GoMap.find, if_true, Option.some.injEq]
      constructor
      · rintro (e | e)
        · exact e.symm
        · exact absurd (List.mem_map_of_mem Prod.fst e) h.1
      · intro e; left; exact e.symm
    · have hk' : ¬ d = k := fun e => hk e.symm
      simp [GoMap.find, hk, hk', ih h.2]

/-- The map after the statements `counts[d]++` for the domains `ds`, in order. -/
theorem GoMap.foldl_incr (ds : List GoString) :
    ∀ (m : GoMap), (m.map Prod.fst).Nodup →
      ((ds.foldl GoMap.incr m).map Prod.fst).Nodup
        ∧ ((ds.foldl GoMap.incr m).map Prod.snd).sum = (m.map Prod.snd).sum + ds.length
        ∧ ∀ d, GoMap.find (ds.foldl GoMap.incr m) d =
            if d ∈ ds then some ((GoMap.find m d).getD 0 + ds.count d) else GoMap.find m d := by
  induction ds with
  | nil => intro m h; simp [h]
  | cons a ds ih =>
    intro m h
    obtain ⟨h1, h2, h3⟩ := ih (GoMap.incr m a) (GoMap.nodup_incr m a h)
    refine ⟨h1, ?_, ?_⟩
    · rw [List.foldl_cons, h2, GoMap.sum_incr]; simp; ring
    · intro d
      rw [List.foldl_cons, h3, GoMap.find_incr]
      by_cases hda : d = a
      · subst hda
        simp only [if_true, Option.getD_some, List.mem_cons, true_or, List.count_cons_self]
        split
        · congr 1; push_cast; ring
        · rename_i hn
          rw [List.count_eq_zero_of_not_mem hn]; simp
      · have : ¬ a = d := fun e => hda e.symm
        simp only [if_neg hda, List.mem_cons, hda, false_or, if_false]
        rw [List.count_cons_of_ne hda]

/-! ### The record loop -/

theorem importLoop_ok (k : Int) (hk : 0 ≤ k) (allow : Bool) :
    ∀ (rows : List (List GoString)) (st : Stats) (m : GoMap),
      importLoop k allow (rows.map Except.ok) st m =
        some (⟨st.TotalRows + rows.length,
            st.BadRows + (rows.filter (fun r => (rowDomain k allow r).isNone)).length,
            st.UniqueDomains⟩,
          (rows.filterMap (rowDomain k allow)).foldl GoMap.incr m, none) := by
  intro rows
  induction rows with
  | nil => intro st m; simp [importLoop]
  | cons row rows ih =>
    intro st m
    simp only [List.map_cons, importLoop]
    by_cases hlen : k ≥ (row.length : Int)
    · have hr : rowDomain k allow row = none := by simp [rowDomain, hlen]
      rw [if_pos hlen, ih]
      simp [hr, List.filter_cons, List.filterMap_cons]
      constructor <;> ring
    · rw [if_neg hlen]
      have hlt : k.toNat < row.length := by omega
      have hget : row.get? k.toNat = some (row.get ⟨k.toNat, hlt⟩) := by
        rw [List.get?_eq_get]
      have hr : rowDomain k allow row =
          if (extractDomain (row.get ⟨k.toNat, hlt⟩)).2 = true
            ∧ isValidDomain (extractDomain (row.get ⟨k.toNat, hlt⟩)).1 allow = some true then
          some (extractDomain (row.get ⟨k.toNat, hlt⟩)).1 else none := by
        simp only [rowDomain, if_neg hlen, hget]
      rw [hget]
      simp only []
      rcases hed : extractDomain (row.get ⟨k.toNat, hlt⟩) with ⟨d, ok⟩
      rw [hed] at hr
      simp only [] at hr ⊢
      cases ok with
      | false =>
        have hr' : rowDomain k allow row = none := by rw [hr]; simp
        simp only [Bool.false_eq_true, if_false]
        rw [ih]
        simp [hr', List.filter_cons, List.filterMap_cons]
        constructor <;> ring
      | true =>
        simp only [if_true]
        rw [isValidDomain_closed] at hr ⊢
        cases hv : (decide (d ≠ [] ∧ d.length ≤ 253) && (specLabels d).all specLabelOk
          && (allow || decide (46 ∈ d))) with
        | false =>
          rw [hv] at hr
          have hr' : rowDomain k allow row = none := by rw [hr]; simp
          simp only []
          rw [ih]
          simp [hr', List.filter_cons, List.filterMap_cons]
          constructor <;> ring
        | true =>
          rw [hv] at hr
          have hr' : rowDomain k allow row = some d := by rw [hr]; simp
          simp only []
          rw [ih]
          simp [hr', List.filter_cons, List.filterMap_cons]
          ring

/-! ### `sort.SliceStable` -/

theorem insertStable_perm {α : Type} (less : α → α → Bool) (a : α) (l : List α) :
    (insertStable less a l).Perm (a :: l) := by
  induction l with
  | nil => exact List.Perm.refl _
  | cons b l ih =>
    unfold insertStable
    split
    · exact (List.Perm.cons b ih).trans (List.Perm.swap a b l)
    · exact List.Perm.refl _

theorem sortSliceStable_perm {α : Type} (less : α → α → Bool) (l : List α) :
    (sortSliceStable less l).Perm l := by
  induction l with
  | nil => exact List.Perm.refl _
  | cons a l ih =>
    unfold sortSliceStable
    exact (insertStable_perm less a _).trans (List.Perm.cons a ih)

/-- Inserting into a list sorted by a strict total order keeps it sorted (no
element is followed by a smaller one). -/
theorem insertStable_sorted {α : Type} (less : α → α → Bool)
    (htrans : ∀ a b c, less a b = true → less b c = true → less a c = true)
    (htotal : ∀ a b, less a b = true ∨ a = b ∨ less b a = true)
    (a : α) (l : List α) (h : l.Pairwise (fun x y => less x y = true ∨ x = y)) :
    (insertStable less a l).Pairwise (fun x y => less x y = true ∨ x = y) := by
  induction l with
  | nil => simp [insertStable]
  | cons b l ih =>
    rw [List.pairwise_cons] at h
    unfold insertStable
    by_cases hba : less b a = true
    · rw [if_pos hba, List.pairwise_cons]
      refine ⟨?_, ih h.2⟩
      intro x hx
      rcases List.mem_cons.mp ((insertStable_perm less a l).mem_iff.mp hx) with e | e
      · subst e; exact Or.inl hba
      · exact h.1 x e
    · rw [if_neg hba, List.pairwise_cons]
      have hab : less a b = true ∨ a = b := by
        rcases htotal a b with e | e | e
        · exact Or.inl e
        · exact Or.inr e
        · exact absurd e hba
      refine ⟨?_, List.pairwise_cons.mpr h⟩
      intro x hx
      rcases List.mem_cons.mp hx with e | e
      · subst e; exact hab
      · rcases hab with hab | hab
        · rcases h.1 x e with hbx | hbx
          · exact Or.inl (htrans a b x hab hbx)
          · subst hbx; exact Or.inl hab
        · subst hab; exact h.1 x e

theorem sortSliceStable_sorted {α : Type} (less : α → α → Bool)
    (htrans : ∀ a b c, less a b = true → less b c = true → less a c = true)
    (htotal : ∀ a b, less a b = true ∨ a = b ∨ less b a = true) (l : List α) :
    (sortSliceStable less l).Pairwise (fun x y => less x y = true ∨ x = y) := by
  induction l with
  | nil => simp [sortSliceStable]
  | cons a l ih =>
    unfold sortSliceStable
    exact insertStable_sorted less htrans htotal a _ ih

/-! ### The order of Go strings and of the entries -/

theorem strLess_irrefl (s : GoString) : strLess s s = false := by
  induction s with
  | nil => rfl
  | cons a s ih => simp [strLess, ih]

theorem strLess_trans : ∀ (s t u : GoString), strLess s t = true → strLess t u = true →
    strLess s u = true := by
  intro s
  induction s with
  | nil =>
    intro t u h1 h2
    cases t with
    | nil => simp [strLess] at h1
    | cons b t =>
      cases u with
      | nil => simp [strLess] at h2
      | cons c u => simp [strLess]
  | cons a s ih =>
    intro t u h1 h2
    cases t with
    | nil => simp [strLess] at h1
    | cons b t =>
      cases u with
      | nil => simp [strLess] at h2
      | cons c u =>
        simp only [strLess] at h1 h2 ⊢
        by_cases hab : a < b
        · by_cases hbc : b < c
          · have : a < c := by omega
            simp [this]
          · by_cases hcb : c < b
            · simp [hbc, hcb] at h2
            · have : a < c := by omega
              simp [this]
        · by_cases hba : b < a
          · simp [hab, hba] at h1
          · simp only [hab, hba, if_false] at h1
            have e : a = b := by omega
            subst e
            by_cases hbc : a < c
            · simp [hbc]
            · by_cases hcb : c < a
              · simp [hbc, hcb] at h2
              · simp only [hbc, hcb, if_false] at h2 ⊢
                exact ih t u h1 h2

theorem strLess_total : ∀ (s t : GoString), strLess s t = true ∨ s = t ∨ strLess t s = true := by
  intro s
  induction s with
  | nil =>
    intro t
    cases t with
    | nil => right; left; rfl
    | cons b t => left; rfl
  | cons a s ih =>
    intro t
    cases t with
    | nil => right; right; rfl
    | cons b t =>
      simp only [strLess]
      by_cases hab : a < b
      · left; simp [hab]
      · by_cases hba : b < a
        · right; right; simp [hba]
        · have e : a = b := by omega
          subst e
          simp only [hab, if_false]
          rcases ih t with h | h | h
          · exact Or.inl h
          · exact Or.inr (Or.inl (by rw [h]))
          · exact Or.inr (Or.inr h)

theorem dataLess_trans (a b c : DomainData) (h1 : dataLess a b = true)
    (h2 : dataLess b c = true) : dataLess a c = true := by
  unfold dataLess at *
  by_cases e1 : a.CustomerQuantity = b.CustomerQuantity
  · by_cases e2 : b.CustomerQuantity = c.CustomerQuantity
    · have e3 : a.CustomerQuantity = c.CustomerQuantity := e1.trans e2
      simp only [e1, e2, e3, ne_eq, not_true_eq_false, if_false] at h1 h2 ⊢
      exact strLess_trans _ _ _ h1 h2
    · simp only [e1, e2, ne_eq, not_true_eq_false, not_false_eq_true, if_true, if_false,
        decide_eq_true_eq] at h1 h2 ⊢
      simp [e2, h2]
  · by_cases e2 : b.CustomerQuantity = c.CustomerQuantity
    · simp only [e1, ne_eq, not_false_eq_true, if_true, decide_eq_true_eq] at h1
      have : a.CustomerQuantity ≠ c.CustomerQuantity := by omega
      simp only [this, ne_eq, not_false_eq_true, if_true, decide_eq_true_eq]
      omega
    · simp only [e1, e2, ne_eq, not_false_eq_true, if_true, decide_eq_true_eq] at h1 h2
      have : a.CustomerQuantity ≠ c.CustomerQuantity := by omega
      simp only [this, ne_eq, not_false_eq_true, if_true, decide_eq_true_eq]
      omega

theorem dataLess_total (a b : DomainData) :
    dataLess a b = true ∨ a = b ∨ dataLess b a = true := by
  unfold dataLess
  by_cases e : a.CustomerQuantity = b.CustomerQuantity
  · rcases strLess_total a.Domain b.Domain with h | h | h
    · left; simp [e, h]
    · right; left
      cases a; cases b; simp at e h; simp [e, h]
    · right; right; simp [e, h]
  · have e' : ¬ b.CustomerQuantity = a.CustomerQuantity := fun h => e h.symm
    by_cases hlt : a.CustomerQuantity > b.CustomerQuantity
    · left; simp [e, hlt]
    · right; right; simp [e', e]; omega

/-- What `dataLess` says about two entries. -/
theorem dataLess_iff (a b : DomainData) :
    dataLess a b = true ↔
      a.CustomerQuantity > b.CustomerQuantity
        ∨ (a.CustomerQuantity = b.CustomerQuantity ∧ strLess a.Domain b.Domain = true) := by
  unfold dataLess
  by_cases e : a.CustomerQuantity = b.CustomerQuantity
  · simp [e]
  · simp [e]

/-- The result of `makeSortedData` is a rearrangement of the entries of the map. -/
theorem makeSortedData_perm (ρ : RangeOrder) (m : GoMap) :
    (makeSortedData ρ m).Perm (m.map (fun p => DomainData.mk p.1 p.2)) :=
  (sortSliceStable_perm _ _).trans ((ρ.perm m).map _)

/-- On a map (distinct keys) the result of `makeSortedData` is strictly sorted. -/
theorem makeSortedData_sorted (ρ : RangeOrder) (m : GoMap) (h : (m.map Prod.fst).Nodup) :
    (makeSortedData ρ m).Pairwise (fun a b =>
      a.CustomerQuantity > b.CustomerQuantity
        ∨ (a.CustomerQuantity = b.CustomerQuantity ∧ strLess a.Domain b.Domain = true)) := by
  have hs := sortSliceStable_sorted dataLess dataLess_trans dataLess_total
    ((ρ.enum m).map (fun p => DomainData.mk p.1 p.2))
  have hnd : ((makeSortedData ρ m).map DomainData.Domain).Nodup := by
    have := (makeSortedData_perm ρ m).map DomainData.Domain
    rw [this.nodup_iff]
    simpa [List.map_map, Function.comp_def] using h
  have hne : (makeSortedData ρ m).Pairwise (fun a b => a.Domain ≠ b.Domain) :=
    List.pairwise_map.mp hnd
  refine (List.Pairwise.and hs hne).imp ?_
  intro a b hab
  rcases hab with ⟨h1 | h1, h2⟩
  · exact (dataLess_iff a b).mp h1
  · exact absurd (by rw [h1]) h2

/-! ### `findHeaderIndex` -/

theorem findHeaderIndexLoop_spec (tbl : Nat → Nat) (target : GoString) :
    ∀ (header : List GoString) (i : Int),
      ((∀ h ∈ header, ToLower tbl (TrimSpace h) ≠ target)
          ∧ findHeaderIndexLoop tbl target header i = -1)
        ∨ ∃ pre h post, header = pre ++ h :: post
            ∧ (∀ x ∈ pre, ToLower tbl (TrimSpace x) ≠ target)
            ∧ ToLower tbl (TrimSpace h) = target
            ∧ findHeaderIndexLoop tbl target header i = i + pre.length := by
  intro header
  induction header with
  | nil => intro i; left; simp [findHeaderIndexLoop]
  | cons c rest ih =>
    intro i
    by_cases hc : ToLower tbl (TrimSpace c) = target
    · right
      exact ⟨[], c, rest, rfl, by simp, hc, by simp [findHeaderIndexLoop, hc]⟩
    · rcases ih (i + 1) with ⟨h1, h2⟩ | ⟨pre, h, post, h1, h2, h3, h4⟩
      · left
        refine ⟨?_, by simp [findHeaderIndexLoop, hc, h2]⟩
        intro x hx
        rcases List.mem_cons.mp hx with e | e
        · subst e; exact hc
        · exact h1 x e
      · right
        refine ⟨c :: pre, h, post, by simp [h1], ?_, h3, ?_⟩
        · intro x hx
          rcases List.mem_cons.mp hx with e | e
          · subst e; exact hc
          · exact h2 x e
        · simp only [findHeaderIndexLoop, if_neg hc, h4, List.length_cons]
          push_cast; ring

theorem findHeaderIndex_nonneg_iff (tbl : Nat → Nat) (header : List GoString) (name : GoString) :
    0 ≤ findHeaderIndex tbl header name ↔ HasEmailColumn tbl header name := by
  unfold findHeaderIndex HasEmailColumn
  rcases findHeaderIndexLoop_spec tbl (ToLower tbl (TrimSpace name)) header 0 with
    ⟨h1, h2⟩ | ⟨pre, h, post, h1, h2, h3, h4⟩
  · rw [h2]
    constructor
    · intro h; omega
    · rintro ⟨h, hm, he⟩; exact absurd he (h1 h hm)
  · rw [h4]
    constructor
    · intro _; exact ⟨h, by simp [h1], h3⟩
    · intro _; omega

/-! ### A run over records -/

theorem rowDomain_eq_some_iff (k : Int) (allow : Bool) (row : List GoString) (d : GoString) :
    rowDomain k allow row = some d ↔ rowYields k allow d row = true := by
  unfold rowDomain rowYields
  by_cases hk : k ≥ (row.length : Int)
  · have : ¬ k < (row.length : Int) := by omega
    simp [hk, this]
  · have hk' : k < (row.length : Int) := by omega
    rw [if_neg hk]
    cases hg : row.get? k.toNat with
    | none => simp
    | some f =>
      simp only [hk', decide_True, Bool.true_and, Bool.and_eq_true, decide_eq_true_eq]
      constructor
      · intro h
        split at h
        · rename_i hc
          have hd : (extractDomain f).1 = d := Option.some.inj h
          refine ⟨?_, ?_⟩
          · rw [← hd, ← hc.1]
          · rw [← hd]; exact hc.2
        · simp at h
      · rintro ⟨h1, h2⟩
        rw [h1]; simp [h2]

theorem count_filterMap_rowDomain (k : Int) (allow : Bool) (d : GoString)
    (rows : List (List GoString)) :
    (rows.filterMap (rowDomain k allow)).count d = rows.countP (rowYields k allow d) := by
  induction rows with
  | nil => rfl
  | cons row rows ih =>
    rw [List.filterMap_cons, List.countP_cons]
    cases hr : rowDomain k allow row with
    | none =>
      have : rowYields k allow d row = false := by
        cases hy : rowYields k allow d row with
        | false => rfl
        | true => rw [(rowDomain_eq_some_iff k allow row d).mpr hy] at hr; simp at hr
      simp [this, ih]
    | some d' =>
      by_cases hdd : d' = d
      · subst hdd
        have := (rowDomain_eq_some_iff k allow row d').mp hr
        simp [this, ih]
      · have : rowYields k allow d row = false := by
          cases hy : rowYields k allow d row with
          | false => rfl
          | true =>
            rw [(rowDomain_eq_some_iff k allow row d).mpr hy] at hr
            exact absurd (Option.some.inj hr).symm hdd
        rw [List.count_cons_of_ne (fun e => hdd e.symm), ih]
        simp [this]

theorem length_filter_filterMap (k : Int) (allow : Bool) (rows : List (List GoString)) :
    rows.length = (rows.filter (fun r => (rowDomain k allow r).isNone)).length
      + (rows.filterMap (rowDomain k allow)).length := by
  induction rows with
  | nil => rfl
  | cons row rows ih =>
    rw [List.filterMap_cons, List.filter_cons]
    cases hr : rowDomain k allow row with
    | none => simp; omega
    | some d => simp; omega

/-- A run over records that are all read without error ends without error. -/
theorem ImportDomainData_run (ρ : RangeOrder) (tbl : Nat → Nat) (cfg : Config)
    (header : List GoString) (rows : List (List GoString))
    (h : HasEmailColumn tbl header cfg.EmailHeader) :
    ImportDomainData ρ tbl cfg (recordsSource header rows) =
      some (⟨makeSortedData ρ (finalCounts (findHeaderIndex tbl header cfg.EmailHeader)
              cfg.AllowSingleLabelDomain rows),
            ⟨rows.length,
              (rows.filter (fun r => (rowDomain (findHeaderIndex tbl header cfg.EmailHeader)
                cfg.AllowSingleLabelDomain r).isNone)).length,
              (makeSortedData ρ (finalCounts (findHeaderIndex tbl header cfg.EmailHeader)
                cfg.AllowSingleLabelDomain rows)).length⟩⟩, none) := by
  have hk := (findHeaderIndex_nonneg_iff tbl header cfg.EmailHeader).mpr h
  have hk' : ¬ findHeaderIndex tbl header cfg.EmailHeader < 0 := by omega
  simp only [ImportDomainData, recordsSource, if_neg hk', importLoop_ok _ hk, finalCounts]
  simp

theorem finalCounts_facts (k : Int) (allow : Bool) (rows : List (List GoString)) :
    ((finalCounts k allow rows).map Prod.fst).Nodup
      ∧ ((finalCounts k allow rows).map Prod.snd).sum
          = ((rows.filterMap (rowDomain k allow)).length : Int)
      ∧ ∀ d q, (d, q) ∈ finalCounts k allow rows ↔
          (0 < rows.countP (rowYields k allow d) ∧ q = (rows.countP (rowYields k allow d) : Int)) := by
  obtain ⟨h1, h2, h3⟩ := GoMap.foldl_incr (rows.filterMap (rowDomain k allow)) [] (by simp)
  refine ⟨h1, by simpa using h2, ?_⟩
  intro d q
  unfold finalCounts
  rw [GoMap.mem_iff_find _ h1, h3 d, ← count_filterMap_rowDomain, List.count_pos_iff]
  by_cases hm : d ∈ rows.filterMap (rowDomain k allow)
  · simp only [hm, if_true, GoMap.find, Option.getD_none, zero_add, Option.some.injEq, true_and]
    exact eq_comm
  · simp [hm, GoMap.find]

theorem sum_makeSortedData (ρ : RangeOrder) (m : GoMap) :
    ((makeSortedData ρ m).map DomainData.CustomerQuantity).sum = (m.map Prod.snd).sum := by
  rw [((makeSortedData_perm ρ m).map DomainData.CustomerQuantity).sum_eq]
  simp [List.map_map, Function.comp_def]

theorem mem_makeSortedData (ρ : RangeOrder) (m : GoMap) (e : DomainData) :
    e ∈ makeSortedData ρ m ↔ (e.Domain, e.CustomerQuantity) ∈ m := by
  rw [(makeSortedData_perm ρ m).mem_iff, List.mem_map]
  constructor
  · rintro ⟨p, hp, he⟩; subst he; exact hp
  · intro h; exact ⟨_, h, rfl⟩

/-- C1. For a header that contains the email column and any data records read
without error, the result satisfies `TotalRows == BadRows + Σ CustomerQuantity`:
each row is tallied in exactly one of a domain counter or `BadRows`. -/
theorem totalRows_eq_badRows_add_counts (ρ : RangeOrder) (tbl : Nat → Nat) (cfg : Config)
    (header : List GoString) (rows : List (List GoString))
    (h : HasEmailColumn tbl header cfg.EmailHeader) :
    ∃ res, ImportDomainData ρ tbl cfg (recordsSource header rows) = some (res, none)
      ∧ res.Stats.TotalRows
          = res.Stats.BadRows + (res.Data.map DomainData.CustomerQuantity).sum := by
  refine ⟨_, ImportDomainData_run ρ tbl cfg header rows h, ?_⟩
  simp only []
  rw [sum_makeSortedData, (finalCounts_facts _ _ rows).2.1]
  have := length_filter_filterMap (findHeaderIndex tbl header cfg.EmailHeader)
    cfg.AllowSingleLabelDomain rows
  omega

/-- C2. For every successful run, `Result.Data` is strictly ordered by count
descending, then domain ascending in byte order: of two entries the earlier
one has the larger count, or the same count and the smaller domain.  The same
holds for `makeSortedData` applied to any map. -/
theorem data_strictly_ordered (ρ : RangeOrder) (tbl : Nat → Nat) (cfg : Config)
    (header : List GoString) (rows : List (List GoString))
    (h : HasEmailColumn tbl header cfg.EmailHeader) :
    (∃ res, ImportDomainData ρ tbl cfg (recordsSource header rows) = some (res, none)
      ∧ res.Data.Pairwise (fun a b =>
          a.CustomerQuantity > b.CustomerQuantity
            ∨ (a.CustomerQuantity = b.CustomerQuantity ∧ strLess a.Domain b.Domain = true)))
    ∧ ∀ (ρ' : RangeOrder) (m : GoMap), (m.map Prod.fst).Nodup →
        (makeSortedData ρ' m).Pairwise (fun a b =>
          a.CustomerQuantity > b.CustomerQuantity
            ∨ (a.CustomerQuantity = b.CustomerQuantity ∧ strLess a.Domain b.Domain = true)) := by
  refine ⟨⟨_, ImportDomainData_run ρ tbl cfg header rows h, ?_⟩, ?_⟩
  · exact makeSortedData_sorted ρ _ (finalCounts_facts _ _ rows).1
  · intro ρ' m hm; exact makeSortedData_sorted ρ' m hm

/-- C3. For every successful run over the records `rows` with email column index
`k`, a domain `d` has an entry in `Result.Data` exactly when some row has more
than `k` fields, `extractDomain(row[k]) = (d, true)` and `isValidDomain` accepts
`d` under the configured policy; the entry's `CustomerQuantity` is the number of
such rows, hence at least 1. -/
theorem data_entries_iff (ρ : RangeOrder) (tbl : Nat → Nat) (cfg : Config)
    (header : List GoString) (rows : List (List GoString))
    (h : HasEmailColumn tbl header cfg.EmailHeader) :
    ∃ res, ImportDomainData ρ tbl cfg (recordsSource header rows) = some (res, none)
      ∧ (∀ d, (∃ e ∈ res.Data, e.Domain = d) ↔
          ∃ row ∈ rows, rowYields (findHeaderIndex tbl header cfg.EmailHeader)
            cfg.AllowSingleLabelDomain d row = true)
      ∧ ∀ e ∈ res.Data,
          e.CustomerQuantity = (rows.countP (rowYields (findHeaderIndex tbl header cfg.EmailHeader)
            cfg.AllowSingleLabelDomain e.Domain) : Int) ∧ 1 ≤ e.CustomerQuantity := by
  refine ⟨_, ImportDomainData_run ρ tbl cfg header rows h, ?_, ?_⟩
  · intro d
    simp only []
    constructor
    · rintro ⟨e, he, hd⟩
      rw [mem_makeSortedData, (finalCounts_facts _ _ rows).2.2] at he
      rw [hd, List.countP_pos_iff] at he
      exact he.1
    · intro hr
      have hpos := List.countP_pos_iff.mpr hr
      refine ⟨⟨d, (rows.countP (rowYields (findHeaderIndex tbl header cfg.EmailHeader)
        cfg.AllowSingleLabelDomain d) : Int)⟩, ?_, rfl⟩
      rw [mem_makeSortedData, (finalCounts_facts _ _ rows).2.2]
      exact ⟨hpos, rfl⟩
  · intro e he
    simp only [] at he
    rw [mem_makeSortedData, (finalCounts_facts _ _ rows).2.2] at he
    refine ⟨he.2, ?_⟩
    rw [he.2]; omega


/-- C1 for the header `e`, the configured name `E` and the rows `a@b.c` and `x`. -/
theorem totalRows_eq_badRows_add_counts_witness :
    HasEmailColumn id [ascii "e"] (ascii "E") ∧
      ∃ res, ImportDomainData RangeOrder.stored id ⟨ascii "in.csv", ascii "E", false⟩
          (recordsSource [ascii "e"] [[ascii "a@b.c"], [ascii "x"]]) = some (res, none)
        ∧ res.Stats.TotalRows
            = res.Stats.BadRows + (res.Data.map DomainData.CustomerQuantity).sum :=
  ⟨by decide, totalRows_eq_badRows_add_counts RangeOrder.stored id
    ⟨ascii "in.csv", ascii "E", false⟩ [ascii "e"] [[ascii "a@b.c"], [ascii "x"]] (by decide)⟩

/-- C2 for the header `n," E "` and three rows, in permissive mode, the map being
enumerated backwards. -/
theorem data_strictly_ordered_witness :
    HasEmailColumn id [ascii "n", ascii " E "] (ascii "e") ∧
      ∃ res, ImportDomainData RangeOrder.backwards id ⟨ascii "in.csv", ascii "e", true⟩
          (recordsSource [ascii "n", ascii " E "]
            [[ascii "x", ascii "a@b"], [ascii "y", ascii "a@a"], [ascii "z", ascii "c@b"]])
            = some (res, none)
        ∧ res.Data.Pairwise (fun a b =>
            a.CustomerQuantity > b.CustomerQuantity
              ∨ (a.CustomerQuantity = b.CustomerQuantity ∧ strLess a.Domain b.Domain = true)) :=
  ⟨by decide, (data_strictly_ordered RangeOrder.backwards id ⟨ascii "in.csv", ascii "e", true⟩
    [ascii "n", ascii " E "]
    [[ascii "x", ascii "a@b"], [ascii "y", ascii "a@a"], [ascii "z", ascii "c@b"]]
    (by decide)).1⟩

/-- C3 for the header `e` and the rows `a@b.c`, `x` and an empty record. -/
theorem data_entries_iff_witness :
    HasEmailColumn id [ascii "e"] (ascii "E") ∧
      ∃ res, ImportDomainData RangeOrder.stored id ⟨ascii "in.csv", ascii "E", false⟩
          (recordsSource [ascii "e"] [[ascii "a@b.c"], [ascii "x"], []]) = some (res, none)
        ∧ (∀ d, (∃ e ∈ res.Data, e.Domain = d) ↔
            ∃ row ∈ [[ascii "a@b.c"], [ascii "x"], []],
              rowYields (findHeaderIndex id [ascii "e"] (ascii "E")) false d row = true)
        ∧ ∀ e ∈ res.Data,
            e.CustomerQuantity = (([[ascii "a@b.c"], [ascii "x"], []] : List (List GoString)).countP
              (rowYields (findHeaderIndex id [ascii "e"] (ascii "E")) false e.Domain) : Int)
              ∧ 1 ≤ e.CustomerQuantity :=
  ⟨by decide, data_entries_iff RangeOrder.stored id ⟨ascii "in.csv", ascii "E", false⟩
    [ascii "e"] [[ascii "a@b.c"], [ascii "x"], []] (by decide)⟩

/-! ### `utf8.DecodeRuneInString` -/

theorem leadInfo_facts {b sz lo hi : Nat} (h : leadInfo b = some (sz, lo, hi)) :
    0x80 ≤ b ∧ 2 ≤ sz ∧ sz ≤ 4 ∧ 0x80 ≤ lo ∧ hi ≤ 0xBF := by
  unfold leadInfo at h
  split_ifs at h <;> simp at h <;> omega

theorem decode_ascii (c : Nat) (t : GoString) (h : c < 0x80) :
    DecodeRuneInString (c :: t) = (c, 1) := by
  simp [DecodeRuneInString, RuneSelf, h]

theorem decode_size (s : GoString) (hs : s ≠ []) :
    1 ≤ (DecodeRuneInString s).2 ∧ (DecodeRuneInString s).2 ≤ s.length := by
  rcases s with _ | ⟨s0, t⟩
  · exact absurd rfl hs
  · unfold DecodeRuneInString
    by_cases h0 : s0 < RuneSelf
    · simp [h0]
    · simp only [if_neg h0]
      rcases hl : leadInfo s0 with _ | ⟨sz, lo, hi⟩
      · simp
      · obtain ⟨_, h2, h4, _, _⟩ := leadInfo_facts hl
        simp only []
        rcases t with _ | ⟨s1, _ | ⟨s2, _ | ⟨s3, t3⟩⟩⟩ <;>
          simp only [List.length_cons, List.length_nil] <;>
          split_ifs <;> simp


/-- Decoding the first rune does not look past a following ASCII byte. -/
theorem decode_append_ascii (z w : GoString) (hz : z ≠ []) (hw : ∀ c ∈ w, c < 0x80) :
    DecodeRuneInString (z ++ w) = DecodeRuneInString z := by
  rcases z with _ | ⟨s0, t⟩
  · exact absurd rfl hz
  · rw [List.cons_append]
    unfold DecodeRuneInString
    by_cases h0 : s0 < RuneSelf
    · simp [h0]
    · simp only [if_neg h0]
      rcases hl : leadInfo s0 with _ | ⟨sz, lo, hi⟩
      · simp
      · obtain ⟨_, h2, h4, hlo, _⟩ := leadInfo_facts hl
        simp only []
        rcases t with _ | ⟨s1, _ | ⟨s2, _ | ⟨s3, t3⟩⟩⟩
        · rcases w with _ | ⟨w0, w'⟩
          · simp
          · have := hw w0 (by simp)
            simp only [List.nil_append, List.length_cons, List.length_nil]
            split_ifs <;> first | rfl | omega
        · rcases w with _ | ⟨w0, w'⟩
          · simp
          · have := hw w0 (by simp)
            simp only [List.cons_append, List.nil_append, List.length_cons, List.length_nil]
            split_ifs <;> first | rfl | omega
        · rcases w with _ | ⟨w0, w'⟩
          · simp
          · have := hw w0 (by simp)
            simp only [List.cons_append, List.nil_append, List.length_cons, List.length_nil]
            split_ifs <;> first | rfl | omega
        · simp only [List.cons_append, List.length_cons, List.length_append]
          split_ifs <;> first | rfl | omega

theorem asciiLower_lt_iff (c : Nat) : asciiLower c < 0x80 ↔ c < 0x80 := by
  unfold asciiLower; split <;> omega

theorem asciiLower_of_ge {c : Nat} (h : 0x80 ≤ c) : asciiLower c = c := by
  unfold asciiLower; rw [if_neg]; omega

theorem asciiLower_idem (c : Nat) : asciiLower (asciiLower c) = asciiLower c := by
  unfold asciiLower; split_ifs <;> omega

/-- Lower-casing the ASCII letters of a string changes the first rune only when
it is an ASCII byte. -/
theorem decode_map_lower (s : GoString) :
    DecodeRuneInString (s.map asciiLower) =
      match s with
      | [] => (RuneError, 0)
      | c :: _ => if c < 0x80 then (asciiLower c, 1) else DecodeRuneInString s := by
  rcases s with _ | ⟨s0, t⟩
  · rfl
  · simp only [List.map_cons]
    by_cases h0 : s0 < 0x80
    · rw [if_pos h0, decode_ascii _ _ ((asciiLower_lt_iff s0).mpr h0)]
    · rw [if_neg h0, asciiLower_of_ge (by omega)]
      unfold DecodeRuneInString
      have h0' : ¬ s0 < RuneSelf := h0
      simp only [if_neg h0']
      rcases hl : leadInfo s0 with _ | ⟨sz, lo, hi⟩
      · simp
      · obtain ⟨_, h2, h4, hlo, hhi⟩ := leadInfo_facts hl
        simp only [List.length_cons, List.length_map]
        rcases t with _ | ⟨s1, t1⟩
        · simp
        · simp only [List.map_cons, List.length_cons, List.length_map]
          by_cases h1 : s1 < 0x80
          · have h1' := (asciiLower_lt_iff s1).mpr h1
            have a1 : asciiLower s1 < lo ∨ hi < asciiLower s1 := by omega
            have a2 : s1 < lo ∨ hi < s1 := by omega
            simp only [if_pos a1, if_pos a2]
          · rw [asciiLower_of_ge (by omega : 0x80 ≤ s1)]
            rcases t1 with _ | ⟨s2, t2⟩
            · simp
            · simp only [List.map_cons, List.length_cons, List.length_map]
              by_cases h2' : s2 < 0x80
              · have h2'' := (asciiLower_lt_iff s2).mpr h2'
                have a1 : asciiLower s2 < 0x80 ∨ 0xBF < asciiLower s2 := by omega
                have a2 : s2 < 0x80 ∨ 0xBF < s2 := by omega
                simp only [if_pos a1, if_pos a2]
              · rw [asciiLower_of_ge (by omega : 0x80 ≤ s2)]
                rcases t2 with _ | ⟨s3, t3⟩
                · simp
                · simp only [List.map_cons, List.length_cons, List.length_map]
                  by_cases h3 : s3 < 0x80
                  · have h3' := (asciiLower_lt_iff s3).mpr h3
                    have a1 : asciiLower s3 < 0x80 ∨ 0xBF < asciiLower s3 := by omega
                    have a2 : s3 < 0x80 ∨ 0xBF < s3 := by omega
                    simp only [if_pos a1, if_pos a2]
                  · rw [asciiLower_of_ge (by omega : 0x80 ≤ s3)]

/-! ### White space and lower-casing -/

theorem IsSpace_asciiLower (c : Nat) : IsSpace (asciiLower c) = IsSpace c := by
  unfold asciiLower
  split
  · rename_i h
    have h1 : IsSpace (c + 32) = false := by
      unfold IsSpace; rw [if_pos (by omega)]; simp; omega
    have h2 : IsSpace c = false := by
      unfold IsSpace; rw [if_pos (by omega)]; simp; omega
    rw [h1, h2]
  · rfl

theorem asciiSpace_asciiLower (c : Nat) : asciiSpace (asciiLower c) = asciiSpace c := by
  unfold asciiLower
  split
  · rename_i h
    have h1 : asciiSpace (c + 32) = false := by unfold asciiSpace; simp; omega
    have h2 : asciiSpace c = false := by unfold asciiSpace; simp; omega
    rw [h1, h2]
  · rfl

theorem asciiSpace_lt {c : Nat} (h : asciiSpace c = true) : c < 0x80 := by
  unfold asciiSpace at h; simp at h; omega

theorem IsSpace_of_asciiSpace {c : Nat} (h : asciiSpace c = true) : IsSpace c = true := by
  unfold asciiSpace at h; simp at h
  unfold IsSpace; rw [if_pos (by omega)]; simp; omega

theorem IsSpace_eq_asciiSpace {c : Nat} (h : c < 0x80) : IsSpace c = asciiSpace c := by
  unfold IsSpace asciiSpace
  rw [if_pos (by omega)]
  congr 1; apply propext; constructor <;> intro h' <;> omega

theorem RuneStart_asciiLower (b : Nat) : RuneStart (asciiLower b) = RuneStart b := by
  unfold asciiLower
  split
  · rename_i h
    obtain ⟨h1, h2⟩ := h
    interval_cases b <;> rfl
  · rfl

theorem getD_map_asciiLower (s : GoString) (i : Nat) :
    (s.map asciiLower).getD i 0 = asciiLower (s.getD i 0) := by
  induction s generalizing i with
  | nil => simp [asciiLower]
  | cons a t ih =>
    cases i with
    | zero => simp
    | succ j => simpa using ih j

/-! ### `strings.TrimLeftFunc` -/

theorem trimLeftLoop_map_lower : ∀ (fuel : Nat) (s : GoString),
    trimLeftLoop fuel (s.map asciiLower) = (trimLeftLoop fuel s).map asciiLower := by
  intro fuel
  induction fuel with
  | zero => intro s; rfl
  | succ n ih =>
    intro s
    rcases s with _ | ⟨c, t⟩
    · simp [trimLeftLoop]
    · unfold trimLeftLoop
      rw [if_neg (by simp), if_neg (by simp), decode_map_lower]
      simp only []
      by_cases hc : c < 0x80
      · rw [if_pos hc, decode_ascii c t hc]
        simp only [IsSpace_asciiLower]
        split
        · simpa using ih t
        · rfl
      · rw [if_neg hc]
        split
        · rw [← List.map_drop]; exact ih _
        · rfl

theorem trimLeftLoop_nil (fuel : Nat) : trimLeftLoop fuel [] = [] := by
  cases fuel <;> simp [trimLeftLoop]

/-- An ASCII white-space byte appended to a string stays at the end of what
`TrimLeftFunc` keeps, unless nothing is kept. -/
theorem trimLeftLoop_append_space (c : Nat) (hc : asciiSpace c = true) :
    ∀ (fuel : Nat) (y : GoString), y.length ≤ fuel →
      trimLeftLoop (fuel + 1) (y ++ [c]) =
        if trimLeftLoop fuel y = [] then [] else trimLeftLoop fuel y ++ [c] := by
  intro fuel
  induction fuel with
  | zero =>
    intro y hy
    have : y = [] := List.length_eq_zero.mp (by omega)
    subst this
    simp [trimLeftLoop, decode_ascii c [] (asciiSpace_lt hc), IsSpace_of_asciiSpace hc]
  | succ n ih =>
    intro y hy
    rcases y with _ | ⟨a, t⟩
    · simp [trimLeftLoop, decode_ascii c [] (asciiSpace_lt hc), IsSpace_of_asciiSpace hc]
    · have hdec : DecodeRuneInString ((a :: t) ++ [c]) = DecodeRuneInString (a :: t) :=
        decode_append_ascii (a :: t) [c] (by simp) (by simpa using asciiSpace_lt hc)
      have hsz := decode_size (a :: t) (by simp)
      rcases hd : DecodeRuneInString (a :: t) with ⟨r, size⟩
      rw [hd] at hsz hdec
      simp only [] at hsz
      have hL : trimLeftLoop (n + 1 + 1) ((a :: t) ++ [c]) =
          if IsSpace r = true then trimLeftLoop (n + 1) (((a :: t) ++ [c]).drop size)
          else (a :: t) ++ [c] := by
        rw [trimLeftLoop, if_neg (by simp), hdec]
      have hR : trimLeftLoop (n + 1) (a :: t) =
          if IsSpace r = true then trimLeftLoop n ((a :: t).drop size) else a :: t := by
        rw [trimLeftLoop, if_neg (by simp), hd]
      rw [hL, hR]
      by_cases hr : IsSpace r = true
      · simp only [hr, if_true]
        have : ((a :: t) ++ [c]).drop size = (a :: t).drop size ++ [c] := by
          rw [List.drop_append_of_le_length hsz.2]
        rw [this]
        refine ih _ ?_
        rw [List.length_drop]
        have := hsz.1
        have : (a :: t).length ≤ n + 1 := hy
        omega
      · simp [hr]

theorem TrimLeftFunc_append_space (c : Nat) (hc : asciiSpace c = true) (y : GoString) :
    TrimLeftFunc (y ++ [c]) = if TrimLeftFunc y = [] then [] else TrimLeftFunc y ++ [c] := by
  unfold TrimLeftFunc
  rw [List.length_append, List.length_singleton]
  exact trimLeftLoop_append_space c hc y.length y (le_refl _)

theorem TrimLeftFunc_map_lower (s : GoString) :
    TrimLeftFunc (s.map asciiLower) = (TrimLeftFunc s).map asciiLower := by
  unfold TrimLeftFunc
  rw [List.length_map]
  exact trimLeftLoop_map_lower _ _

/-! ### `utf8.DecodeLastRuneInString` -/

theorem scanBack_map_lower (s : GoString) (lim : Int) : ∀ (fuel : Nat) (start : Int),
    scanBack (s.map asciiLower) lim fuel start = scanBack s lim fuel start := by
  intro fuel
  induction fuel with
  | zero => intro start; rfl
  | succ n ih =>
    intro start
    simp only [scanBack, getD_map_asciiLower, RuneStart_asciiLower, ih]

theorem scanBack_le (s : GoString) (lim : Int) : ∀ (fuel : Nat) (start : Int),
    scanBack s lim fuel start ≤ start := by
  intro fuel
  induction fuel with
  | zero => intro start; exact le_refl _
  | succ n ih =>
    intro start
    simp only [scanBack]
    split_ifs
    · exact le_refl _
    · have := ih (start - 1); omega
    · exact le_refl _

theorem getD_last_append (x : GoString) (c : Nat) :
    (x ++ [c]).getD ((((x ++ [c]).length : Int) - 1).toNat) 0 = c := by
  have : ((((x ++ [c]).length : Int) - 1).toNat) = x.length := by simp
  rw [this]
  simp [List.getD_eq_getElem?_getD]

theorem decodeLast_append_ascii (x : GoString) (c : Nat) (hc : c < 0x80) :
    DecodeLastRuneInString (x ++ [c]) = (c, 1) := by
  unfold DecodeLastRuneInString
  simp only []
  rw [if_neg (by simp; omega), getD_last_append, if_pos (by simpa [RuneSelf] using hc)]

theorem lastRuneStart_bounds (s : GoString) :
    0 ≤ lastRuneStart s ∧ lastRuneStart s ≤ max 0 ((s.length : Int) - 2) := by
  unfold lastRuneStart
  simp only []
  have hsb := scanBack_le s (if (s.length : Int) - UTFMax < 0 then 0
    else (s.length : Int) - UTFMax) UTFMax ((s.length : Int) - 1 - 1)
  split_ifs at hsb ⊢ <;> omega

theorem lastRuneStart_map_lower (s : GoString) :
    lastRuneStart (s.map asciiLower) = lastRuneStart s := by
  unfold lastRuneStart
  simp only [List.length_map, scanBack_map_lower]

theorem decodeLast_size (s : GoString) (hs : s ≠ []) :
    1 ≤ (DecodeLastRuneInString s).2 ∧ (DecodeLastRuneInString s).2 ≤ s.length := by
  have hlen : 0 < s.length := List.length_pos.mpr hs
  have hb := lastRuneStart_bounds s
  unfold DecodeLastRuneInString
  simp only []
  rw [if_neg (by omega)]
  by_cases h1 : s.getD ((s.length : Int) - 1).toNat 0 < RuneSelf
  · rw [if_pos h1]; simp; omega
  · rw [if_neg h1]
    by_cases h2 : lastRuneStart s + ((DecodeRuneInString (s.drop (lastRuneStart s).toNat)).2 : Int)
        ≠ (s.length : Int)
    · rw [if_pos h2]; simp; omega
    · rw [if_neg h2]
      simp only [not_not] at h2
      simp only []
      constructor <;> omega

/-- Lower-casing the ASCII letters keeps the width of the last rune and whether
it is white space. -/
theorem decodeLast_map_lower (s : GoString) :
    (DecodeLastRuneInString (s.map asciiLower)).2 = (DecodeLastRuneInString s).2
      ∧ IsSpace (DecodeLastRuneInString (s.map asciiLower)).1
          = IsSpace (DecodeLastRuneInString s).1 := by
  have hb := lastRuneStart_bounds s
  unfold DecodeLastRuneInString
  simp only [List.length_map, getD_map_asciiLower, lastRuneStart_map_lower]
  by_cases h0 : (s.length : Int) = 0
  · simp [h0]
  · rw [if_neg h0, if_neg h0]
    by_cases h1 : s.getD ((s.length : Int) - 1).toNat 0 < RuneSelf
    · have h1' : asciiLower (s.getD ((s.length : Int) - 1).toNat 0) < RuneSelf :=
        (asciiLower_lt_iff _).mpr h1
      rw [if_pos h1, if_pos h1']
      exact ⟨rfl, IsSpace_asciiLower _⟩
    · have h1' : ¬ asciiLower (s.getD ((s.length : Int) - 1).toNat 0) < RuneSelf :=
        fun h => h1 ((asciiLower_lt_iff _).mp h)
      rw [if_neg h1, if_neg h1']
      generalize hst : lastRuneStart s = st at hb ⊢
      rw [← List.map_drop, decode_map_lower]
      rcases hz : s.drop st.toNat with _ | ⟨c, t⟩
      · simp [DecodeRuneInString]
      · simp only []
        by_cases hc : c < 0x80
        · rw [if_pos hc, decode_ascii c t hc]
          simp only []
          by_cases hone : st + ((1 : Nat) : Int) ≠ (s.length : Int)
          · have hone' : ¬ (st + 1 = (s.length : Int)) := by simpa using hone
            simp [hone']
          · exfalso
            simp only [not_not] at hone
            have hst' : st = 0 := by omega
            have hl : s.length = 1 := by omega
            rw [hst'] at hz
            simp at hz
            rw [hz] at hl h1
            simp at hl
            subst hl
            simp [RuneSelf] at h1
            omega
        · rw [if_neg hc]
          exact ⟨rfl, rfl⟩


/-! ### `strings.TrimRightFunc` -/

theorem lastIndexLoop_map_lower (s : GoString) : ∀ (fuel i : Nat),
    lastIndexLoop (s.map asciiLower) fuel i = lastIndexLoop s fuel i := by
  intro fuel
  induction fuel with
  | zero => intro i; rfl
  | succ n ih =>
    intro i
    unfold lastIndexLoop
    by_cases hi : i = 0
    · simp [hi]
    · rw [if_neg hi, if_neg hi, ← List.map_take]
      obtain ⟨h1, h2⟩ := decodeLast_map_lower (s.take i)
      rcases hd : DecodeLastRuneInString (s.take i) with ⟨r, size⟩
      rcases hd' : DecodeLastRuneInString ((s.take i).map asciiLower) with ⟨r', size'⟩
      rw [hd, hd'] at h1 h2
      simp only [] at h1 h2 ⊢
      rw [h1, h2, ih]

theorem lastIndexLoop_append (u w : GoString) : ∀ (fuel i : Nat), i ≤ u.length →
    lastIndexLoop (u ++ w) fuel i = lastIndexLoop u fuel i := by
  intro fuel
  induction fuel with
  | zero => intro i _; rfl
  | succ n ih =>
    intro i hi
    unfold lastIndexLoop
    by_cases h0 : i = 0
    · simp [h0]
    · rw [if_neg h0, if_neg h0, List.take_append_of_le_length hi]
      rcases hd : DecodeLastRuneInString (u.take i) with ⟨r, size⟩
      simp only []
      rw [ih (i - size) (by omega)]

theorem lastIndexLoop_bounds (s : GoString) : ∀ (fuel i : Nat), i ≤ s.length →
    -1 ≤ lastIndexLoop s fuel i ∧ lastIndexLoop s fuel i < i := by
  intro fuel
  induction fuel with
  | zero => intro i _; simp [lastIndexLoop]; omega
  | succ n ih =>
    intro i hi
    unfold lastIndexLoop
    by_cases h0 : i = 0
    · simp [h0]
    · rw [if_neg h0]
      have hne : s.take i ≠ [] := by
        intro h
        have := congrArg List.length h
        rw [List.length_take, List.length_nil] at this
        omega
      have hsz := decodeLast_size (s.take i) hne
      rw [List.length_take] at hsz
      rcases hd : DecodeLastRuneInString (s.take i) with ⟨r, size⟩
      rw [hd] at hsz
      simp only [] at hsz ⊢
      split
      · have := ih (i - size) (by omega)
        omega
      · omega

theorem TrimRightFunc_map_lower (s : GoString) :
    TrimRightFunc (s.map asciiLower) = (TrimRightFunc s).map asciiLower := by
  unfold TrimRightFunc
  simp only [List.length_map, lastIndexLoop_map_lower, getD_map_asciiLower, ← List.map_drop,
    ← List.map_take]
  have hge : ∀ c, asciiLower c ≥ RuneSelf ↔ c ≥ RuneSelf := by
    intro c
    have := asciiLower_lt_iff c
    unfold RuneSelf; omega
  generalize lastIndexLoop s s.length s.length = i
  by_cases hc : 0 ≤ i ∧ s.getD i.toNat 0 ≥ RuneSelf
  · have hc' : 0 ≤ i ∧ asciiLower (s.getD i.toNat 0) ≥ RuneSelf := ⟨hc.1, (hge _).mpr hc.2⟩
    rw [if_pos hc, if_pos hc']
    have hne : s.drop i.toNat ≠ [] := by
      intro h
      have hlen : s.length ≤ i.toNat := List.drop_eq_nil_iff.mp h
      have h0 : s.getD i.toNat 0 = 0 := List.getD_eq_default _ _ hlen
      have := hc.2
      rw [h0] at this
      unfold RuneSelf at this
      omega
    rcases hz : s.drop i.toNat with _ | ⟨c, t⟩
    · exact absurd hz hne
    · have hcge : c ≥ RuneSelf := by
        have : s.getD i.toNat 0 = c := by
          have h1 : (s.drop i.toNat).getD 0 0 = c := by rw [hz]; rfl
          rw [← h1, List.getD_eq_getElem?_getD, List.getD_eq_getElem?_getD, List.getElem?_drop]
          simp
        rw [← this]; exact hc.2
      rw [decode_map_lower]
      simp only []
      rw [if_neg (by unfold RuneSelf at hcge; omega)]
  · have hc' : ¬ (0 ≤ i ∧ asciiLower (s.getD i.toNat 0) ≥ RuneSelf) :=
      fun h => hc ⟨h.1, (hge _).mp h.2⟩
    rw [if_neg hc, if_neg hc']

/-- An ASCII white-space byte at the end of a string is trimmed by
`TrimRightFunc` together with what precedes it. -/
theorem TrimRightFunc_append_space (c : Nat) (hc : asciiSpace c = true) (u : GoString) :
    TrimRightFunc (u ++ [c]) = TrimRightFunc u := by
  have hstep : lastIndexLoop (u ++ [c]) (u ++ [c]).length (u ++ [c]).length
      = lastIndexLoop u u.length u.length := by
    rw [List.length_append, List.length_singleton, lastIndexLoop, if_neg (by omega)]
    have : (u ++ [c]).take (u.length + 1) = u ++ [c] := by
      rw [List.take_of_length_le (by simp)]
    rw [this, decodeLast_append_ascii u c (asciiSpace_lt hc)]
    simp only [IsSpace_of_asciiSpace hc, if_true, Nat.add_sub_cancel]
    exact lastIndexLoop_append u [c] _ _ (le_refl _)
  have hb := lastIndexLoop_bounds u u.length u.length (le_refl _)
  unfold TrimRightFunc
  simp only [hstep]
  generalize lastIndexLoop u u.length u.length = i at hb ⊢
  have hget : (u ++ [c]).getD i.toNat 0 = u.getD i.toNat 0 ∨ i < 0 := by
    by_cases hi : i < 0
    · exact Or.inr hi
    · left
      rw [List.getD_eq_getElem?_getD, List.getD_eq_getElem?_getD,
        List.getElem?_append_left (by omega)]
  by_cases hcnd : 0 ≤ i ∧ u.getD i.toNat 0 ≥ RuneSelf
  · have hcnd' : 0 ≤ i ∧ (u ++ [c]).getD i.toNat 0 ≥ RuneSelf := by
      rcases hget with h | h
      · rw [h]; exact hcnd
      · omega
    rw [if_pos hcnd, if_pos hcnd']
    have hlt : i.toNat < u.length := by omega
    have hne : u.drop i.toNat ≠ [] := by
      intro h; have := List.drop_eq_nil_iff.mp h; omega
    have hd : DecodeRuneInString ((u ++ [c]).drop i.toNat)
        = DecodeRuneInString (u.drop i.toNat) := by
      rw [List.drop_append_of_le_length (by omega)]
      exact decode_append_ascii _ [c] hne (by simpa using asciiSpace_lt hc)
    rw [hd]
    have hsz := decode_size _ hne
    rw [List.length_drop] at hsz
    rcases hdd : DecodeRuneInString (u.drop i.toNat) with ⟨r, wid⟩
    rw [hdd] at hsz
    simp only [] at hsz ⊢
    rw [List.take_append_of_le_length (by omega)]
  · have hcnd' : ¬ (0 ≤ i ∧ (u ++ [c]).getD i.toNat 0 ≥ RuneSelf) := by
      rcases hget with h | h
      · rw [h]; exact hcnd
      · omega
    rw [if_neg hcnd, if_neg hcnd']
    rw [List.take_append_of_le_length (by omega)]

/-! ### `strings.TrimFunc` and `strings.TrimSpace` -/

theorem TrimFunc_map_lower (s : GoString) :
    TrimFunc (s.map asciiLower) = (TrimFunc s).map asciiLower := by
  unfold TrimFunc
  rw [TrimLeftFunc_map_lower, TrimRightFunc_map_lower]

theorem TrimFunc_append_space (c : Nat) (hc : asciiSpace c = true) (y : GoString) :
    TrimFunc (y ++ [c]) = TrimFunc y := by
  unfold TrimFunc
  rw [TrimLeftFunc_append_space c hc]
  split
  · rename_i h; rw [h]
  · exact TrimRightFunc_append_space c hc _

theorem trimSpaceRight_map_lower (s : GoString) :
    trimSpaceRight (s.map asciiLower) = (trimSpaceRight s).map asciiLower := by
  induction s with
  | nil => rfl
  | cons c t ih =>
    simp only [List.map_cons, trimSpaceRight, asciiSpace_asciiLower]
    have hge : asciiLower c ≥ RuneSelf ↔ c ≥ RuneSelf := by
      have := asciiLower_lt_iff c
      unfold RuneSelf; omega
    by_cases h : c ≥ RuneSelf
    · rw [if_pos h, if_pos (hge.mpr h), ← List.map_cons, ← List.map_reverse,
        TrimRightFunc_map_lower]
    · rw [if_neg h, if_neg (fun h' => h (hge.mp h'))]
      split
      · exact ih
      · rw [← List.map_cons, List.map_reverse]

/-- The function `TrimSpace` commutes with lower-casing the ASCII letters. -/
theorem TrimSpace_map_lower (s : GoString) :
    TrimSpace (s.map asciiLower) = (TrimSpace s).map asciiLower := by
  induction s with
  | nil => rfl
  | cons c t ih =>
    simp only [List.map_cons, TrimSpace, asciiSpace_asciiLower]
    have hge : asciiLower c ≥ RuneSelf ↔ c ≥ RuneSelf := by
      have := asciiLower_lt_iff c
      unfold RuneSelf; omega
    by_cases h : c ≥ RuneSelf
    · rw [if_pos h, if_pos (hge.mpr h), ← List.map_cons, TrimFunc_map_lower]
    · rw [if_neg h, if_neg (fun h' => h (hge.mp h'))]
      split
      · exact ih
      · rw [← List.map_cons, ← List.map_reverse, trimSpaceRight_map_lower]

theorem TrimSpace_cons_space (c : Nat) (hc : asciiSpace c = true) (t : GoString) :
    TrimSpace (c :: t) = TrimSpace t := by
  have := asciiSpace_lt hc
  rw [TrimSpace, if_neg (by unfold RuneSelf; omega), if_pos hc]

theorem TrimSpace_append_space (c : Nat) (hc : asciiSpace c = true) (x : GoString) :
    TrimSpace (x ++ [c]) = TrimSpace x := by
  have hlt := asciiSpace_lt hc
  induction x with
  | nil => simp [TrimSpace, hc, RuneSelf]; omega
  | cons a t ih =>
    rw [List.cons_append, TrimSpace, TrimSpace]
    by_cases h : a ≥ RuneSelf
    · rw [if_pos h, if_pos h, ← List.cons_append, TrimFunc_append_space c hc]
    · rw [if_neg h, if_neg h]
      split
      · exact ih
      · have : (a :: (t ++ [c])).reverse = c :: (a :: t).reverse := by simp
        rw [this, trimSpaceRight, if_neg (by unfold RuneSelf; omega), if_pos hc]

/-- ASCII white space around a string does not change what `TrimSpace` returns. -/
theorem TrimSpace_surround (p e s : GoString) (hp : p.all asciiSpace = true)
    (hs : s.all asciiSpace = true) : TrimSpace (p ++ e ++ s) = TrimSpace e := by
  have h1 : ∀ (s x : GoString), s.all asciiSpace = true → TrimSpace (x ++ s) = TrimSpace x := by
    intro s
    induction s using List.reverseRecOn with
    | nil => intro x _; simp
    | append_singleton s c ih =>
      intro x hs
      rw [List.all_append, Bool.and_eq_true] at hs
      rw [← List.append_assoc, TrimSpace_append_space c (by simpa using hs.2), ih x hs.1]
  rw [h1 s _ hs]
  induction p with
  | nil => rfl
  | cons c p ih =>
    rw [List.all_cons, Bool.and_eq_true] at hp
    rw [List.cons_append, TrimSpace_cons_space c hp.1, ih hp.2]

/-! ### `extractDomain`, trimming and letter case -/

theorem asciiLower_eq_iff {c k : Nat} (hk : k < 65 ∨ (90 < k ∧ k < 97) ∨ 122 < k) :
    asciiLower c = k ↔ c = k := by
  unfold asciiLower; split <;> omega

theorem not_mem_map_asciiLower {d : GoString} (h : 64 ∉ d) : 64 ∉ d.map asciiLower := by
  intro hm
  rw [List.mem_map] at hm
  obtain ⟨c, hc, hce⟩ := hm
  rw [asciiLower_eq_iff (by omega)] at hce
  exact h (hce ▸ hc)

theorem map_asciiLower_idem (d : GoString) :
    (d.map asciiLower).map asciiLower = d.map asciiLower := by
  rw [List.map_map]
  apply List.map_congr_left
  intro a _
  exact asciiLower_idem a

theorem domainOf_map_lower (e : GoString) : domainOf (e.map asciiLower) = domainOf e := by
  rcases split_at_last 64 e with hn | ⟨x, d, he, hd⟩
  · rw [domainOf_no_at e hn, domainOf_no_at _ (not_mem_map_asciiLower hn)]
  · subst he
    have : (x ++ 64 :: d).map asciiLower = x.map asciiLower ++ 64 :: d.map asciiLower := by
      simp [asciiLower]
    rw [this, domainOf_split _ _ (not_mem_map_asciiLower hd), domainOf_split x d hd,
      map_asciiLower_idem]
    simp

theorem noSpaceTabEnds_map_lower (e : GoString) :
    NoSpaceTabEnds (e.map asciiLower) ↔ NoSpaceTabEnds e := by
  unfold NoSpaceTabEnds
  have h1 : ∀ k, (k < 65 ∨ (90 < k ∧ k < 97) ∨ 122 < k) →
      ((e.map asciiLower).head? = some k ↔ e.head? = some k) := by
    intro k hk
    cases e with
    | nil => simp
    | cons a t => simp [asciiLower_eq_iff hk]
  have h2 : ∀ k, (k < 65 ∨ (90 < k ∧ k < 97) ∨ 122 < k) →
      ((e.map asciiLower).getLast? = some k ↔ e.getLast? = some k) := by
    intro k hk
    rw [List.getLast?_eq_head?_reverse, List.getLast?_eq_head?_reverse, ← List.map_reverse]
    cases e.reverse with
    | nil => simp
    | cons a t => simp [asciiLower_eq_iff hk]
  rw [Ne, Ne, Ne, Ne, h1 32 (by omega), h1 9 (by omega), h2 32 (by omega), h2 9 (by omega)]

theorem extractDomain_of_not_noSpaceTabEnds (e : GoString) (h : ¬ NoSpaceTabEnds e) :
    extractDomain e = domainOf (TrimSpace e) := by
  rw [extractDomain_eq, if_pos]
  have e0 : e.get? 0 = e.head? := by cases e <;> rfl
  have e1 : e.get? (e.length - 1) = e.getLast? := by
    rw [List.get?_eq_getElem?, List.getLast?_eq_getElem?]
  rw [e0, e1]
  unfold NoSpaceTabEnds at h
  have hne : e ≠ [] := by
    intro he; subst he; simp at h
  refine ⟨List.length_pos.mpr hne, ?_⟩
  by_contra hc
  simp only [not_or] at hc
  exact h ⟨hc.1, hc.2.2.1, hc.2.1, hc.2.2.2⟩

theorem extractDomain_map_lower (e : GoString) :
    extractDomain (e.map asciiLower) = extractDomain e := by
  by_cases h : NoSpaceTabEnds e
  · rw [extractDomain_of_noSpaceTabEnds e h,
      extractDomain_of_noSpaceTabEnds _ ((noSpaceTabEnds_map_lower e).mpr h), domainOf_map_lower]
  · rw [extractDomain_of_not_noSpaceTabEnds e h,
      extractDomain_of_not_noSpaceTabEnds _ (fun h' => h ((noSpaceTabEnds_map_lower e).mp h')),
      TrimSpace_map_lower, domainOf_map_lower]

theorem asciiSpace_of_spaceTab {w : GoString} (h : ∀ c ∈ w, c = 32 ∨ c = 9) :
    w.all asciiSpace = true := by
  rw [List.all_eq_true]
  intro c hc
  rcases h c hc with e | e <;> subst e <;> rfl

/-- When spaces or tabs are put around a string, `extractDomain` works on the
fully trimmed string. -/
theorem extractDomain_surround (e p s : GoString) (hp : ∀ c ∈ p, c = 32 ∨ c = 9)
    (hs : ∀ c ∈ s, c = 32 ∨ c = 9) (hps : p ≠ [] ∨ s ≠ []) :
    extractDomain (p ++ e ++ s) = domainOf (TrimSpace e) := by
  have hn : ¬ NoSpaceTabEnds (p ++ e ++ s) := by
    unfold NoSpaceTabEnds
    rintro ⟨h1, h2, h3, h4⟩
    rcases hps with h | h
    · rcases p with _ | ⟨a, p'⟩
      · exact h rfl
      · rcases hp a (by simp) with e' | e' <;> subst e' <;> simp at h1 h2
    · obtain ⟨c, hc⟩ := getLast?_some_of_ne_nil h
      have hl : (p ++ e ++ s).getLast? = some c := by
        rw [List.getLast?_append_of_ne_nil _ h, hc]
      rcases hs c (List.mem_of_getLast?_eq_some hc) with e' | e' <;> subst e'
      · exact h3 hl
      · exact h4 hl
  rw [extractDomain_of_not_noSpaceTabEnds _ hn,
    TrimSpace_surround p e s (asciiSpace_of_spaceTab hp) (asciiSpace_of_spaceTab hs)]

/-- C8, as amended. For an email `e` that begins or ends with a space or tab, or
that `strings.TrimSpace` leaves unchanged (no leading or trailing white space
of any kind), and all strings `p` and `s` of spaces and tabs,
`extractDomain(p ++ e ++ s) = extractDomain(e)`. -/
theorem extractDomain_trims_spaces_tabs (e p s : GoString)
    (hp : ∀ c ∈ p, c = 32 ∨ c = 9) (hs : ∀ c ∈ s, c = 32 ∨ c = 9)
    (he : NoSpaceTabEnds e → TrimSpace e = e) :
    extractDomain (p ++ e ++ s) = extractDomain e := by
  by_cases hps : p ≠ [] ∨ s ≠ []
  · rw [extractDomain_surround e p s hp hs hps]
    by_cases hn : NoSpaceTabEnds e
    · rw [extractDomain_of_noSpaceTabEnds e hn, he hn]
    · rw [extractDomain_of_not_noSpaceTabEnds e hn]
  · simp only [not_or, not_not] at hps
    rw [hps.1, hps.2]; simp

/-- C8, as amended, at `e = "a@B"` with a space and a tab in front and a tab behind. -/
theorem extractDomain_trims_spaces_tabs_witness :
    (∀ c ∈ ascii " \t", c = 32 ∨ c = 9) ∧ (∀ c ∈ ascii "\t", c = 32 ∨ c = 9)
      ∧ (NoSpaceTabEnds (ascii "a@B") → TrimSpace (ascii "a@B") = ascii "a@B")
      ∧ extractDomain (ascii " \t" ++ ascii "a@B" ++ ascii "\t") = extractDomain (ascii "a@B") :=
  ⟨by decide, by decide, fun _ => by decide,
    extractDomain_trims_spaces_tabs (ascii "a@B") (ascii " \t") (ascii "\t") (by decide)
      (by decide) (fun _ => by decide)⟩

/-- C8, counterexample. With `e = "a@b\n"`, `p = " "` and `s = ""` the two calls
differ: `extractDomain(" a@b\n")` is `("b", true)`, the guard having sent the
string through `strings.TrimSpace`, which also removes the line feed, while
`extractDomain("a@b\n")` is `("b\n", true)`. -/
theorem extractDomain_trim_counterexample :
    (∀ c ∈ ascii " ", c = 32 ∨ c = 9) ∧ (∀ c ∈ ascii "", c = 32 ∨ c = 9)
      ∧ extractDomain (ascii " " ++ ascii "a@b\n" ++ ascii "") = (ascii "b", true)
      ∧ extractDomain (ascii "a@b\n") = (ascii "b\n", true)
      ∧ extractDomain (ascii " " ++ ascii "a@b\n" ++ ascii "") ≠ extractDomain (ascii "a@b\n") := by
  decide

/-- C9. Two emails that differ only in the ASCII case of their letters give the
same result of `extractDomain`: the same `ok` flag and the same domain. -/
theorem extractDomain_case_insensitive (e1 e2 : GoString)
    (h : e1.map asciiLower = e2.map asciiLower) :
    extractDomain e1 = extractDomain e2 := by
  rw [← extractDomain_map_lower e1, ← extractDomain_map_lower e2, h]

/-- C9 at `"Al@Ex.C"` and `"aL@eX.c"`. -/
theorem extractDomain_case_insensitive_witness :
    (ascii "Al@Ex.C").map asciiLower = (ascii "aL@eX.c").map asciiLower
      ∧ extractDomain (ascii "Al@Ex.C") = extractDomain (ascii "aL@eX.c") :=
  ⟨by decide, extractDomain_case_insensitive _ _ (by decide)⟩

/-! ### UTF-8: encoding a decoded rune gives back its bytes -/

theorem or_eq_add_of_mod (i hi lo : Nat) (h1 : hi % 2 ^ i = 0) (h2 : lo < 2 ^ i) :
    hi ||| lo = hi + lo := by
  have : hi = 2 ^ i * (hi / 2 ^ i) := by
    have := Nat.div_add_mod hi (2 ^ i)
    omega
  rw [this]
  exact (Nat.mul_add_lt_is_or h2 _).symm

theorem and_3F (x : Nat) : x &&& 0x3F = x % 64 := Nat.and_pow_two_sub_one_eq_mod x 6
theorem and_1F (x : Nat) : x &&& 0x1F = x % 32 := Nat.and_pow_two_sub_one_eq_mod x 5
theorem and_0F (x : Nat) : x &&& 0x0F = x % 16 := Nat.and_pow_two_sub_one_eq_mod x 4
theorem and_07 (x : Nat) : x &&& 0x07 = x % 8 := Nat.and_pow_two_sub_one_eq_mod x 3

theorem rune2_eq (s0 s1 : Nat) :
    ((s0 &&& 0x1F) <<< 6) ||| (s1 &&& 0x3F) = s0 % 32 * 64 + s1 % 64 := by
  rw [and_1F, and_3F, Nat.shiftLeft_eq]
  exact or_eq_add_of_mod 6 _ _ (by norm_num) (by norm_num; omega)

theorem rune3_eq (s0 s1 s2 : Nat) :
    ((s0 &&& 0x0F) <<< 12) ||| ((s1 &&& 0x3F) <<< 6) ||| (s2 &&& 0x3F)
      = s0 % 16 * 4096 + s1 % 64 * 64 + s2 % 64 := by
  rw [and_0F, and_3F, and_3F, Nat.shiftLeft_eq, Nat.shiftLeft_eq]
  rw [or_eq_add_of_mod 12 (s0 % 16 * 2 ^ 12) _ (by norm_num) (by norm_num; omega)]
  rw [or_eq_add_of_mod 6 _ _ (by norm_num; omega) (by norm_num; omega)]

theorem rune4_eq (s0 s1 s2 s3 : Nat) :
    ((s0 &&& 0x07) <<< 18) ||| ((s1 &&& 0x3F) <<< 12) ||| ((s2 &&& 0x3F) <<< 6) ||| (s3 &&& 0x3F)
      = s0 % 8 * 262144 + s1 % 64 * 4096 + s2 % 64 * 64 + s3 % 64 := by
  rw [and_07, and_3F, and_3F, and_3F, Nat.shiftLeft_eq, Nat.shiftLeft_eq, Nat.shiftLeft_eq]
  rw [or_eq_add_of_mod 18 (s0 % 8 * 2 ^ 18) _ (by norm_num) (by norm_num; omega)]
  rw [or_eq_add_of_mod 12 _ (s2 % 64 * 2 ^ 6) (by norm_num; omega) (by norm_num; omega)]
  rw [or_eq_add_of_mod 6 _ _ (by norm_num; omega) (by norm_num; omega)]

theorem encodeRune_two (r : Nat) (h1 : 0x7F < r) (h2 : r ≤ 0x7FF) :
    encodeRune r = [192 + r / 64, 128 + r % 64] := by
  unfold encodeRune
  rw [if_neg (by omega), if_pos h2, and_3F, Nat.shiftRight_eq_div_pow]
  rw [or_eq_add_of_mod 6 0xC0 _ (by norm_num) (by norm_num; omega),
    or_eq_add_of_mod 7 0x80 _ (by norm_num) (by norm_num; omega)]

theorem encodeRune_three (r : Nat) (h1 : 0x7FF < r) (h2 : r ≤ 0xFFFF)
    (h3 : ¬ (0xD800 ≤ r ∧ r ≤ 0xDFFF)) :
    encodeRune r = [224 + r / 4096, 128 + r / 64 % 64, 128 + r % 64] := by
  have hr : (if r > 0x10FFFF ∨ (0xD800 ≤ r ∧ r ≤ 0xDFFF) then RuneError else r) = r :=
    if_neg (by omega)
  unfold encodeRune
  rw [if_neg (by omega), if_neg (by omega)]
  simp only [hr]
  rw [if_pos h2, and_3F, and_3F, Nat.shiftRight_eq_div_pow, Nat.shiftRight_eq_div_pow]
  rw [or_eq_add_of_mod 5 0xE0 _ (by norm_num) (by norm_num; omega),
    or_eq_add_of_mod 7 0x80 (r / 2 ^ 6 % 64) (by norm_num) (by norm_num; omega),
    or_eq_add_of_mod 7 0x80 (r % 64) (by norm_num) (by norm_num; omega)]

theorem encodeRune_four (r : Nat) (h1 : 0xFFFF < r) (h2 : r ≤ 0x10FFFF) :
    encodeRune r = [240 + r / 262144, 128 + r / 4096 % 64, 128 + r / 64 % 64, 128 + r % 64] := by
  have hr : (if r > 0x10FFFF ∨ (0xD800 ≤ r ∧ r ≤ 0xDFFF) then RuneError else r) = r :=
    if_neg (by omega)
  unfold encodeRune
  rw [if_neg (by omega), if_neg (by omega)]
  simp only [hr]
  rw [if_neg (by omega), and_3F, and_3F, and_3F, Nat.shiftRight_eq_div_pow,
    Nat.shiftRight_eq_div_pow, Nat.shiftRight_eq_div_pow]
  rw [or_eq_add_of_mod 4 0xF0 _ (by norm_num) (by norm_num; omega),
    or_eq_add_of_mod 7 0x80 (r / 2 ^ 12 % 64) (by norm_num) (by norm_num; omega),
    or_eq_add_of_mod 7 0x80 (r / 2 ^ 6 % 64) (by norm_num) (by norm_num; omega),
    or_eq_add_of_mod 7 0x80 (r % 64) (by norm_num) (by norm_num; omega)]


theorem encode_decode_two (s0 s1 : Nat) (h0 : 0xC2 ≤ s0 ∧ s0 ≤ 0xDF) (h1 : 0x80 ≤ s1 ∧ s1 ≤ 0xBF) :
    encodeRune (((s0 &&& 0x1F) <<< 6) ||| (s1 &&& 0x3F)) = [s0, s1] := by
  rw [rune2_eq, encodeRune_two _ (by omega) (by omega)]
  congr 1
  · omega
  · congr 1; omega

theorem encode_decode_three (s0 s1 s2 : Nat) (h0 : 0xE0 ≤ s0 ∧ s0 ≤ 0xEF)
    (h1 : 0x80 ≤ s1 ∧ s1 ≤ 0xBF) (h2 : 0x80 ≤ s2 ∧ s2 ≤ 0xBF)
    (hE0 : s0 = 0xE0 → 0xA0 ≤ s1) (hED : s0 = 0xED → s1 ≤ 0x9F) :
    encodeRune (((s0 &&& 0x0F) <<< 12) ||| ((s1 &&& 0x3F) <<< 6) ||| (s2 &&& 0x3F))
      = [s0, s1, s2] := by
  rw [rune3_eq, encodeRune_three _ (by omega) (by omega) (by omega)]
  congr 1
  · omega
  · congr 1
    · omega
    · congr 1; omega

theorem encode_decode_four (s0 s1 s2 s3 : Nat) (h0 : 0xF0 ≤ s0 ∧ s0 ≤ 0xF4)
    (h1 : 0x80 ≤ s1 ∧ s1 ≤ 0xBF) (h2 : 0x80 ≤ s2 ∧ s2 ≤ 0xBF) (h3 : 0x80 ≤ s3 ∧ s3 ≤ 0xBF)
    (hF0 : s0 = 0xF0 → 0x90 ≤ s1) (hF4 : s0 = 0xF4 → s1 ≤ 0x8F) :
    encodeRune (((s0 &&& 0x07) <<< 18) ||| ((s1 &&& 0x3F) <<< 12) ||| ((s2 &&& 0x3F) <<< 6)
      ||| (s3 &&& 0x3F)) = [s0, s1, s2, s3] := by
  rw [rune4_eq, encodeRune_four _ (by omega) (by omega)]
  congr 1
  · omega
  · congr 1
    · omega
    · congr 1
      · omega
      · congr 1; omega

theorem leadInfo_cases {b sz lo hi : Nat} (h : leadInfo b = some (sz, lo, hi)) :
    (sz = 2 ∧ 0xC2 ≤ b ∧ b ≤ 0xDF ∧ lo = 0x80 ∧ hi = 0xBF)
      ∨ (sz = 3 ∧ 0xE0 ≤ b ∧ b ≤ 0xEF ∧ 0x80 ≤ lo ∧ hi ≤ 0xBF
          ∧ (b = 0xE0 → 0xA0 ≤ lo) ∧ (b = 0xED → hi ≤ 0x9F))
      ∨ (sz = 4 ∧ 0xF0 ≤ b ∧ b ≤ 0xF4 ∧ 0x80 ≤ lo ∧ hi ≤ 0xBF
          ∧ (b = 0xF0 → 0x90 ≤ lo) ∧ (b = 0xF4 → hi ≤ 0x8F)) := by
  unfold leadInfo at h
  split_ifs at h <;> simp at h <;> omega

/-- The UTF-8 round trip: a rune that `DecodeRuneInString` accepts is encoded by
`encodeRune` as the bytes it was read from. -/
theorem encode_decode (s : GoString) (hs : s ≠ [])
    (h : ¬ ((DecodeRuneInString s).1 = RuneError ∧ (DecodeRuneInString s).2 = 1)) :
    encodeRune (DecodeRuneInString s).1 = s.take (DecodeRuneInString s).2 := by
  rcases s with _ | ⟨s0, t⟩
  · exact absurd rfl hs
  · unfold DecodeRuneInString at h ⊢
    by_cases h0 : s0 < RuneSelf
    · simp only [if_pos h0]
      unfold RuneSelf at h0
      simp [encodeRune]; omega
    · simp only [if_neg h0] at h ⊢
      rcases hl : leadInfo s0 with _ | ⟨sz, lo, hi⟩
      · rw [hl] at h; simp at h
      · rw [hl] at h
        simp only [] at h ⊢
        rcases leadInfo_cases hl with ⟨rfl, c1, c2, rfl, rfl⟩ | ⟨rfl, c1, c2, c3, c4, c5, c6⟩
            | ⟨rfl, c1, c2, c3, c4, c5, c6⟩
        · rcases t with _ | ⟨s1, t1⟩
          · simp at h
          · simp only [List.length_cons] at h ⊢
            rw [if_neg (by omega)] at h ⊢
            by_cases hr : s1 < 0x80 ∨ 0xBF < s1
            · rw [if_pos hr] at h; simp at h
            · rw [if_neg hr, if_pos (le_refl 2)]
              simp only []
              rw [encode_decode_two s0 s1 ⟨c1, c2⟩ (by omega)]
              rfl
        · rcases t with _ | ⟨s1, _ | ⟨s2, t2⟩⟩
          · simp at h
          · simp only [List.length_cons, List.length_nil] at h
            rw [if_pos (by omega)] at h; simp at h
          · simp only [List.length_cons] at h ⊢
            rw [if_neg (by omega)] at h ⊢
            by_cases hr : s1 < lo ∨ hi < s1
            · rw [if_pos hr] at h; simp at h
            · rw [if_neg hr, if_neg (by omega)] at h ⊢
              by_cases hr2 : s2 < 0x80 ∨ 0xBF < s2
              · rw [if_pos hr2] at h; simp at h
              · rw [if_neg hr2, if_pos (le_refl 3)]
                simp only []
                rw [encode_decode_three s0 s1 s2 ⟨c1, c2⟩ (by omega) (by omega)
                  (fun e => by have := c5 e; omega) (fun e => by have := c6 e; omega)]
                rfl
        · rcases t with _ | ⟨s1, _ | ⟨s2, _ | ⟨s3, t3⟩⟩⟩
          · simp at h
          · simp only [List.length_cons, List.length_nil] at h
            rw [if_pos (by omega)] at h; simp at h
          · simp only [List.length_cons, List.length_nil] at h
            rw [if_pos (by omega)] at h; simp at h
          · simp only [List.length_cons] at h ⊢
            rw [if_neg (by omega)] at h ⊢
            by_cases hr : s1 < lo ∨ hi < s1
            · rw [if_pos hr] at h; simp at h
            · rw [if_neg hr, if_neg (by omega)] at h ⊢
              by_cases hr2 : s2 < 0x80 ∨ 0xBF < s2
              · rw [if_pos hr2] at h; simp at h
              · rw [if_neg hr2, if_neg (by omega)] at h ⊢
                by_cases hr3 : s3 < 0x80 ∨ 0xBF < s3
                · rw [if_pos hr3] at h; simp at h
                · rw [if_neg hr3]
                  simp only []
                  rw [encode_decode_four s0 s1 s2 s3 ⟨c1, c2⟩ (by omega) (by omega) (by omega)
                    (fun e => by have := c5 e; omega) (fun e => by have := c6 e; omega)]
                  rfl

/-! ### `strings.ToLower` -/

theorem mapRest_nil (tbl : Nat → Nat) (fuel : Nat) : mapRest tbl fuel [] = [] := by
  cases fuel <;> simp [mapRest]

/-- The output of `strings.Map` is the mapped runes, encoded one after the
other, whether or not a prefix of the input was left untouched. -/
theorem mapFirst_eq_mapRest (tbl : Nat → Nat) : ∀ (fuel : Nat) (pre s : GoString),
    s.length ≤ fuel → mapFirst tbl fuel pre s = pre ++ mapRest tbl fuel s := by
  intro fuel
  induction fuel with
  | zero =>
    intro pre s hs
    have : s = [] := List.length_eq_zero.mp (by omega)
    subst this
    simp [mapFirst, mapRest]
  | succ n ih =>
    intro pre s hs
    by_cases hne : s = []
    · subst hne; simp [mapFirst, mapRest]
    · have hsz := decode_size s hne
      have hrt := encode_decode s hne
      rw [mapFirst, mapRest, if_neg hne, if_neg hne]
      rcases hd : DecodeRuneInString s with ⟨c, size⟩
      rw [hd] at hsz hrt
      simp only [] at hsz hrt ⊢
      by_cases hc : unicodeToLower tbl c = c ∧ ¬ (c = RuneError ∧ size = 1)
      · rw [if_pos hc, ih _ _ (by rw [List.length_drop]; omega), hc.1, hrt hc.2]
        simp
      · rw [if_neg hc]; simp

theorem unicodeToLower_asciiLower (tbl : Nat → Nat) (c : Nat) (hc : c < 0x80) :
    unicodeToLower tbl (asciiLower c) = unicodeToLower tbl c := by
  have := (asciiLower_lt_iff c).mpr hc
  unfold unicodeToLower
  rw [if_pos (by omega), if_pos (by omega), asciiLower_idem]

theorem mapRest_map_lower (tbl : Nat → Nat) : ∀ (fuel : Nat) (s : GoString),
    mapRest tbl fuel (s.map asciiLower) = mapRest tbl fuel s := by
  intro fuel
  induction fuel with
  | zero => intro s; rfl
  | succ n ih =>
    intro s
    rcases s with _ | ⟨c, t⟩
    · rfl
    · rw [mapRest, mapRest, if_neg (by simp), if_neg (by simp), decode_map_lower]
      simp only []
      by_cases hc : c < 0x80
      · rw [if_pos hc, decode_ascii c t hc]
        simp only [unicodeToLower_asciiLower tbl c hc]
        congr 1
        simpa using ih t
      · rw [if_neg hc]
        rcases DecodeRuneInString (c :: t) with ⟨r, size⟩
        simp only []
        rw [← List.map_drop, ih]

/-- On an ASCII string `ToLower` is the byte-wise lower-casing. -/
theorem ToLower_ascii (tbl : Nat → Nat) (s : GoString)
    (h : s.all (fun c => decide (c < RuneSelf)) = true) : ToLower tbl s = s.map asciiLower := by
  unfold ToLower
  rw [if_pos h]
  split
  · rfl
  · rename_i hn; exact (map_asciiLower_of_not_any s hn).symm

/-- The function `ToLower` does not see the ASCII case of the letters of its argument. -/
theorem ToLower_map_lower (tbl : Nat → Nat) (s : GoString) :
    ToLower tbl (s.map asciiLower) = ToLower tbl s := by
  have hall : (s.map asciiLower).all (fun c => decide (c < RuneSelf))
      = s.all (fun c => decide (c < RuneSelf)) := by
    rw [List.all_map]
    congr 1
    funext c
    simp only [Function.comp, RuneSelf]
    congr 1
    exact propext (asciiLower_lt_iff c)
  by_cases h : s.all (fun c => decide (c < RuneSelf)) = true
  · rw [ToLower_ascii tbl s h, ToLower_ascii tbl _ (hall.trans h), map_asciiLower_idem]
  · unfold ToLower
    rw [if_neg h, if_neg (by rw [hall]; exact h), List.length_map,
      mapFirst_eq_mapRest tbl _ _ _ (by simp), mapFirst_eq_mapRest tbl _ _ _ (le_refl _),
      mapRest_map_lower]

/-! ### `findHeaderIndex` and variants of a cell -/

/-- Cells with the same trimmed, lower-cased form are the same to the header loop. -/
theorem findHeaderIndexLoop_congr (tbl : Nat → Nat) (target : GoString) :
    ∀ (h1 h2 : List GoString) (i : Int),
      h1.map (fun h => ToLower tbl (TrimSpace h)) = h2.map (fun h => ToLower tbl (TrimSpace h)) →
      findHeaderIndexLoop tbl target h1 i = findHeaderIndexLoop tbl target h2 i := by
  intro h1
  induction h1 with
  | nil =>
    intro h2 i h
    cases h2 with
    | nil => rfl
    | cons b t => simp at h
  | cons a t ih =>
    intro h2 i h
    cases h2 with
    | nil => simp at h
    | cons b t2 =>
      simp only [List.map_cons, List.cons.injEq] at h
      simp only [findHeaderIndexLoop, h.1, ih t2 (i + 1) h.2]


theorem map_set_eq {α β : Type} (f : α → β) (a : α) : ∀ (l : List α) (i : Nat),
    (∀ x, l.get? i = some x → f x = f a) → (l.set i a).map f = l.map f := by
  intro l
  induction l with
  | nil => intro i _; rfl
  | cons b t ih =>
    intro i h
    cases i with
    | zero =>
      have := h b rfl
      simp [this]
    | succ j =>
      simp only [List.set_cons_succ, List.map_cons]
      rw [ih j (fun x hx => h x (by simpa using hx))]

/-! ### Adequacy of the loop bounds of the model -/

/-- The bound `len(s)` on the number of rounds of the loop of `TrimLeftFunc` is
never reached before the string is exhausted. -/
theorem trimLeftLoop_fuel : ∀ (f1 f2 : Nat) (s : GoString), s.length ≤ f1 → s.length ≤ f2 →
    trimLeftLoop f1 s = trimLeftLoop f2 s := by
  intro f1
  induction f1 with
  | zero =>
    intro f2 s h1 _
    have : s = [] := List.length_eq_zero.mp (by omega)
    subst this
    rw [trimLeftLoop_nil, trimLeftLoop_nil]
  | succ n ih =>
    intro f2 s h1 h2
    by_cases hne : s = []
    · subst hne; rw [trimLeftLoop_nil, trimLeftLoop_nil]
    · cases f2 with
      | zero => exact absurd (List.length_eq_zero.mp (by omega)) hne
      | succ m =>
        have hsz := decode_size s hne
        rw [trimLeftLoop, trimLeftLoop, if_neg hne, if_neg hne]
        rcases hd : DecodeRuneInString s with ⟨r, size⟩
        rw [hd] at hsz
        simp only [] at hsz ⊢
        split
        · exact ih m _ (by rw [List.length_drop]; omega) (by rw [List.length_drop]; omega)
        · rfl

/-- The bound on the number of rounds of the loop of `lastIndexFunc` is never
reached before the index is at zero. -/
theorem lastIndexLoop_fuel (s : GoString) : ∀ (f1 f2 i : Nat), i ≤ f1 → i ≤ f2 →
    lastIndexLoop s f1 i = lastIndexLoop s f2 i := by
  intro f1
  induction f1 with
  | zero =>
    intro f2 i h1 _
    have : i = 0 := by omega
    subst this
    cases f2 <;> simp [lastIndexLoop]
  | succ n ih =>
    intro f2 i h1 h2
    by_cases h0 : i = 0
    · subst h0; cases f2 <;> simp [lastIndexLoop]
    · cases f2 with
      | zero => omega
      | succ m =>
        rw [lastIndexLoop, lastIndexLoop, if_neg h0, if_neg h0]
        by_cases hne : s.take i = []
        · rw [hne]
          have : DecodeLastRuneInString [] = (RuneError, 0) := by
            simp [DecodeLastRuneInString]
          rw [this]
          have : IsSpace RuneError = false := by decide
          simp [this]
        · have hsz := decodeLast_size _ hne
          rcases hd : DecodeLastRuneInString (s.take i) with ⟨r, size⟩
          rw [hd] at hsz
          simp only [] at hsz ⊢
          split
          · exact ih m _ (by omega) (by omega)
          · rfl

/-- The bound on the number of rounds of the second loop of `strings.Map` is
never reached before the string is exhausted. -/
theorem mapRest_fuel (tbl : Nat → Nat) : ∀ (f1 f2 : Nat) (s : GoString),
    s.length ≤ f1 → s.length ≤ f2 → mapRest tbl f1 s = mapRest tbl f2 s := by
  intro f1
  induction f1 with
  | zero =>
    intro f2 s h1 _
    have : s = [] := List.length_eq_zero.mp (by omega)
    subst this
    rw [mapRest_nil, mapRest_nil]
  | succ n ih =>
    intro f2 s h1 h2
    by_cases hne : s = []
    · subst hne; rw [mapRest_nil, mapRest_nil]
    · cases f2 with
      | zero => exact absurd (List.length_eq_zero.mp (by omega)) hne
      | succ m =>
        have hsz := decode_size s hne
        rw [mapRest, mapRest, if_neg hne, if_neg hne]
        rcases hd : DecodeRuneInString s with ⟨r, size⟩
        rw [hd] at hsz
        simp only [] at hsz ⊢
        rw [ih m _ (by rw [List.length_drop]; omega) (by rw [List.length_drop]; omega)]

/-- The backward scan of `DecodeLastRuneInString` visits at most `UTFMax - 1`
bytes: the bound `UTFMax` on its rounds is never reached. -/
theorem scanBack_fuel (s : GoString) (lim : Int) : ∀ (f1 f2 : Nat) (start : Int),
    start - lim < f1 → start - lim < f2 → scanBack s lim f1 start = scanBack s lim f2 start := by
  intro f1
  induction f1 with
  | zero =>
    intro f2 start h1 _
    cases f2 with
    | zero => rfl
    | succ m => simp only [scanBack]; rw [if_neg (by omega)]
  | succ n ih =>
    intro f2 start h1 h2
    cases f2 with
    | zero => simp only [scanBack]; rw [if_neg (by omega)]
    | succ m =>
      simp only [scanBack]
      split
      · split
        · rfl
        · exact ih m _ (by omega) (by omega)
      · rfl

/-! ### Runs that fail, and what becomes of each record -/


/-- One round of the record loop on a record that was read: the record is
tallied in `BadRows` or in the counter of its domain, and the loop goes on. -/
theorem importLoop_step (k : Int) (hk : 0 ≤ k) (allow : Bool) (row : List GoString)
    (rest : List (Except GoError (List GoString))) (st : Stats) (m : GoMap) :
    importLoop k allow (Except.ok row :: rest) st m =
      match rowDomain k allow row with
      | none => importLoop k allow rest ⟨st.TotalRows + 1, st.BadRows + 1, st.UniqueDomains⟩ m
      | some d =>
        importLoop k allow rest ⟨st.TotalRows + 1, st.BadRows, st.UniqueDomains⟩
          (GoMap.incr m d) := by
  simp only [importLoop]
  by_cases hlen : k ≥ (row.length : Int)
  · have hr : rowDomain k allow row = none := by simp [rowDomain, hlen]
    rw [if_pos hlen, hr]
  · rw [if_neg hlen]
    have hlt : k.toNat < row.length := by omega
    have hget : row.get? k.toNat = some (row.get ⟨k.toNat, hlt⟩) := by
      rw [List.get?_eq_get]
    have hr : rowDomain k allow row =
        if (extractDomain (row.get ⟨k.toNat, hlt⟩)).2 = true
          ∧ isValidDomain (extractDomain (row.get ⟨k.toNat, hlt⟩)).1 allow = some true then
        some (extractDomain (row.get ⟨k.toNat, hlt⟩)).1 else none := by
      simp only [rowDomain, if_neg hlen, hget]
    rw [hget]
    simp only []
    rcases hed : extractDomain (row.get ⟨k.toNat, hlt⟩) with ⟨d, ok⟩
    rw [hed] at hr
    simp only [] at hr ⊢
    cases ok with
    | false =>
      have hr' : rowDomain k allow row = none := by rw [hr]; simp
      rw [hr']
      simp
    | true =>
      simp only [if_true]
      rw [isValidDomain_closed] at hr ⊢
      cases hv : (decide (d ≠ [] ∧ d.length ≤ 253) && (specLabels d).all specLabelOk
        && (allow || decide (46 ∈ d))) with
      | false =>
        rw [hv] at hr
        have hr' : rowDomain k allow row = none := by rw [hr]; simp
        rw [hr']
      | true =>
        rw [hv] at hr
        have hr' : rowDomain k allow row = some d := by rw [hr]; simp
        rw [hr']

/-- The record loop over records that are read, followed by whatever the reader
delivers next. -/
theorem importLoop_append (k : Int) (hk : 0 ≤ k) (allow : Bool)
    (tail : List (Except GoError (List GoString))) :
    ∀ (rows : List (List GoString)) (st : Stats) (m : GoMap),
      importLoop k allow (rows.map Except.ok ++ tail) st m =
        importLoop k allow tail
          ⟨st.TotalRows + rows.length,
            st.BadRows + (rows.filter (fun r => (rowDomain k allow r).isNone)).length,
            st.UniqueDomains⟩
          ((rows.filterMap (rowDomain k allow)).foldl GoMap.incr m) := by
  intro rows
  induction rows with
  | nil => intro st m; simp
  | cons row rows ih =>
    intro st m
    rw [List.map_cons, List.cons_append, importLoop_step k hk]
    cases hr : rowDomain k allow row with
    | none =>
      simp only []
      rw [ih]
      simp only [List.filter_cons, List.filterMap_cons, hr, Option.isNone_none, if_true,
        List.length_cons]
      congr 2
      · push_cast; ring
      · push_cast; ring
    | some d =>
      simp only []
      rw [ih]
      simp only [List.filter_cons, List.filterMap_cons, hr, Option.isNone_some, List.length_cons,
        List.foldl_cons]
      congr 2
      push_cast; ring


theorem rowDomain_eq_none_iff (k : Int) (allow : Bool) (row : List GoString) :
    rowDomain k allow row = none ↔ rowBad k allow row = true := by
  unfold rowDomain rowBad
  by_cases hk : k ≥ (row.length : Int)
  · have : (row.length : Int) ≤ k := hk
    simp [hk, this]
  · have hk' : ¬ (row.length : Int) ≤ k := hk
    rw [if_neg hk]
    cases hg : row.get? k.toNat with
    | none => simp
    | some f =>
      simp only [hk', decide_False, Bool.false_or, Bool.or_eq_true, Bool.not_eq_true',
        decide_eq_true_eq]
      rw [isValidDomain_closed]
      cases hok : (extractDomain f).2 <;>
        cases hv : (decide ((extractDomain f).1 ≠ [] ∧ (extractDomain f).1.length ≤ 253)
          && (specLabels (extractDomain f).1).all specLabelOk
          && (allow || decide (46 ∈ (extractDomain f).1))) <;> simp

theorem countP_rowBad (k : Int) (allow : Bool) (rows : List (List GoString)) :
    (rows.filter (fun r => (rowDomain k allow r).isNone)).length = rows.countP (rowBad k allow) := by
  rw [List.countP_eq_length_filter]
  congr 1
  apply List.filter_congr
  intro r _
  cases hr : rowDomain k allow r with
  | none => simp [(rowDomain_eq_none_iff k allow r).mp hr]
  | some d =>
    have : rowBad k allow r = false := by
      cases hb : rowBad k allow r with
      | false => rfl
      | true => rw [(rowDomain_eq_none_iff k allow r).mpr hb] at hr; simp at hr
    simp [this]

/-- A run on a header without the email column. -/
theorem ImportDomainData_no_column (ρ : RangeOrder) (tbl : Nat → Nat) (cfg : Config)
    (header : List GoString) (rest : List (Except GoError (List GoString)))
    (h : ¬ HasEmailColumn tbl header cfg.EmailHeader) :
    ImportDomainData ρ tbl cfg ⟨none, Except.ok header :: rest⟩
      = some (⟨[], ⟨0, 0, 0⟩⟩, some GoError.ErrEmailHeaderMissing) := by
  have hk : findHeaderIndex tbl header cfg.EmailHeader < 0 := by
    have := (findHeaderIndex_nonneg_iff tbl header cfg.EmailHeader).not.mpr h
    omega
  simp only [ImportDomainData, if_pos hk]

/-- C11. When no cell of the header row matches the configured email header,
`ImportDomainData` returns `ErrEmailHeaderMissing` and the zero `Result`,
whatever follows the header: no data row is processed. -/
theorem missing_header_fails (ρ : RangeOrder) (tbl : Nat → Nat) (cfg : Config)
    (header : List GoString) (rest : List (Except GoError (List GoString)))
    (h : ¬ HasEmailColumn tbl header cfg.EmailHeader) :
    ImportDomainData ρ tbl cfg ⟨none, Except.ok header :: rest⟩
      = some (⟨[], ⟨0, 0, 0⟩⟩, some GoError.ErrEmailHeaderMissing) :=
  ImportDomainData_no_column ρ tbl cfg header rest h

/-- C11 for the header `id,name`, a record and a failing read behind it. -/
theorem missing_header_fails_witness :
    ¬ HasEmailColumn id [ascii "id", ascii "name"] (ascii "email")
      ∧ ImportDomainData RangeOrder.stored id ⟨ascii "in.csv", ascii "email", false⟩
          ⟨none, [Except.ok [ascii "id", ascii "name"], Except.ok [ascii "1", ascii "a@b.c"],
            Except.error (GoError.other 5)]⟩
        = some (⟨[], ⟨0, 0, 0⟩⟩, some GoError.ErrEmailHeaderMissing) :=
  ⟨by decide, missing_header_fails RangeOrder.stored id ⟨ascii "in.csv", ascii "email", false⟩
    [ascii "id", ascii "name"] [Except.ok [ascii "1", ascii "a@b.c"],
      Except.error (GoError.other 5)] (by decide)⟩

/-- A run whose read fails after the records `rows`. -/
theorem ImportDomainData_failing (ρ : RangeOrder) (tbl : Nat → Nat) (cfg : Config)
    (header : List GoString) (rows : List (List GoString)) (err : GoError)
    (rest : List (Except GoError (List GoString)))
    (h : HasEmailColumn tbl header cfg.EmailHeader) (herr : err ≠ GoError.EOF) :
    ImportDomainData ρ tbl cfg (failingSource header rows err rest) =
      some (⟨[], ⟨rows.length,
          rows.countP (rowBad (findHeaderIndex tbl header cfg.EmailHeader)
            cfg.AllowSingleLabelDomain), 0⟩⟩, some err) := by
  have hk := (findHeaderIndex_nonneg_iff tbl header cfg.EmailHeader).mpr h
  have hk' : ¬ findHeaderIndex tbl header cfg.EmailHeader < 0 := by omega
  simp only [ImportDomainData, failingSource, if_neg hk', importLoop_append _ hk, importLoop,
    if_neg herr, countP_rowBad]
  simp

/-- C12, as amended. When a read fails with an error other than end of input
after the records `rows` were read, `ImportDomainData` returns that error; the
`Result` returned with it has empty `Data` and `UniqueDomains = 0`, and its
`TotalRows` and `BadRows` are the counts over the records read so far. -/
theorem read_failure_returns_error (ρ : RangeOrder) (tbl : Nat → Nat) (cfg : Config)
    (header : List GoString) (rows : List (List GoString)) (err : GoError)
    (rest : List (Except GoError (List GoString)))
    (h : HasEmailColumn tbl header cfg.EmailHeader) (herr : err ≠ GoError.EOF) :
    ∃ res, ImportDomainData ρ tbl cfg (failingSource header rows err rest) = some (res, some err)
      ∧ res.Data = [] ∧ res.Stats.UniqueDomains = 0
      ∧ res.Stats.TotalRows = rows.length
      ∧ res.Stats.BadRows = rows.countP (rowBad (findHeaderIndex tbl header cfg.EmailHeader)
          cfg.AllowSingleLabelDomain) :=
  ⟨_, ImportDomainData_failing ρ tbl cfg header rows err rest h herr, rfl, rfl, rfl, rfl⟩

/-- C12, as amended, for the header `email`, the records `a@b.c` and `x`, and a
read that fails next. -/
theorem read_failure_returns_error_witness :
    HasEmailColumn id [ascii "email"] (ascii "email") ∧ GoError.other 5 ≠ GoError.EOF
      ∧ ∃ res, ImportDomainData RangeOrder.stored id ⟨ascii "in.csv", ascii "email", false⟩
          (failingSource [ascii "email"] [[ascii "a@b.c"], [ascii "x"]] (GoError.other 5) [])
            = some (res, some (GoError.other 5))
        ∧ res.Data = [] ∧ res.Stats.UniqueDomains = 0
        ∧ res.Stats.TotalRows = ([[ascii "a@b.c"], [ascii "x"]] : List (List GoString)).length
        ∧ res.Stats.BadRows = ([[ascii "a@b.c"], [ascii "x"]] : List (List GoString)).countP
            (rowBad (findHeaderIndex id [ascii "email"] (ascii "email")) false) :=
  ⟨by decide, by decide, read_failure_returns_error RangeOrder.stored id
    ⟨ascii "in.csv", ascii "email", false⟩ [ascii "email"] [[ascii "a@b.c"], [ascii "x"]]
    (GoError.other 5) [] (by decide) (by decide)⟩

/-- C12, counterexample. The header `email`, the records `a@b.c` and `x`, then a
read that fails: the `Result` returned with the error has `TotalRows = 2` and
`BadRows = 1`, not zero. -/
theorem read_failure_counterexample :
    ImportDomainData RangeOrder.stored id ⟨ascii "in.csv", ascii "email", false⟩
        (failingSource [ascii "email"] [[ascii "a@b.c"], [ascii "x"]] (GoError.other 5) [])
      = some (⟨[], ⟨2, 1, 0⟩⟩, some (GoError.other 5))
    ∧ (⟨[], ⟨2, 1, 0⟩⟩ : Result) ≠ ⟨[], ⟨0, 0, 0⟩⟩ := by
  decide

/-! ### The statistics and the entries of a successful run -/

theorem makeSortedData_nil (ρ : RangeOrder) : makeSortedData ρ [] = [] := by
  have h := makeSortedData_perm ρ []
  simpa using h

theorem makeSortedData_domains_nodup (ρ : RangeOrder) (m : GoMap) (h : (m.map Prod.fst).Nodup) :
    ((makeSortedData ρ m).map DomainData.Domain).Nodup := by
  have := (makeSortedData_perm ρ m).map DomainData.Domain
  rw [this.nodup_iff]
  simpa [List.map_map, Function.comp_def] using h

/-- The domains of the entries of a run are the domains that some row yields. -/
theorem mem_data_domains_iff (ρ : RangeOrder) (k : Int) (allow : Bool)
    (rows : List (List GoString)) (d : GoString) :
    d ∈ (makeSortedData ρ (finalCounts k allow rows)).map DomainData.Domain ↔
      ∃ row ∈ rows, rowYields k allow d row = true := by
  rw [List.mem_map]
  constructor
  · rintro ⟨e, he, hd⟩
    rw [mem_makeSortedData, (finalCounts_facts k allow rows).2.2, hd, List.countP_pos_iff] at he
    exact he.1
  · intro hr
    refine ⟨⟨d, (rows.countP (rowYields k allow d) : Int)⟩, ?_, rfl⟩
    rw [mem_makeSortedData, (finalCounts_facts k allow rows).2.2]
    exact ⟨List.countP_pos_iff.mpr hr, rfl⟩

theorem filterMap_rowDomain_eq_nil (k : Int) (allow : Bool) (rows : List (List GoString))
    (h : ∀ row ∈ rows, rowBad k allow row = true) :
    rows.filterMap (rowDomain k allow) = [] := by
  rw [List.filterMap_eq_nil_iff]
  intro row hr
  exact (rowDomain_eq_none_iff k allow row).mpr (h row hr)

/-- C13. Row-level malformation is never fatal: when the header contains the email
column and every read succeeds until end of input, `ImportDomainData` returns
a `Result` and a nil error, for every sequence of records; and when every row
is bad, `Data` is empty and `BadRows = TotalRows`. -/
theorem malformed_rows_never_fatal (ρ : RangeOrder) (tbl : Nat → Nat) (cfg : Config)
    (header : List GoString) (rows : List (List GoString))
    (h : HasEmailColumn tbl header cfg.EmailHeader) :
    ∃ res, ImportDomainData ρ tbl cfg (recordsSource header rows) = some (res, none)
      ∧ ((∀ row ∈ rows, rowBad (findHeaderIndex tbl header cfg.EmailHeader)
            cfg.AllowSingleLabelDomain row = true) →
          res.Data = [] ∧ res.Stats.BadRows = res.Stats.TotalRows) := by
  refine ⟨_, ImportDomainData_run ρ tbl cfg header rows h, ?_⟩
  intro hbad
  simp only []
  constructor
  · unfold finalCounts
    rw [filterMap_rowDomain_eq_nil _ _ rows hbad]
    exact makeSortedData_nil ρ
  · have h1 := length_filter_filterMap (findHeaderIndex tbl header cfg.EmailHeader)
      cfg.AllowSingleLabelDomain rows
    rw [filterMap_rowDomain_eq_nil _ _ rows hbad] at h1
    simp only [List.length_nil, Nat.add_zero] at h1
    rw [← h1]

/-- C13 for three records that are all bad: a short record, a field without `'@'`
and a single-label domain in strict mode. -/
theorem malformed_rows_never_fatal_witness :
    HasEmailColumn id [ascii "name", ascii "email"] (ascii "email") ∧
      ∃ res, ImportDomainData RangeOrder.stored id ⟨ascii "in.csv", ascii "email", false⟩
          (recordsSource [ascii "name", ascii "email"]
            [[ascii "Bob"], [ascii "Al", ascii "noatsign"], [ascii "Cy", ascii "c@corp"]])
            = some (res, none)
        ∧ ((∀ row ∈ [[ascii "Bob"], [ascii "Al", ascii "noatsign"], [ascii "Cy", ascii "c@corp"]],
              rowBad (findHeaderIndex id [ascii "name", ascii "email"] (ascii "email")) false row
                = true) →
            res.Data = [] ∧ res.Stats.BadRows = res.Stats.TotalRows) :=
  ⟨by decide, malformed_rows_never_fatal RangeOrder.stored id
    ⟨ascii "in.csv", ascii "email", false⟩ [ascii "name", ascii "email"]
    [[ascii "Bob"], [ascii "Al", ascii "noatsign"], [ascii "Cy", ascii "c@corp"]] (by decide)⟩

/-- C14. For every successful run, `Stats.UniqueDomains` equals `len(Result.Data)`,
and equals the number of distinct domains accepted from the data rows: the
length of every duplicate-free list of exactly the domains that some row
yields, of which the domains of `Data` are one. -/
theorem uniqueDomains_eq (ρ : RangeOrder) (tbl : Nat → Nat) (cfg : Config)
    (header : List GoString) (rows : List (List GoString))
    (h : HasEmailColumn tbl header cfg.EmailHeader) :
    ∃ res, ImportDomainData ρ tbl cfg (recordsSource header rows) = some (res, none)
      ∧ res.Stats.UniqueDomains = res.Data.length
      ∧ (res.Data.map DomainData.Domain).Nodup
      ∧ (∀ d, d ∈ res.Data.map DomainData.Domain ↔
          ∃ row ∈ rows, rowYields (findHeaderIndex tbl header cfg.EmailHeader)
            cfg.AllowSingleLabelDomain d row = true)
      ∧ ∀ ds : List GoString, ds.Nodup →
          (∀ d, d ∈ ds ↔ ∃ row ∈ rows, rowYields (findHeaderIndex tbl header cfg.EmailHeader)
            cfg.AllowSingleLabelDomain d row = true) →
          res.Stats.UniqueDomains = ds.length := by
  refine ⟨_, ImportDomainData_run ρ tbl cfg header rows h, rfl, ?_, ?_, ?_⟩
  · exact makeSortedData_domains_nodup ρ _ (finalCounts_facts _ _ rows).1
  · intro d; exact mem_data_domains_iff ρ _ _ rows d
  · intro ds hnd hds
    simp only []
    have hp : ds.Perm ((makeSortedData ρ (finalCounts (findHeaderIndex tbl header cfg.EmailHeader)
        cfg.AllowSingleLabelDomain rows)).map DomainData.Domain) := by
      rw [List.perm_ext_iff_of_nodup hnd
        (makeSortedData_domains_nodup ρ _ (finalCounts_facts _ _ rows).1)]
      intro d
      rw [hds d, mem_data_domains_iff]
    rw [hp.length_eq, List.length_map]

/-- C14 for four records with two distinct accepted domains. -/
theorem uniqueDomains_eq_witness :
    HasEmailColumn id [ascii "email"] (ascii "email") ∧
      ∃ res, ImportDomainData RangeOrder.backwards id ⟨ascii "in.csv", ascii "email", false⟩
          (recordsSource [ascii "email"]
            [[ascii "a@u.com"], [ascii "b@V.com"], [ascii "c@u.com"], [ascii "x"]])
            = some (res, none)
        ∧ res.Stats.UniqueDomains = res.Data.length
        ∧ (∀ ds : List GoString, ds.Nodup →
            (∀ d, d ∈ ds ↔ ∃ row ∈ [[ascii "a@u.com"], [ascii "b@V.com"], [ascii "c@u.com"],
                [ascii "x"]],
              rowYields (findHeaderIndex id [ascii "email"] (ascii "email")) false d row = true) →
            res.Stats.UniqueDomains = ds.length) :=
  ⟨by decide,
    match uniqueDomains_eq RangeOrder.backwards id ⟨ascii "in.csv", ascii "email", false⟩
      [ascii "email"] [[ascii "a@u.com"], [ascii "b@V.com"], [ascii "c@u.com"], [ascii "x"]]
      (by decide) with
    | ⟨res, h1, h2, _, _, h5⟩ => ⟨res, h1, h2, h5⟩⟩

/-- C15. For every successful run with policy `p`, every entry of `Result.Data` has
a domain that `isValidDomain` accepts under `p`, and no two entries have the
same domain. -/
theorem data_domains_valid_distinct (ρ : RangeOrder) (tbl : Nat → Nat) (cfg : Config)
    (header : List GoString) (rows : List (List GoString))
    (h : HasEmailColumn tbl header cfg.EmailHeader) :
    ∃ res, ImportDomainData ρ tbl cfg (recordsSource header rows) = some (res, none)
      ∧ (∀ e ∈ res.Data, isValidDomain e.Domain cfg.AllowSingleLabelDomain = some true)
      ∧ res.Data.Pairwise (fun a b => a.Domain ≠ b.Domain) := by
  refine ⟨_, ImportDomainData_run ρ tbl cfg header rows h, ?_, ?_⟩
  · intro e he
    simp only [] at he
    have hd : e.Domain ∈ (makeSortedData ρ (finalCounts (findHeaderIndex tbl header
        cfg.EmailHeader) cfg.AllowSingleLabelDomain rows)).map DomainData.Domain :=
      List.mem_map_of_mem _ he
    rw [mem_data_domains_iff] at hd
    obtain ⟨row, _, hy⟩ := hd
    unfold rowYields at hy
    rw [Bool.and_eq_true] at hy
    cases hg : row.get? (findHeaderIndex tbl header cfg.EmailHeader).toNat with
    | none => rw [hg] at hy; simp at hy
    | some f =>
      rw [hg] at hy
      simp only [Bool.and_eq_true, decide_eq_true_eq] at hy
      exact hy.2.2
  · exact List.pairwise_map.mp
      (makeSortedData_domains_nodup ρ _ (finalCounts_facts _ _ rows).1)

/-- C15 for three records in permissive mode. -/
theorem data_domains_valid_distinct_witness :
    HasEmailColumn id [ascii "email"] (ascii "email") ∧
      ∃ res, ImportDomainData RangeOrder.stored id ⟨ascii "in.csv", ascii "email", true⟩
          (recordsSource [ascii "email"] [[ascii "a@corp"], [ascii "b@x.org"], [ascii "c@Corp"]])
            = some (res, none)
        ∧ (∀ e ∈ res.Data, isValidDomain e.Domain true = some true)
        ∧ res.Data.Pairwise (fun a b => a.Domain ≠ b.Domain) :=
  ⟨by decide, data_domains_valid_distinct RangeOrder.stored id
    ⟨ascii "in.csv", ascii "email", true⟩ [ascii "email"]
    [[ascii "a@corp"], [ascii "b@x.org"], [ascii "c@Corp"]] (by decide)⟩

/-- C16. For every successful run, `Stats.TotalRows` is the number of data records
read after the header, each counted once whatever its field count or validity. -/
theorem totalRows_eq_records (ρ : RangeOrder) (tbl : Nat → Nat) (cfg : Config)
    (header : List GoString) (rows : List (List GoString))
    (h : HasEmailColumn tbl header cfg.EmailHeader) :
    ∃ res, ImportDomainData ρ tbl cfg (recordsSource header rows) = some (res, none)
      ∧ res.Stats.TotalRows = rows.length :=
  ⟨_, ImportDomainData_run ρ tbl cfg header rows h, rfl⟩

/-- C16 for the scenario `Allows_ragged_rows`: the short record `Bob` counts. -/
theorem totalRows_eq_records_witness :
    HasEmailColumn id [ascii "name", ascii "email", ascii "city"] (ascii "email") ∧
      ∃ res, ImportDomainData RangeOrder.stored id ⟨ascii "in.csv", ascii "email", false⟩
          (recordsSource [ascii "name", ascii "email", ascii "city"]
            [[ascii "Alice", ascii "a@x.com", ascii "Paris"], [ascii "Bob"],
              [ascii "Carol", ascii "c@y.com", ascii "NYC"]]) = some (res, none)
        ∧ res.Stats.TotalRows = ([[ascii "Alice", ascii "a@x.com", ascii "Paris"], [ascii "Bob"],
            [ascii "Carol", ascii "c@y.com", ascii "NYC"]] : List (List GoString)).length :=
  ⟨by decide, totalRows_eq_records RangeOrder.stored id ⟨ascii "in.csv", ascii "email", false⟩
    [ascii "name", ascii "email", ascii "city"]
    [[ascii "Alice", ascii "a@x.com", ascii "Paris"], [ascii "Bob"],
      [ascii "Carol", ascii "c@y.com", ascii "NYC"]] (by decide)⟩

/-- C17. For every successful run with email column index `k`, `Stats.BadRows` is
the number of records that have at most `k` fields, or on whose field `k`
`extractDomain` fails, or whose extracted domain `isValidDomain` rejects; a
ragged row is one of them, and the run goes on to the end of the records. -/
theorem badRows_eq (ρ : RangeOrder) (tbl : Nat → Nat) (cfg : Config)
    (header : List GoString) (rows : List (List GoString))
    (h : HasEmailColumn tbl header cfg.EmailHeader) :
    ∃ res, ImportDomainData ρ tbl cfg (recordsSource header rows) = some (res, none)
      ∧ res.Stats.BadRows = rows.countP (rowBad (findHeaderIndex tbl header cfg.EmailHeader)
          cfg.AllowSingleLabelDomain)
      ∧ res.Stats.TotalRows = rows.length
      ∧ ∀ row ∈ rows, (row.length : Int) ≤ findHeaderIndex tbl header cfg.EmailHeader →
          rowBad (findHeaderIndex tbl header cfg.EmailHeader) cfg.AllowSingleLabelDomain row
            = true := by
  refine ⟨_, ImportDomainData_run ρ tbl cfg header rows h, ?_, rfl, ?_⟩
  · simp only []
    rw [countP_rowBad]
  · intro row _ hlen
    unfold rowBad
    simp [hlen]

/-- C17 for the scenario `Skips_bad_rows_and_tracks_stats`: six of eight records
are bad. -/
theorem badRows_eq_witness :
    HasEmailColumn id [ascii "email", ascii "name"] (ascii "email") ∧
      ∃ res, ImportDomainData RangeOrder.stored id ⟨ascii "in.csv", ascii "email", false⟩
          (recordsSource [ascii "email", ascii "name"]
            [[ascii "", ascii "nobody"], [ascii "@b", ascii "x"], [ascii "a@", ascii "y"],
              [ascii "a@b@", ascii "z"], [ascii "noatsign", ascii "k"],
              [ascii "a@B.com ", ascii "A"], [ascii "Alice@Example.com", ascii "Alice"],
              [ascii "onlyname"]]) = some (res, none)
        ∧ res.Stats.BadRows = 6 :=
  ⟨by decide,
    match badRows_eq RangeOrder.stored id ⟨ascii "in.csv", ascii "email", false⟩
      [ascii "email", ascii "name"]
      [[ascii "", ascii "nobody"], [ascii "@b", ascii "x"], [ascii "a@", ascii "y"],
        [ascii "a@b@", ascii "z"], [ascii "noatsign", ascii "k"],
        [ascii "a@B.com ", ascii "A"], [ascii "Alice@Example.com", ascii "Alice"],
        [ascii "onlyname"]] (by decide) with
    | ⟨res, h1, h2, _, _⟩ => ⟨res, h1, h2.trans (by decide)⟩⟩

/-! ### Determinism of the ordered output -/

theorem dataLess_irrefl (a : DomainData) : dataLess a a = false := by
  simp [dataLess, strLess_irrefl]

/-- Two strictly sorted lists with the same entries are equal. -/
theorem eq_of_perm_of_pairwise_dataLess (l1 l2 : List DomainData) (hp : l1.Perm l2)
    (h1 : l1.Pairwise (fun a b => dataLess a b = true))
    (h2 : l2.Pairwise (fun a b => dataLess a b = true)) : l1 = l2 := by
  haveI : IsAntisymm DomainData (fun a b => dataLess a b = true) :=
    ⟨fun a b hab hba => by
      have := dataLess_trans a b a hab hba
      rw [dataLess_irrefl] at this
      exact absurd this (by simp)⟩
  exact List.eq_of_perm_of_sorted hp h1 h2

/-- Sorting a duplicate-free list of entries gives a strictly sorted list. -/
theorem sortSliceStable_strict (l : GoMap) (h : (l.map Prod.fst).Nodup) :
    (sortSliceStable dataLess (l.map (fun p => DomainData.mk p.1 p.2))).Pairwise
      (fun a b => dataLess a b = true) := by
  have hs := makeSortedData_sorted RangeOrder.stored l h
  exact hs.imp (fun {a b} hab => (dataLess_iff a b).mpr hab)

theorem sortSliceStable_perm_eq (l1 l2 : GoMap) (hp : l1.Perm l2)
    (h : (l1.map Prod.fst).Nodup) :
    sortSliceStable dataLess (l1.map (fun p => DomainData.mk p.1 p.2))
      = sortSliceStable dataLess (l2.map (fun p => DomainData.mk p.1 p.2)) := by
  have h' : (l2.map Prod.fst).Nodup := ((hp.map Prod.fst).nodup_iff).mp h
  apply eq_of_perm_of_pairwise_dataLess _ _ _ (sortSliceStable_strict l1 h)
    (sortSliceStable_strict l2 h')
  exact (sortSliceStable_perm _ _).trans
    ((hp.map _).trans (sortSliceStable_perm _ _).symm)

theorem makeSortedData_order_irrelevant (ρ ρ' : RangeOrder) (m : GoMap)
    (h : (m.map Prod.fst).Nodup) : makeSortedData ρ m = makeSortedData ρ' m := by
  unfold makeSortedData
  apply sortSliceStable_perm_eq _ _ ((ρ.perm m).trans (ρ'.perm m).symm)
  exact ((ρ.perm m).map Prod.fst).nodup_iff.mpr h

/-- The map of the record loop keeps its keys distinct, whatever is read. -/
theorem importLoop_nodup (k : Int) (hk : 0 ≤ k) (allow : Bool) :
    ∀ (reads : List (Except GoError (List GoString))) (st : Stats) (m : GoMap),
      (m.map Prod.fst).Nodup → ∀ st' m' e, importLoop k allow reads st m = some (st', m', e) →
        (m'.map Prod.fst).Nodup := by
  intro reads
  induction reads with
  | nil =>
    intro st m hm st' m' e h
    simp only [importLoop, Option.some.injEq, Prod.mk.injEq] at h
    rw [← h.2.1]; exact hm
  | cons r rest ih =>
    intro st m hm st' m' e h
    cases r with
    | error err =>
      simp only [importLoop] at h
      split at h <;>
        (simp only [Option.some.injEq, Prod.mk.injEq] at h; rw [← h.2.1]; exact hm)
    | ok row =>
      rw [importLoop_step k hk] at h
      cases hr : rowDomain k allow row with
      | none => rw [hr] at h; exact ih _ m hm st' m' e h
      | some d => rw [hr] at h; exact ih _ _ (GoMap.nodup_incr m d hm) st' m' e h

/-- A run does not depend on the order in which the map is enumerated. -/
theorem ImportDomainData_order_irrelevant (ρ ρ' : RangeOrder) (tbl : Nat → Nat) (cfg : Config)
    (src : CsvSource) : ImportDomainData ρ tbl cfg src = ImportDomainData ρ' tbl cfg src := by
  unfold ImportDomainData
  cases src.openErr with
  | some err => rfl
  | none =>
    simp only []
    cases src.reads with
    | nil => rfl
    | cons r reads =>
      cases r with
      | error err => rfl
      | ok header =>
        simp only []
        by_cases hk : findHeaderIndex tbl header cfg.EmailHeader < 0
        · rw [if_pos hk, if_pos hk]
        · rw [if_neg hk, if_neg hk]
          cases hl : importLoop (findHeaderIndex tbl header cfg.EmailHeader)
              cfg.AllowSingleLabelDomain reads ⟨0, 0, 0⟩ [] with
          | none => rfl
          | some r =>
            obtain ⟨st, counts, e⟩ := r
            cases e with
            | some err => rfl
            | none =>
              have hnd := importLoop_nodup _ (by omega) _ reads ⟨0, 0, 0⟩ [] (by simp) st counts
                none hl
              simp only []
              rw [makeSortedData_order_irrelevant ρ ρ' counts hnd]

/-- C18. The ordered output does not depend on the iteration order of the map:
sorting two rearrangements of the same duplicate-free list of entries gives
the same sequence, `makeSortedData` returns the same sequence for every
enumeration of a map, and two runs of `ImportDomainData` on the same input
return the same `Data`, `Stats` and error. -/
theorem sorted_output_deterministic :
    (∀ l1 l2 : GoMap, l1.Perm l2 → (l1.map Prod.fst).Nodup →
        sortSliceStable dataLess (l1.map (fun p => DomainData.mk p.1 p.2))
          = sortSliceStable dataLess (l2.map (fun p => DomainData.mk p.1 p.2)))
      ∧ (∀ (ρ ρ' : RangeOrder) (m : GoMap), (m.map Prod.fst).Nodup →
          makeSortedData ρ m = makeSortedData ρ' m)
      ∧ ∀ (ρ ρ' : RangeOrder) (tbl : Nat → Nat) (cfg : Config) (src : CsvSource),
          ImportDomainData ρ tbl cfg src = ImportDomainData ρ' tbl cfg src :=
  ⟨sortSliceStable_perm_eq, makeSortedData_order_irrelevant, ImportDomainData_order_irrelevant⟩

/-- C18 for the map of `All_ties_same_counts`, enumerated as stored and backwards. -/
theorem sorted_output_deterministic_witness :
    (([(ascii "y.com", 2), (ascii "z.com", 2), (ascii "x.com", 2)] : GoMap).map Prod.fst).Nodup
      ∧ makeSortedData RangeOrder.stored
          [(ascii "y.com", 2), (ascii "z.com", 2), (ascii "x.com", 2)]
        = makeSortedData RangeOrder.backwards
          [(ascii "y.com", 2), (ascii "z.com", 2), (ascii "x.com", 2)] :=
  ⟨by decide, sorted_output_deterministic.2.1 RangeOrder.stored RangeOrder.backwards
    [(ascii "y.com", 2), (ascii "z.com", 2), (ascii "x.com", 2)] (by decide)⟩

/-! ### The validator never panics -/

/-- C20. `isValidDomain` never raises: for every byte string and either policy it
returns a boolean, and neither its loop (the read `domain[i-1]`) nor the
statements after it (the read `domain[len(domain)-1]`) meets an index out of
range, whatever the length of the string. -/
theorem isValidDomain_never_panics (d : GoString) (allow : Bool) :
    (∃ b, isValidDomain d allow = some b)
      ∧ isValidDomainLoop d d 0 0 0 ≠ none
      ∧ validTail d allow (isValidDomainLoop d d 0 0 0) ≠ none := by
  have hl := validTail_loop d allow d [] [] 0 (by simp) (le_refl 0) (by simp) (by simp) (by simp)
  simp only [List.length_nil, Nat.cast_zero, List.nil_append, Nat.add_zero] at hl
  refine ⟨⟨_, isValidDomain_closed d allow⟩, ?_, ?_⟩
  · intro hn
    rw [hn] at hl
    simp [validTail] at hl
  · rw [hl]; simp

/-! ### Strict and permissive runs on the same records -/

theorem rowYields_strict_iff (k : Int) (d : GoString) (row : List GoString) :
    rowYields k false d row = true ↔ (rowYields k true d row = true ∧ 46 ∈ d) := by
  unfold rowYields
  cases row.get? k.toNat with
  | none => simp
  | some f =>
    simp only [isValidDomain_closed, Bool.and_eq_true, decide_eq_true_eq, Option.some.injEq,
      Bool.false_or, Bool.true_or, Bool.and_true]
    tauto

theorem countP_rowYields_strict (k : Int) (d : GoString) (rows : List (List GoString)) :
    rows.countP (rowYields k false d) =
      if 46 ∈ d then rows.countP (rowYields k true d) else 0 := by
  split
  · rename_i hd
    apply List.countP_congr
    intro row _
    rw [rowYields_strict_iff]
    exact ⟨fun h => h.1, fun h => ⟨h, hd⟩⟩
  · rename_i hd
    rw [List.countP_eq_zero]
    intro row _ hy
    exact hd ((rowYields_strict_iff k d row).mp hy).2

/-- The entries of a run: the domains that some row yields, with the number of
rows that yield them. -/
theorem mem_data_iff (ρ : RangeOrder) (k : Int) (allow : Bool) (rows : List (List GoString))
    (e : DomainData) :
    e ∈ makeSortedData ρ (finalCounts k allow rows) ↔
      (0 < rows.countP (rowYields k allow e.Domain)
        ∧ e.CustomerQuantity = (rows.countP (rowYields k allow e.Domain) : Int)) := by
  rw [mem_makeSortedData, (finalCounts_facts k allow rows).2.2]

/-- The strict entries are the permissive entries whose domain has a dot. -/
theorem mem_strict_iff (ρ ρ' : RangeOrder) (k : Int) (rows : List (List GoString))
    (e : DomainData) :
    e ∈ makeSortedData ρ (finalCounts k false rows) ↔
      (e ∈ makeSortedData ρ' (finalCounts k true rows) ∧ 46 ∈ e.Domain) := by
  rw [mem_data_iff, mem_data_iff, countP_rowYields_strict]
  by_cases hd : 46 ∈ e.Domain
  · simp [hd]
  · simp [hd]

theorem makeSortedData_nodup (ρ : RangeOrder) (m : GoMap) (h : (m.map Prod.fst).Nodup) :
    (makeSortedData ρ m).Nodup :=
  List.Nodup.of_map _ (makeSortedData_domains_nodup ρ m h)

theorem sum_filter_add_sum_filter_not (l : List DomainData) (p : DomainData → Bool) :
    ((l.filter p).map DomainData.CustomerQuantity).sum
      + ((l.filter (fun e => !p e)).map DomainData.CustomerQuantity).sum
      = (l.map DomainData.CustomerQuantity).sum := by
  induction l with
  | nil => rfl
  | cons a t ih =>
    cases hp : p a
    · simp only [List.filter_cons, hp, Bool.not_false, if_true, List.map_cons, List.sum_cons,
        Bool.false_eq_true, if_false]
      omega
    · simp only [List.filter_cons, hp, Bool.not_true, if_true, List.map_cons, List.sum_cons,
        Bool.false_eq_true, if_false]
      omega

/-- The strict run and the permissive run over the same records. -/
theorem strict_permissive_run (ρ ρ' : RangeOrder) (k : Int) (rows : List (List GoString)) :
    (∀ e ∈ makeSortedData ρ (finalCounts k false rows),
        e ∈ makeSortedData ρ' (finalCounts k true rows))
      ∧ (∀ e ∈ makeSortedData ρ' (finalCounts k true rows),
          e ∉ makeSortedData ρ (finalCounts k false rows) ↔ 46 ∉ e.Domain)
      ∧ ((rows.filter (fun r => (rowDomain k false r).isNone)).length : Int)
          = ((rows.filter (fun r => (rowDomain k true r).isNone)).length : Int)
            + (((makeSortedData ρ' (finalCounts k true rows)).filter
                (fun e => decide (46 ∉ e.Domain))).map DomainData.CustomerQuantity).sum := by
  refine ⟨fun e he => ((mem_strict_iff ρ ρ' k rows e).mp he).1, ?_, ?_⟩
  · intro e he
    rw [mem_strict_iff ρ ρ' k rows e]
    constructor
    · intro h hd; exact h ⟨he, hd⟩
    · intro h hh; exact h hh.2
  · have hs := length_filter_filterMap k false rows
    have hp := length_filter_filterMap k true rows
    have sumS := (finalCounts_facts k false rows).2.1
    have sumP := (finalCounts_facts k true rows).2.1
    rw [← sum_makeSortedData ρ] at sumS
    rw [← sum_makeSortedData ρ'] at sumP
    have hsplit := sum_filter_add_sum_filter_not (makeSortedData ρ' (finalCounts k true rows))
      (fun e => decide (46 ∈ e.Domain))
    have hperm : (makeSortedData ρ (finalCounts k false rows)).Perm
        ((makeSortedData ρ' (finalCounts k true rows)).filter
          (fun e => decide (46 ∈ e.Domain))) := by
      rw [List.perm_ext_iff_of_nodup
        (makeSortedData_nodup ρ _ (finalCounts_facts k false rows).1)
        ((makeSortedData_nodup ρ' _ (finalCounts_facts k true rows).1).filter _)]
      intro e
      rw [mem_strict_iff ρ ρ' k rows e, List.mem_filter]
      simp
    have hsum := (hperm.map DomainData.CustomerQuantity).sum_eq
    have hnot : (fun e : DomainData => !decide (46 ∈ e.Domain))
        = (fun e : DomainData => decide (46 ∉ e.Domain)) := by
      funext e; simp
    rw [hnot] at hsplit
    omega

/-- C19. For every header and sequence of data records, the strict and the
permissive run give the same `TotalRows`; every entry of the strict `Data` is
an entry of the permissive `Data`, with the same count; the permissive entries
absent from the strict `Data` are exactly those whose domain has no `'.'`; and
the strict `BadRows` is the permissive `BadRows` plus the counts of those
dot-free entries.  (Without the email column both runs fail alike.) -/
theorem strict_vs_permissive (ρ ρ' : RangeOrder) (tbl : Nat → Nat) (path name : GoString)
    (header : List GoString) (rows : List (List GoString)) :
    ∃ rs rp err,
      ImportDomainData ρ tbl ⟨path, name, false⟩ (recordsSource header rows) = some (rs, err)
      ∧ ImportDomainData ρ' tbl ⟨path, name, true⟩ (recordsSource header rows) = some (rp, err)
      ∧ rs.Stats.TotalRows = rp.Stats.TotalRows
      ∧ (∀ e ∈ rs.Data, e ∈ rp.Data)
      ∧ (∀ e ∈ rp.Data, e ∉ rs.Data ↔ 46 ∉ e.Domain)
      ∧ rs.Stats.BadRows = rp.Stats.BadRows
          + ((rp.Data.filter (fun e => decide (46 ∉ e.Domain))).map
              DomainData.CustomerQuantity).sum := by
  by_cases h : HasEmailColumn tbl header name
  · obtain ⟨h1, h2, h3⟩ := strict_permissive_run ρ ρ' (findHeaderIndex tbl header name) rows
    exact ⟨_, _, none, ImportDomainData_run ρ tbl ⟨path, name, false⟩ header rows h,
      ImportDomainData_run ρ' tbl ⟨path, name, true⟩ header rows h, rfl, h1, h2, h3⟩
  · refine ⟨_, _, some GoError.ErrEmailHeaderMissing,
      ImportDomainData_no_column ρ tbl ⟨path, name, false⟩ header _ h,
      ImportDomainData_no_column ρ' tbl ⟨path, name, true⟩ header _ h, rfl, ?_, ?_, ?_⟩
    · intro e he; simp at he
    · intro e he; simp at he
    · simp

/-! ### First matching column and rearrangement -/

theorem eq_singleton_of_nodup {α : Type} (l : List α) (a : α) (hn : l.Nodup)
    (hall : ∀ x ∈ l, x = a) (ha : a ∈ l) : l = [a] := by
  cases l with
  | nil => simp at ha
  | cons x t =>
    have hx : x = a := hall x (List.mem_cons_self _ _)
    subst hx
    cases t with
    | nil => rfl
    | cons y t =>
      exfalso
      have hy : y = x := hall y (by simp)
      rw [List.nodup_cons] at hn
      exact hn.1 (by simp [hy])

/-- C22. When some cell of the header matches the configured name (both trimmed
and lower-cased), `findHeaderIndex` returns an index `i` with `0 <= i < len(header)`
whose cell matches, and no cell at a smaller index matches: the first of several
matching columns is used, and the index is in range of the header. -/
theorem findHeaderIndex_first_match (tbl : Nat → Nat) (header : List GoString)
    (name : GoString) (h : HasEmailColumn tbl header name) :
    ∃ i : Nat, findHeaderIndex tbl header name = (i : Int)
      ∧ i < header.length
      ∧ (∃ cell, header[i]? = some cell
            ∧ ToLower tbl (TrimSpace cell) = ToLower tbl (TrimSpace name))
      ∧ ∀ j, j < i → ∀ cell, header[j]? = some cell →
            ToLower tbl (TrimSpace cell) ≠ ToLower tbl (TrimSpace name) := by
  unfold findHeaderIndex
  rcases findHeaderIndexLoop_spec tbl (ToLower tbl (TrimSpace name)) header 0 with
    ⟨hno, _⟩ | ⟨pre, c, post, hsplit, hpre, hc, hidx⟩
  · obtain ⟨x, hx, hxe⟩ := h
    exact absurd hxe (hno x hx)
  · refine ⟨pre.length, by rw [hidx]; simp, ?_, ⟨c, ?_, hc⟩, ?_⟩
    · rw [hsplit]; simp
    · rw [hsplit, List.getElem?_append_right (le_refl _)]; simp
    · intro j hj cell hcell
      rw [hsplit, List.getElem?_append_left hj] at hcell
      exact hpre cell (List.getElem?_mem hcell)

theorem findHeaderIndex_first_match_witness :
    HasEmailColumn id [ascii "n", ascii " E ", ascii "e"] (ascii "e") ∧
    ∃ i : Nat, findHeaderIndex id [ascii "n", ascii " E ", ascii "e"] (ascii "e") = (i : Int)
      ∧ i < [ascii "n", ascii " E ", ascii "e"].length
      ∧ (∃ cell, [ascii "n", ascii " E ", ascii "e"][i]? = some cell
            ∧ ToLower id (TrimSpace cell) = ToLower id (TrimSpace (ascii "e")))
      ∧ ∀ j, j < i → ∀ cell, [ascii "n", ascii " E ", ascii "e"][j]? = some cell →
            ToLower id (TrimSpace cell) ≠ ToLower id (TrimSpace (ascii "e")) :=
  ⟨by decide,
    findHeaderIndex_first_match id [ascii "n", ascii " E ", ascii "e"] (ascii "e") (by decide)⟩

/-- C23. For every map `m` (distinct keys) and every iteration order, the result
of `makeSortedData` is a rearrangement of the entries of `m`: it is a permutation
of them, its length is `len(m)`, for every key of `m` the entries with that
`Domain` are exactly one, whose `CustomerQuantity` is `m[key]`, and the `Domain`
of every entry is a key of `m`. -/
theorem makeSortedData_rearrangement (ρ : RangeOrder) (m : GoMap)
    (h : (m.map Prod.fst).Nodup) :
    (makeSortedData ρ m).Perm (m.map (fun p => DomainData.mk p.1 p.2))
      ∧ (makeSortedData ρ m).length = m.length
      ∧ (∀ key q, GoMap.find m key = some q →
          (makeSortedData ρ m).filter (fun e => decide (e.Domain = key)) = [⟨key, q⟩])
      ∧ (∀ e ∈ makeSortedData ρ m, GoMap.find m e.Domain = some e.CustomerQuantity) := by
  refine ⟨makeSortedData_perm ρ m, ?_, ?_, ?_⟩
  · simpa using (makeSortedData_perm ρ m).length_eq
  · intro key q hq
    apply eq_singleton_of_nodup
    · exact (makeSortedData_nodup ρ m h).filter _
    · intro e he
      rw [List.mem_filter] at he
      obtain ⟨he1, he2⟩ := he
      have hk : e.Domain = key := of_decide_eq_true he2
      have := (GoMap.mem_iff_find m h _ _).mp ((mem_makeSortedData ρ m e).mp he1)
      rw [hk, hq] at this
      cases e
      simp only [Option.some.injEq] at this
      simp_all
    · rw [List.mem_filter]
      exact ⟨(mem_makeSortedData ρ m _).mpr ((GoMap.mem_iff_find m h key q).mpr hq), by simp⟩
  · intro e he
    exact (GoMap.mem_iff_find m h _ _).mp ((mem_makeSortedData ρ m e).mp he)

theorem makeSortedData_rearrangement_witness :
    ([(ascii "b", (1 : Int)), (ascii "a", 2)].map Prod.fst).Nodup ∧
    ((makeSortedData RangeOrder.stored [(ascii "b", 1), (ascii "a", 2)]).Perm
        ([(ascii "b", (1 : Int)), (ascii "a", 2)].map (fun p => DomainData.mk p.1 p.2))
      ∧ (makeSortedData RangeOrder.stored [(ascii "b", 1), (ascii "a", 2)]).length
          = [(ascii "b", (1 : Int)), (ascii "a", 2)].length
      ∧ (∀ key q, GoMap.find [(ascii "b", 1), (ascii "a", 2)] key = some q →
          (makeSortedData RangeOrder.stored [(ascii "b", 1), (ascii "a", 2)]).filter
            (fun e => decide (e.Domain = key)) = [⟨key, q⟩])
      ∧ (∀ e ∈ makeSortedData RangeOrder.stored [(ascii "b", 1), (ascii "a", 2)],
          GoMap.find [(ascii "b", 1), (ascii "a", 2)] e.Domain = some e.CustomerQuantity)) :=
  ⟨by decide, makeSortedData_rearrangement RangeOrder.stored [(ascii "b", 1), (ascii "a", 2)]
    (by decide)⟩

/-! ### `strconv.Itoa` -/

theorem smallsString_getD :
    ∀ k, k < 100 → smallsString.getD (k * 2) 0 = 48 + k / 10
      ∧ smallsString.getD (k * 2 + 1) 0 = 48 + k % 10 := by
  decide

theorem small_eq_specDecimal : ∀ k, k < 100 → small k = specDecimal k := by
  decide

theorem digitChar_toNat : ∀ d, d < 10 → (Nat.digitChar d).toNat = 48 + d := by
  decide

/-- The loop of `formatBits` writes the digits that `Nat.toDigits` gives. -/
theorem formatBits10_eq_toDigitsCore :
    ∀ (us fuelF fuelT : Nat) (ds : List Char), us < fuelF → us < fuelT →
      formatBits10 fuelF us (ds.map Char.toNat)
        = (Nat.toDigitsCore 10 fuelT us ds).map Char.toNat := by
  intro us
  induction us using Nat.strong_induction_on with
  | _ us ih =>
    intro fuelF fuelT ds hF hT
    obtain ⟨fF, rfl⟩ : ∃ f, fuelF = f + 1 := ⟨fuelF - 1, by omega⟩
    obtain ⟨fT, rfl⟩ : ∃ f, fuelT = f + 1 := ⟨fuelT - 1, by omega⟩
    by_cases h100 : us ≥ 100
    · obtain ⟨fT, rfl⟩ : ∃ f, fT = f + 1 := ⟨fT - 1, by omega⟩
      have hm : us % 100 < 100 := Nat.mod_lt _ (by norm_num)
      obtain ⟨t1, t2⟩ := smallsString_getD (us % 100) hm
      have h1 : us / 10 ≠ 0 := by omega
      have h2 : us / 10 / 10 ≠ 0 := by omega
      have h3 : us / 10 / 10 = us / 100 := by omega
      have e1 : us % 100 / 10 = us / 10 % 10 := by omega
      have e2 : us % 100 % 10 = us % 10 := by omega
      have d0 := digitChar_toNat (us % 10) (Nat.mod_lt _ (by norm_num))
      have d1 := digitChar_toNat (us / 10 % 10) (Nat.mod_lt _ (by norm_num))
      have := ih (us / 100) (by omega) fF fT
        (Nat.digitChar (us / 10 % 10) :: Nat.digitChar (us % 10) :: ds) (by omega) (by omega)
      have h4 : us / 100 ≠ 0 := by omega
      simp only [formatBits10, if_pos h100, Nat.toDigitsCore, if_neg h1, if_neg h2, h3,
        if_neg h4, t1, t2, e1, e2]
      rw [← this]
      simp only [List.map_cons, d0, d1]
    · by_cases h10 : us ≥ 10
      · obtain ⟨fT, rfl⟩ : ∃ f, fT = f + 1 := ⟨fT - 1, by omega⟩
        obtain ⟨t1, t2⟩ := smallsString_getD us (by omega)
        have h1 : us / 10 ≠ 0 := by omega
        have h2 : us / 10 / 10 = 0 := by omega
        have d0 := digitChar_toNat (us % 10) (Nat.mod_lt _ (by norm_num))
        have d1 := digitChar_toNat (us / 10) (by omega)
        have e1 : us / 10 % 10 = us / 10 := by omega
        simp only [formatBits10, if_neg h100, if_pos h10, Nat.toDigitsCore, if_neg h1, if_pos h2,
          t1, t2, List.map_cons, d0, d1, e1]
      · obtain ⟨_, t2⟩ := smallsString_getD us (by omega)
        have h1 : us / 10 = 0 := by omega
        have d0 := digitChar_toNat (us % 10) (Nat.mod_lt _ (by norm_num))
        simp only [formatBits10, if_neg h100, if_neg h10, Nat.toDigitsCore, if_pos h1,
          t2, List.map_cons, d0]

/-- The function `strconv.Itoa` gives the decimal numeral of a number that is
not negative. -/
theorem Itoa_nonneg (i : Int) (h : 0 ≤ i) : Itoa i = specDecimal i.toNat := by
  obtain ⟨n, rfl⟩ := Int.eq_ofNat_of_zero_le h
  unfold Itoa
  by_cases hs : (0 : Int) ≤ (n : Int) ∧ (n : Int) < 100
  · rw [if_pos hs]
    exact small_eq_specDecimal n (by omega)
  · rw [if_neg hs, if_neg (by omega)]
    have := formatBits10_eq_toDigitsCore n (n + 1) (n + 1) [] (by omega) (by omega)
    simp only [List.map_nil] at this
    simp only [Int.natAbs_ofNat, Int.toNat_ofNat]
    rw [this]
    rfl

/-! ### Fields that need no quotes -/

theorem small_plain : ∀ k, k < 100 → ∀ c ∈ small k, specLabelByte c = true := by
  decide

theorem specLabelByte_digit (d : Nat) (h : d < 10) : specLabelByte (48 + d) = true := by
  simp only [specLabelByte, decide_eq_true_eq]; omega

theorem formatBits10_plain :
    ∀ (fuel us : Nat) (a : GoString), (∀ c ∈ a, specLabelByte c = true) →
      ∀ c ∈ formatBits10 fuel us a, specLabelByte c = true := by
  intro fuel
  induction fuel with
  | zero => intro us a ha; simpa [formatBits10] using ha
  | succ fuel ih =>
    intro us a ha
    unfold formatBits10
    by_cases h100 : us ≥ 100
    · rw [if_pos h100]
      obtain ⟨t1, t2⟩ := smallsString_getD (us % 100) (Nat.mod_lt _ (by norm_num))
      apply ih
      intro c hc
      simp only [List.mem_cons, t1, t2] at hc
      rcases hc with rfl | rfl | hc
      · exact specLabelByte_digit _ (by omega)
      · exact specLabelByte_digit _ (by omega)
      · exact ha c hc
    · rw [if_neg h100]
      obtain ⟨t1, t2⟩ := smallsString_getD us (by omega)
      intro c hc
      simp only [t1, t2] at hc
      split_ifs at hc
      · simp only [List.mem_cons] at hc
        rcases hc with rfl | rfl | hc
        · exact specLabelByte_digit _ (by omega)
        · exact specLabelByte_digit _ (by omega)
        · exact ha c hc
      · simp only [List.mem_cons] at hc
        rcases hc with rfl | hc
        · exact specLabelByte_digit _ (by omega)
        · exact ha c hc

/-- The numeral `strconv.Itoa` gives is made of digits and the minus sign. -/
theorem Itoa_plain (i : Int) : ∀ c ∈ Itoa i, specLabelByte c = true := by
  unfold Itoa
  split_ifs with h1 h2
  · exact small_plain i.toNat (by omega)
  · intro c hc
    rw [List.mem_cons] at hc
    rcases hc with rfl | hc
    · decide
    · exact formatBits10_plain _ _ [] (by simp) c hc
  · exact formatBits10_plain _ _ [] (by simp)

/-- A field made of letters, digits, hyphens and dots is written without
quotes. -/
theorem fieldNeedsQuotes_plain (f : GoString)
    (h : ∀ c ∈ f, specLabelByte c = true ∨ c = 46) : fieldNeedsQuotes f = false := by
  have hb : ∀ c ∈ f, c < 0x80 ∧ c ≠ 10 ∧ c ≠ 13 ∧ c ≠ 34 ∧ c ≠ 44 ∧ c ≠ 92 ∧ c ≠ 32
      ∧ c ≠ 9 ∧ c ≠ 11 ∧ c ≠ 12 := by
    intro c hc
    rcases h c hc with h | h
    · simp only [specLabelByte, decide_eq_true_eq] at h; omega
    · omega
  unfold fieldNeedsQuotes
  cases f with
  | nil => simp
  | cons c t =>
    have hc := hb c (List.mem_cons_self _ _)
    rw [if_neg (by simp), if_neg (by simp; omega), if_neg, decode_ascii c t hc.1]
    · simp only [IsSpace]
      rw [if_pos (by omega)]
      simp only [decide_eq_false_iff_not]
      omega
    · simp only [List.any_eq_true, Bool.or_eq_true, decide_eq_true_eq, not_exists, not_and]
      intro x hx
      have := hb x hx
      omega

theorem mem_specLabels (d : GoString) :
    ∀ c ∈ d, c = 46 ∨ ∃ l ∈ specLabels d, c ∈ l := by
  induction d with
  | nil => simp
  | cons a t ih =>
    intro c hc
    by_cases ha : a = 46
    · rcases List.mem_cons.mp hc with rfl | hc
      · exact Or.inl ha
      · rcases ih c hc with h | ⟨l, hl, hcl⟩
        · exact Or.inl h
        · exact Or.inr ⟨l, by simp [specLabels, ha, hl], hcl⟩
    · have hne := specLabels_ne_nil t
      rcases hs : specLabels t with _ | ⟨l0, ls⟩
      · exact absurd hs hne
      · have hcons : specLabels (a :: t) = (a :: l0) :: ls := by
          simp [specLabels, ha, hs]
        rw [hcons]
        rcases List.mem_cons.mp hc with rfl | hc
        · exact Or.inr ⟨c :: l0, by simp, by simp⟩
        · rcases ih c hc with h | ⟨l, hl, hcl⟩
          · exact Or.inl h
          · rw [hs] at hl
            rcases List.mem_cons.mp hl with rfl | hl
            · exact Or.inr ⟨a :: l, by simp, by simp [hcl]⟩
            · exact Or.inr ⟨l, by simp [hl], hcl⟩

/-- A domain that `isValidDomain` accepts is written without quotes. -/
theorem fieldNeedsQuotes_valid (d : GoString) (allow : Bool)
    (h : isValidDomain d allow = some true) : fieldNeedsQuotes d = false := by
  rw [isValidDomain_closed] at h
  simp only [Option.some.injEq, Bool.and_eq_true, List.all_eq_true] at h
  apply fieldNeedsQuotes_plain
  intro c hc
  rcases mem_specLabels d c hc with h46 | ⟨l, hl, hcl⟩
  · exact Or.inr h46
  · have := h.1.2 l hl
    simp only [specLabelOk, Bool.and_eq_true, List.all_eq_true] at this
    exact Or.inl (this.1.1.2 c hcl)

/-! ### Writing to a writer that never fails -/

theorem Flush_neverFails {σ : Type} (W : IoWriter σ) (written : σ → GoString)
    (hW : NeverFails W written) (b : BufioWriter σ) (hb : b.err = none) :
    ∃ b1, BufioWriter.Flush W b = (b1, none) ∧ b1.err = none ∧ b1.buf = []
      ∧ written b1.wr = written b.wr ++ b.buf := by
  unfold BufioWriter.Flush
  rw [hb]
  by_cases h0 : b.buf.length = 0
  · have : b.buf = [] := List.length_eq_zero.mp h0
    exact ⟨b, by simp [h0, hb], hb, this, by simp [this]⟩
  · obtain ⟨h1, h2⟩ := hW.1 b.wr b.buf
    rcases hw : W.Write b.wr b.buf with ⟨wr, n, err⟩
    rw [hw] at h1 h2
    simp only [Prod.mk.injEq] at h1
    obtain ⟨rfl, rfl⟩ := h1
    exact ⟨⟨none, [], wr⟩, by simp [h0], rfl, rfl, h2⟩

theorem writeStringLoop_neverFails {σ : Type} (W : IoWriter σ) (written : σ → GoString)
    (hW : NeverFails W written) :
    ∀ (fuel : Nat) (b : BufioWriter σ) (s : GoString), b.err = none →
      (b.buf = [] → s.length < fuel) → (b.buf ≠ [] → s.length + 1 < fuel) →
      ∃ b1 s1, BufioWriter.writeStringLoop W fuel b s = some (b1, s1) ∧ b1.err = none
        ∧ s1.length ≤ b1.Available
        ∧ written b1.wr ++ b1.buf ++ s1 = written b.wr ++ b.buf ++ s := by
  intro fuel
  induction fuel with
  | zero =>
    intro b s _ he hlen
    by_cases h : b.buf = []
    · exact absurd (he h) (by omega)
    · exact absurd (hlen h) (by omega)
  | succ fuel ih =>
    intro b s hb he hlen
    unfold BufioWriter.writeStringLoop
    by_cases hc : s.length > b.Available ∧ b.err = none
    · rw [if_pos hc]
      by_cases h0 : b.buf.length = 0
      · have hnil : b.buf = [] := List.length_eq_zero.mp h0
        have hav : b.Available = defaultBufSize := by
          simp [BufioWriter.Available, hnil]
        have hbig : s.length > 4096 := by
          have := hc.1; rw [hav] at this; exact this
        rw [if_pos h0]
        rcases hsw : W.WriteString with _ | sw
        · simp only
          obtain ⟨b2, hf, hb2, hbuf2, hwr2⟩ := Flush_neverFails W written hW
            ⟨b.err, b.buf ++ s.take (min b.Available s.length), b.wr⟩ hb
          rw [hf]
          have hmin : min b.Available s.length = 4096 := by
            rw [hav]; simp only [defaultBufSize]; omega
          have hdl : (s.drop (min b.Available s.length)).length < fuel := by
            rw [List.length_drop, hmin]
            have := he hnil
            omega
          obtain ⟨b3, s3, hl, hb3, hs3, ht3⟩ := ih b2 (s.drop (min b.Available s.length)) hb2
            (fun _ => hdl) (fun h => absurd hbuf2 h)
          refine ⟨b3, s3, hl, hb3, hs3, ?_⟩
          rw [ht3, hbuf2, hwr2]
          simp only [List.append_nil, List.append_assoc, List.take_append_drop]
        · simp only
          obtain ⟨h1, h2⟩ := hW.2 sw hsw b.wr s
          rcases hr : sw b.wr s with ⟨wr, n, err⟩
          rw [hr] at h1 h2
          simp only [Prod.mk.injEq] at h1
          obtain ⟨rfl, rfl⟩ := h1
          simp only [List.drop_length]
          have := he hnil
          obtain ⟨b3, s3, hl, hb3, hs3, ht3⟩ := ih ⟨none, b.buf, wr⟩ [] rfl
            (fun _ => by simp only [List.length_nil]; omega) (fun h => absurd hnil h)
          refine ⟨b3, s3, hl, hb3, hs3, ?_⟩
          rw [ht3]
          simp only [h2, hnil, List.append_nil]
      · rw [if_neg h0]
        simp only
        obtain ⟨b2, hf, hb2, hbuf2, hwr2⟩ := Flush_neverFails W written hW
          ⟨b.err, b.buf ++ s.take (min b.Available s.length), b.wr⟩ hb
        rw [hf]
        have hne : b.buf ≠ [] := fun h => h0 (by simp [h])
        have hdl : (s.drop (min b.Available s.length)).length < fuel := by
          rw [List.length_drop]
          exact lt_of_le_of_lt (Nat.sub_le _ _) (by have := hlen hne; omega)
        obtain ⟨b3, s3, hl, hb3, hs3, ht3⟩ := ih b2 (s.drop (min b.Available s.length)) hb2
          (fun _ => hdl) (fun h => absurd hbuf2 h)
        refine ⟨b3, s3, hl, hb3, hs3, ?_⟩
        rw [ht3, hbuf2, hwr2]
        simp only [List.append_nil, List.append_assoc, List.take_append_drop]
    · rw [if_neg hc]
      refine ⟨b, s, rfl, hb, ?_, rfl⟩
      by_contra hh
      exact hc ⟨by omega, hb⟩

/-- On a writer that never fails `WriteString` returns no error, and the bytes
written or buffered grow by the string. -/
theorem WriteString_neverFails {σ : Type} (W : IoWriter σ) (written : σ → GoString)
    (hW : NeverFails W written) (b : BufioWriter σ) (s : GoString) (hb : b.err = none) :
    ∃ b1, BufioWriter.WriteString W b s = some (b1, none) ∧ b1.err = none
      ∧ written b1.wr ++ b1.buf = written b.wr ++ b.buf ++ s := by
  obtain ⟨b1, s1, hl, hb1, hs1, ht⟩ := writeStringLoop_neverFails W written hW (s.length + 2) b s hb
    (fun _ => by omega) (fun _ => by omega)
  unfold BufioWriter.WriteString
  rw [hl]
  simp only [hb1, Option.isSome_none, Bool.false_eq_true, if_false]
  refine ⟨_, rfl, rfl, ?_⟩
  simp only
  rw [List.take_of_length_le hs1, ← List.append_assoc, ht]

/-- On a writer that never fails `WriteByte` returns no error, and the bytes
written or buffered grow by the byte. -/
theorem WriteByte_neverFails {σ : Type} (W : IoWriter σ) (written : σ → GoString)
    (hW : NeverFails W written) (b : BufioWriter σ) (c : Nat) (hb : b.err = none) :
    ∃ b1, BufioWriter.WriteByte W b c = (b1, none) ∧ b1.err = none
      ∧ written b1.wr ++ b1.buf = written b.wr ++ b.buf ++ [c] := by
  unfold BufioWriter.WriteByte
  rw [hb]
  simp only [Option.isSome_none, Bool.false_eq_true, if_false]
  by_cases ha : b.Available ≤ 0
  · rw [if_pos ha]
    obtain ⟨b2, hf, hb2, hbuf2, hwr2⟩ := Flush_neverFails W written hW b hb
    rw [hf]
    refine ⟨_, rfl, hb2, ?_⟩
    simp only [hbuf2, hwr2, List.nil_append]
  · rw [if_neg ha]
    exact ⟨_, rfl, rfl, by simp⟩

theorem csvWriteField_neverFails {σ : Type} (W : IoWriter σ) (written : σ → GoString)
    (hW : NeverFails W written) (b : BufioWriter σ) (f : GoString) (hb : b.err = none)
    (hf : fieldNeedsQuotes f = false) :
    ∃ b1, csvWriteField W b f = some (b1, none) ∧ b1.err = none
      ∧ written b1.wr ++ b1.buf = written b.wr ++ b.buf ++ f := by
  unfold csvWriteField
  rw [hf]
  exact WriteString_neverFails W written hW b f hb

/-- On a writer that never fails, a record of two fields that need no quotes is
written as the fields, a comma between them, and a line feed. -/
theorem csvWrite_neverFails {σ : Type} (W : IoWriter σ) (written : σ → GoString)
    (hW : NeverFails W written) (b : BufioWriter σ) (f g : GoString) (hb : b.err = none)
    (hf : fieldNeedsQuotes f = false) (hg : fieldNeedsQuotes g = false) :
    ∃ b1, csvWrite W b [f, g] = some (b1, none) ∧ b1.err = none
      ∧ written b1.wr ++ b1.buf = written b.wr ++ b.buf ++ (f ++ [44] ++ g ++ [10]) := by
  obtain ⟨b1, h1, e1, t1⟩ := csvWriteField_neverFails W written hW b f hb hf
  obtain ⟨b2, h2, e2, t2⟩ := WriteByte_neverFails W written hW b1 44 e1
  obtain ⟨b3, h3, e3, t3⟩ := csvWriteField_neverFails W written hW b2 g e2 hg
  obtain ⟨b4, h4, e4, t4⟩ := WriteByte_neverFails W written hW b3 10 e3
  refine ⟨b4, ?_, e4, ?_⟩
  · simp [csvWrite, csvWriteFields, h1, h2, h3, h4]
  · rw [t4, t3, t2, t1]
    simp only [List.append_assoc]

theorem writeRows_neverFails {σ : Type} (W : IoWriter σ) (written : σ → GoString)
    (hW : NeverFails W written) :
    ∀ (data : List DomainData) (b : BufioWriter σ), b.err = none →
      (∀ d ∈ data, fieldNeedsQuotes d.Domain = false) →
      ∃ b1, writeRows W b data = some (b1, none) ∧ b1.err = none
        ∧ written b1.wr ++ b1.buf = written b.wr ++ b.buf
            ++ (data.map (fun d => d.Domain ++ [44] ++ Itoa d.CustomerQuantity ++ [10])).flatten := by
  intro data
  induction data with
  | nil => intro b hb _; exact ⟨b, rfl, hb, by simp⟩
  | cons d rest ih =>
    intro b hb hq
    obtain ⟨b1, h1, e1, t1⟩ := csvWrite_neverFails W written hW b d.Domain
      (Itoa d.CustomerQuantity) hb (hq d (List.mem_cons_self _ _))
      (fieldNeedsQuotes_plain _ (fun c hc => Or.inl (Itoa_plain _ c hc)))
    obtain ⟨b2, h2, e2, t2⟩ := ih b1 e1 (fun x hx => hq x (List.mem_cons_of_mem _ hx))
    refine ⟨b2, ?_, e2, ?_⟩
    · simp only [writeRows, h1, h2]
    · rw [t2, t1]
      simp only [List.map_cons, List.flatten_cons, List.append_assoc]

/-! ### The tests of `exporter_test.go`, replayed on the model -/

/-- The table of `TestWriteCSV_Basics`. -/
theorem test_WriteCSV_basics :
    WriteCSV bytesBuffer [] [] = some (ascii "domain,number_of_customers\n", none)
      ∧ WriteCSV bytesBuffer [] [⟨ascii "a.com", 3⟩, ⟨ascii "b.com", 1⟩]
          = some (ascii "domain,number_of_customers\na.com,3\nb.com,1\n", none) := by
  decide

/-- The tests `TestWriteCSV_PropagatesWriterErrors` and
`TestWriteCSV_ShortWriteIsError`: the error is not nil. -/
theorem test_WriteCSV_errors :
    WriteCSV (failingWriter 0) 0 [⟨ascii "x.com", 1⟩]
        = some (0, some (ExportError.flush (WriteError.other 0)))
      ∧ WriteCSV shortWriter false [⟨ascii "x.com", 1⟩]
        = some (true, some (ExportError.flush WriteError.ErrShortWrite)) := by
  decide

/-! ### The output of `WriteCSV` -/

/-- C21. For every writer that never fails and every `data` whose domains need
no quotes and whose counts are not negative, `WriteCSV` returns, with the error
nil, and what it has written is the line `domain,number_of_customers` followed,
for each entry in order, by the line `Domain,count` with the count in decimal;
and every domain that `isValidDomain` accepts needs no quotes. -/
theorem WriteCSV_header_and_rows {σ : Type} (W : IoWriter σ) (written : σ → GoString)
    (hW : NeverFails W written) (w : σ) (data : List DomainData)
    (hq : ∀ d ∈ data, fieldNeedsQuotes d.Domain = false)
    (hn : ∀ d ∈ data, 0 ≤ d.CustomerQuantity) :
    (∃ w1, WriteCSV W w data = some (w1, none) ∧ written w1 = written w ++ specCSV data)
      ∧ ∀ (domain : GoString) (allow : Bool),
          isValidDomain domain allow = some true → fieldNeedsQuotes domain = false := by
  refine ⟨?_, fieldNeedsQuotes_valid⟩
  obtain ⟨b1, h1, e1, t1⟩ := csvWrite_neverFails W written hW ⟨none, [], w⟩
    (ascii "domain") (ascii "number_of_customers") rfl (by decide) (by decide)
  obtain ⟨b2, h2, e2, t2⟩ := writeRows_neverFails W written hW data b1 e1 hq
  obtain ⟨b3, h3, e3, hbuf3, t3⟩ := Flush_neverFails W written hW b2 e2
  refine ⟨b3.wr, ?_, ?_⟩
  · simp only [WriteCSV, csvHeader, h1, h2, h3, e3, Option.map_none']
  · have hrows : data.map (fun d => d.Domain ++ [44] ++ Itoa d.CustomerQuantity ++ [10])
        = data.map (fun d =>
            d.Domain ++ ascii "," ++ specDecimal d.CustomerQuantity.toNat ++ ascii "\n") := by
      apply List.map_congr_left
      intro d hd
      rw [Itoa_nonneg _ (hn d hd)]
      rfl
    have hhead : ascii "domain" ++ [44] ++ ascii "number_of_customers" ++ [10]
        = ascii "domain,number_of_customers\n" := by decide
    rw [t3, t2, t1, hrows, hhead]
    simp only [specCSV, List.append_nil, List.append_assoc]

theorem WriteCSV_header_and_rows_witness :
    NeverFails bytesBuffer id
      ∧ (∀ d ∈ [DomainData.mk (ascii "a.com") 3, ⟨ascii "b.com", 1⟩],
          fieldNeedsQuotes d.Domain = false)
      ∧ (∀ d ∈ [DomainData.mk (ascii "a.com") 3, ⟨ascii "b.com", 1⟩], 0 ≤ d.CustomerQuantity)
      ∧ ((∃ w1, WriteCSV bytesBuffer [] [⟨ascii "a.com", 3⟩, ⟨ascii "b.com", 1⟩] = some (w1, none)
            ∧ id w1 = id [] ++ specCSV [⟨ascii "a.com", 3⟩, ⟨ascii "b.com", 1⟩])
          ∧ ∀ (domain : GoString) (allow : Bool),
              isValidDomain domain allow = some true → fieldNeedsQuotes domain = false) :=
  ⟨⟨fun _ _ => ⟨rfl, rfl⟩, fun _ h _ _ => by cases h; exact ⟨rfl, rfl⟩⟩,
    by decide, by decide,
    WriteCSV_header_and_rows bytesBuffer id
      ⟨fun _ _ => ⟨rfl, rfl⟩, fun _ h _ _ => by cases h; exact ⟨rfl, rfl⟩⟩
      [] [⟨ascii "a.com", 3⟩, ⟨ascii "b.com", 1⟩] (by decide) (by decide)⟩

/-! ### UTF-8: decoding an encoded rune -/

/-- Decoding the first rune does not look past a following byte that starts a
rune. -/
theorem decode_append_start (z w : GoString) (hz : z ≠ [])
    (hw : ∀ c ∈ w.head?, c < 0x80 ∨ 0xBF < c) :
    DecodeRuneInString (z ++ w) = DecodeRuneInString z := by
  rcases z with _ | ⟨s0, t⟩
  · exact absurd rfl hz
  · rw [List.cons_append]
    unfold DecodeRuneInString
    by_cases h0 : s0 < RuneSelf
    · simp [h0]
    · simp only [if_neg h0]
      rcases hl : leadInfo s0 with _ | ⟨sz, lo, hi⟩
      · simp
      · obtain ⟨_, h2, h4, hlo, hhi⟩ := leadInfo_facts hl
        simp only []
        rcases t with _ | ⟨s1, _ | ⟨s2, _ | ⟨s3, t3⟩⟩⟩
        · rcases w with _ | ⟨w0, w'⟩
          · simp
          · have := hw w0 (by simp)
            simp only [List.nil_append, List.length_cons, List.length_nil]
            split_ifs <;> first | rfl | omega
        · rcases w with _ | ⟨w0, w'⟩
          · simp
          · have := hw w0 (by simp)
            simp only [List.cons_append, List.nil_append, List.length_cons, List.length_nil]
            split_ifs <;> first | rfl | omega
        · rcases w with _ | ⟨w0, w'⟩
          · simp
          · have := hw w0 (by simp)
            simp only [List.cons_append, List.nil_append, List.length_cons, List.length_nil]
            split_ifs <;> first | rfl | omega
        · simp only [List.cons_append, List.length_cons, List.length_append]
          split_ifs <;> first | rfl | omega

theorem leadInfo_two (b : Nat) (h : 0xC2 ≤ b ∧ b ≤ 0xDF) : leadInfo b = some (2, 0x80, 0xBF) := by
  unfold leadInfo; rw [if_pos h]

theorem leadInfo_three (b : Nat) (h : 0xE0 ≤ b ∧ b ≤ 0xEF) :
    ∃ lo hi, leadInfo b = some (3, lo, hi) ∧ 0x80 ≤ lo ∧ hi ≤ 0xBF
      ∧ (lo = 0x80 ∨ b = 0xE0 ∧ lo = 0xA0) ∧ (hi = 0xBF ∨ b = 0xED ∧ hi = 0x9F) := by
  unfold leadInfo
  split_ifs <;> first | omega | exact ⟨_, _, rfl, by omega, by omega, by omega, by omega⟩

/-- The encoding of a rune of the Basic Multilingual Plane decodes to the rune,
whatever follows. -/
theorem decode_encodeRune (r : Nat) (t : GoString) (h : r ≤ 0xFFFF)
    (hs : ¬ (0xD800 ≤ r ∧ r ≤ 0xDFFF)) :
    DecodeRuneInString (encodeRune r ++ t) = (r, (encodeRune r).length) := by
  by_cases h1 : r ≤ 0x7F
  · have : encodeRune r = [r] := by unfold encodeRune; rw [if_pos h1]
    rw [this]
    exact decode_ascii r t (by omega)
  · by_cases h2 : r ≤ 0x7FF
    · rw [encodeRune_two r (by omega) h2]
      have hl := leadInfo_two (192 + r / 64) (by omega)
      have h0 : ¬ (192 + r / 64 < RuneSelf) := by unfold RuneSelf; omega
      simp only [List.cons_append, List.nil_append, DecodeRuneInString, if_neg h0, hl,
        List.length_cons, List.length_nil]
      rw [if_neg (by omega), if_neg (by omega), if_pos (le_refl 2), rune2_eq]
      congr 1
      omega
    · rw [encodeRune_three r (by omega) h hs]
      obtain ⟨lo, hi, hl, hlo, hhi, hlo', hhi'⟩ := leadInfo_three (224 + r / 4096) (by omega)
      have h0 : ¬ (224 + r / 4096 < RuneSelf) := by unfold RuneSelf; omega
      simp only [List.cons_append, List.nil_append, DecodeRuneInString, if_neg h0, hl,
        List.length_cons, List.length_nil]
      rw [if_neg (by omega), if_neg (by omega), if_neg (by omega), if_neg (by omega),
        if_pos (le_refl 3), rune3_eq]
      congr 1
      omega

theorem RuneStart_lead : ∀ k, k < 64 → RuneStart (192 + k) = true := by
  decide

theorem RuneStart_cont : ∀ k, k < 64 → RuneStart (128 + k) = false := by
  decide

/-- The first byte of an encoded rune is not a continuation byte. -/
theorem encodeRune_head (r : Nat) (h : r ≤ 0xFFFF) (hs : ¬ (0xD800 ≤ r ∧ r ≤ 0xDFFF)) :
    ∀ c ∈ (encodeRune r).head?, c < 0x80 ∨ 0xBF < c := by
  intro c hc
  by_cases h1 : r ≤ 0x7F
  · have : encodeRune r = [r] := by unfold encodeRune; rw [if_pos h1]
    rw [this] at hc; simp at hc; omega
  · by_cases h2 : r ≤ 0x7FF
    · rw [encodeRune_two r (by omega) h2] at hc; simp at hc; omega
    · rw [encodeRune_three r (by omega) h hs] at hc; simp at hc; omega

theorem getD_append_right_nat (x w : GoString) (k : Nat) :
    (x ++ w).getD (x.length + k) 0 = w.getD k 0 := by
  rw [List.getD_eq_getElem?_getD, List.getD_eq_getElem?_getD,
    List.getElem?_append_right (by omega)]
  simp

/-- The encoding of a rune of the Basic Multilingual Plane at the end of a
string is what `DecodeLastRuneInString` finds. -/
theorem decodeLast_encodeRune (x : GoString) (r : Nat) (h : r ≤ 0xFFFF)
    (hs : ¬ (0xD800 ≤ r ∧ r ≤ 0xDFFF)) :
    DecodeLastRuneInString (x ++ encodeRune r) = (r, (encodeRune r).length) := by
  by_cases h1 : r ≤ 0x7F
  · have : encodeRune r = [r] := by unfold encodeRune; rw [if_pos h1]
    rw [this]
    exact decodeLast_append_ascii x r (by omega)
  · have hdec := decode_encodeRune r [] h hs
    rw [List.append_nil] at hdec
    by_cases h2 : r ≤ 0x7FF
    · rw [encodeRune_two r (by omega) h2] at hdec ⊢
      have hb0 := RuneStart_lead (r / 64) (by omega)
      unfold DecodeLastRuneInString
      simp only [List.length_append, List.length_cons, List.length_nil]
      rw [if_neg (by omega)]
      have e1 : (((x.length + (0 + 1 + 1) : Nat) : Int) - 1).toNat = x.length + 1 := by omega
      rw [e1, getD_append_right_nat]
      have hlast : ¬ ([192 + r / 64, 128 + r % 64].getD 1 0 < RuneSelf) := by
        simp [RuneSelf]
      rw [if_neg hlast]
      have hstart : lastRuneStart (x ++ [192 + r / 64, 128 + r % 64]) = (x.length : Int) := by
        unfold lastRuneStart
        simp only [List.length_append, List.length_cons, List.length_nil, UTFMax]
        have e2 : (((x.length + (0 + 1 + 1) : Nat) : Int) - 1 - 1) = (x.length : Int) := by omega
        rw [e2]
        have hsb : ∀ lim : Int, lim ≤ x.length →
            scanBack (x ++ [192 + r / 64, 128 + r % 64]) lim 4 (x.length : Int) = x.length := by
          intro lim hlim
          rw [scanBack, if_pos (by omega)]
          have : ((x.length : Int)).toNat = x.length + 0 := by omega
          rw [this, getD_append_right_nat]
          simp only [List.getD_cons_zero, hb0, if_true]
        split_ifs <;> first | (rw [hsb _ (by omega)] at *; omega) | (rw [hsb _ (by omega)])
      rw [hstart]
      simp only [Int.toNat_ofNat, List.drop_left, hdec, List.length_cons, List.length_nil]
      rw [if_neg (by push_cast; omega)]
    · rw [encodeRune_three r (by omega) h hs] at hdec ⊢
      have hb0 : RuneStart (224 + r / 4096) = true := by
        have := RuneStart_lead (32 + r / 4096) (by omega)
        rwa [← Nat.add_assoc] at this
      have hb1 := RuneStart_cont (r / 64 % 64) (by omega)
      unfold DecodeLastRuneInString
      simp only [List.length_append, List.length_cons, List.length_nil]
      rw [if_neg (by omega)]
      have e1 : (((x.length + (0 + 1 + 1 + 1) : Nat) : Int) - 1).toNat = x.length + 2 := by omega
      rw [e1, getD_append_right_nat]
      have hlast : ¬ ([224 + r / 4096, 128 + r / 64 % 64, 128 + r % 64].getD 2 0 < RuneSelf) := by
        simp [RuneSelf]
      rw [if_neg hlast]
      have hstart : lastRuneStart (x ++ [224 + r / 4096, 128 + r / 64 % 64, 128 + r % 64])
          = (x.length : Int) := by
        unfold lastRuneStart
        simp only [List.length_append, List.length_cons, List.length_nil, UTFMax]
        have e2 : (((x.length + (0 + 1 + 1 + 1) : Nat) : Int) - 1 - 1) = (x.length : Int) + 1 := by
          omega
        rw [e2]
        have hsb : ∀ lim : Int, lim ≤ x.length →
            scanBack (x ++ [224 + r / 4096, 128 + r / 64 % 64, 128 + r % 64]) lim 4
              ((x.length : Int) + 1) = x.length := by
          intro lim hlim
          rw [scanBack, if_pos (by omega)]
          have e3 : ((x.length : Int) + 1).toNat = x.length + 1 := by omega
          rw [e3, getD_append_right_nat]
          simp only [List.getD_cons_succ, List.getD_cons_zero, hb1, Bool.false_eq_true, if_false]
          rw [scanBack, if_pos (by omega)]
          have e4 : ((x.length : Int) + 1 - 1).toNat = x.length + 0 := by omega
          rw [e4, getD_append_right_nat]
          simp only [List.getD_cons_zero, hb0, if_true]
          omega
        split_ifs <;> first | (rw [hsb _ (by omega)] at *; omega) | (rw [hsb _ (by omega)])
      rw [hstart]
      simp only [Int.toNat_ofNat, List.drop_left, hdec, List.length_cons, List.length_nil]
      rw [if_neg (by push_cast; omega)]

/-! ### White space of any kind around a string -/

theorem IsSpace_bmp {r : Nat} (h : IsSpace r = true) :
    r ≤ 0xFFFF ∧ ¬ (0xD800 ≤ r ∧ r ≤ 0xDFFF) := by
  unfold IsSpace at h
  split_ifs at h with h1
  · omega
  · simp only [decide_eq_true_eq] at h; omega

theorem encodeRune_ne_nil (r : Nat) : encodeRune r ≠ [] := by
  unfold encodeRune
  split_ifs <;> simp <;> split_ifs <;> simp

/-- An encoded white-space rune appended to a string stays at the end of what
`TrimLeftFunc` keeps, unless nothing is kept. -/
theorem trimLeftLoop_append_rune (r : Nat) (hr : IsSpace r = true) :
    ∀ (fuel : Nat) (y : GoString), y.length ≤ fuel →
      trimLeftLoop (fuel + (encodeRune r).length) (y ++ encodeRune r) =
        if trimLeftLoop fuel y = [] then [] else trimLeftLoop fuel y ++ encodeRune r := by
  obtain ⟨hb, hs⟩ := IsSpace_bmp hr
  have hne := encodeRune_ne_nil r
  have hlen : 0 < (encodeRune r).length := List.length_pos.mpr hne
  have hbase : ∀ fuel, trimLeftLoop (fuel + (encodeRune r).length) (encodeRune r) = [] := by
    intro fuel
    obtain ⟨k, hk⟩ : ∃ k, fuel + (encodeRune r).length = k + 1 :=
      ⟨fuel + (encodeRune r).length - 1, by omega⟩
    have hd := decode_encodeRune r [] hb hs
    rw [List.append_nil] at hd
    rw [hk, trimLeftLoop, if_neg hne, hd]
    simp only [hr, if_true, List.drop_length, trimLeftLoop_nil]
  intro fuel
  induction fuel with
  | zero =>
    intro y hy
    have : y = [] := List.length_eq_zero.mp (by omega)
    subst this
    rw [List.nil_append, hbase]
    simp [trimLeftLoop]
  | succ n ih =>
    intro y hy
    rcases y with _ | ⟨a, t⟩
    · rw [List.nil_append, hbase]
      simp [trimLeftLoop]
    · have hdec : DecodeRuneInString ((a :: t) ++ encodeRune r) = DecodeRuneInString (a :: t) :=
        decode_append_start (a :: t) _ (by simp) (encodeRune_head r hb hs)
      have hsz := decode_size (a :: t) (by simp)
      rcases hd : DecodeRuneInString (a :: t) with ⟨c, size⟩
      rw [hd] at hsz hdec
      simp only [] at hsz
      have hfuel : n + 1 + (encodeRune r).length = (n + (encodeRune r).length) + 1 := by omega
      have hL : trimLeftLoop (n + 1 + (encodeRune r).length) ((a :: t) ++ encodeRune r) =
          if IsSpace c = true then
            trimLeftLoop (n + (encodeRune r).length) (((a :: t) ++ encodeRune r).drop size)
          else (a :: t) ++ encodeRune r := by
        rw [hfuel, trimLeftLoop, if_neg (by simp), hdec]
      have hR : trimLeftLoop (n + 1) (a :: t) =
          if IsSpace c = true then trimLeftLoop n ((a :: t).drop size) else a :: t := by
        rw [trimLeftLoop, if_neg (by simp), hd]
      rw [hL, hR]
      by_cases hc : IsSpace c = true
      · simp only [hc, if_true]
        have : ((a :: t) ++ encodeRune r).drop size = (a :: t).drop size ++ encodeRune r := by
          rw [List.drop_append_of_le_length hsz.2]
        rw [this]
        refine ih _ ?_
        rw [List.length_drop]
        have := hsz.1
        have : (a :: t).length ≤ n + 1 := hy
        omega
      · simp [hc]

theorem TrimLeftFunc_append_rune (r : Nat) (hr : IsSpace r = true) (y : GoString) :
    TrimLeftFunc (y ++ encodeRune r) =
      if TrimLeftFunc y = [] then [] else TrimLeftFunc y ++ encodeRune r := by
  unfold TrimLeftFunc
  rw [List.length_append]
  exact trimLeftLoop_append_rune r hr y.length y (le_refl _)

theorem TrimLeftFunc_rune_append (r : Nat) (hr : IsSpace r = true) (t : GoString) :
    TrimLeftFunc (encodeRune r ++ t) = TrimLeftFunc t := by
  obtain ⟨hb, hs⟩ := IsSpace_bmp hr
  have hne := encodeRune_ne_nil r
  have hlen : 0 < (encodeRune r).length := List.length_pos.mpr hne
  unfold TrimLeftFunc
  obtain ⟨k, hk⟩ : ∃ k, (encodeRune r ++ t).length = k + 1 :=
    ⟨(encodeRune r ++ t).length - 1, by rw [List.length_append]; omega⟩
  rw [hk, trimLeftLoop, if_neg (by simp [hne]), decode_encodeRune r t hb hs]
  simp only [hr, if_true, List.drop_left]
  apply trimLeftLoop_fuel
  · rw [List.length_append] at hk; omega
  · exact le_refl _

theorem TrimRightFunc_append_rune (r : Nat) (hr : IsSpace r = true) (u : GoString) :
    TrimRightFunc (u ++ encodeRune r) = TrimRightFunc u := by
  obtain ⟨hb, hs⟩ := IsSpace_bmp hr
  have hne := encodeRune_ne_nil r
  have hlen : 0 < (encodeRune r).length := List.length_pos.mpr hne
  have hhead := encodeRune_head r hb hs
  generalize hw : encodeRune r = w at hne hlen hhead
  have hdl : DecodeLastRuneInString (u ++ w) = (r, w.length) := by
    rw [← hw]; exact decodeLast_encodeRune u r hb hs
  have hstep : lastIndexLoop (u ++ w) (u ++ w).length (u ++ w).length
      = lastIndexLoop u u.length u.length := by
    obtain ⟨k, hk⟩ : ∃ k, (u ++ w).length = k + 1 :=
      ⟨(u ++ w).length - 1, by rw [List.length_append]; omega⟩
    rw [hk, lastIndexLoop, if_neg (by omega), ← hk]
    have : (u ++ w).take (u ++ w).length = u ++ w := List.take_length _
    rw [this, hdl]
    simp only [hr, if_true, List.length_append, Nat.add_sub_cancel]
    rw [lastIndexLoop_append u w _ _ (le_refl _)]
    apply lastIndexLoop_fuel
    · rw [List.length_append] at hk; omega
    · exact le_refl _
  have hb' := lastIndexLoop_bounds u u.length u.length (le_refl _)
  unfold TrimRightFunc
  simp only [hstep]
  generalize lastIndexLoop u u.length u.length = i at hb' ⊢
  have hget : (u ++ w).getD i.toNat 0 = u.getD i.toNat 0 ∨ i < 0 := by
    by_cases hi : i < 0
    · exact Or.inr hi
    · left
      rw [List.getD_eq_getElem?_getD, List.getD_eq_getElem?_getD,
        List.getElem?_append_left (by omega)]
  by_cases hcnd : 0 ≤ i ∧ u.getD i.toNat 0 ≥ RuneSelf
  · have hcnd' : 0 ≤ i ∧ (u ++ w).getD i.toNat 0 ≥ RuneSelf := by
      rcases hget with h | h
      · rw [h]; exact hcnd
      · omega
    rw [if_pos hcnd, if_pos hcnd']
    have hlt : i.toNat < u.length := by omega
    have hne' : u.drop i.toNat ≠ [] := by
      intro h; have := List.drop_eq_nil_iff.mp h; omega
    have hd : DecodeRuneInString ((u ++ w).drop i.toNat)
        = DecodeRuneInString (u.drop i.toNat) := by
      rw [List.drop_append_of_le_length (by omega)]
      exact decode_append_start _ w hne' hhead
    rw [hd]
    have hsz := decode_size _ hne'
    rw [List.length_drop] at hsz
    rcases hdd : DecodeRuneInString (u.drop i.toNat) with ⟨c, wid⟩
    rw [hdd] at hsz
    simp only [] at hsz ⊢
    rw [List.take_append_of_le_length (by omega)]
  · have hcnd' : ¬ (0 ≤ i ∧ (u ++ w).getD i.toNat 0 ≥ RuneSelf) := by
      rcases hget with h | h
      · rw [h]; exact hcnd
      · omega
    rw [if_neg hcnd, if_neg hcnd']
    rw [List.take_append_of_le_length (by omega)]

theorem TrimFunc_append_rune (r : Nat) (hr : IsSpace r = true) (y : GoString) :
    TrimFunc (y ++ encodeRune r) = TrimFunc y := by
  unfold TrimFunc
  rw [TrimLeftFunc_append_rune r hr]
  split
  · rename_i h; rw [h]
  · exact TrimRightFunc_append_rune r hr _

theorem TrimFunc_rune_append (r : Nat) (hr : IsSpace r = true) (t : GoString) :
    TrimFunc (encodeRune r ++ t) = TrimFunc t := by
  unfold TrimFunc
  rw [TrimLeftFunc_rune_append r hr]

/-! ### `strings.TrimSpace` is `strings.TrimFunc` with `unicode.IsSpace` -/

theorem encodeRune_ascii (c : Nat) (h : c < 0x80) : encodeRune c = [c] := by
  unfold encodeRune; rw [if_pos (by omega)]

theorem TrimRightFunc_of_last_ascii (u : GoString) (c : Nat) (hc : c < 0x80)
    (hns : asciiSpace c = false) : TrimRightFunc (u ++ [c]) = u ++ [c] := by
  have hstep : lastIndexLoop (u ++ [c]) (u ++ [c]).length (u ++ [c]).length = (u.length : Int) := by
    rw [List.length_append, List.length_singleton, lastIndexLoop, if_neg (by omega)]
    have : (u ++ [c]).take (u.length + 1) = u ++ [c] := by
      rw [List.take_of_length_le (by simp)]
    rw [this, decodeLast_append_ascii u c hc]
    simp only [IsSpace_eq_asciiSpace hc, hns, Bool.false_eq_true, if_false, Nat.add_sub_cancel]
  unfold TrimRightFunc
  simp only [hstep]
  have hget : (u ++ [c]).getD (u.length : Int).toNat 0 = c := by
    simp [List.getD_eq_getElem?_getD]
  rw [hget, if_neg (by unfold RuneSelf; omega)]
  have : ((u.length : Int) + 1).toNat = (u ++ [c]).length := by simp
  rw [this, List.take_length]

theorem TrimRightFunc_nil : TrimRightFunc [] = [] := by
  decide

/-- The second loop of `TrimSpace` gives what `TrimRightFunc` gives. -/
theorem trimSpaceRight_eq (x : GoString) : trimSpaceRight x.reverse = TrimRightFunc x := by
  induction x using List.reverseRecOn with
  | nil => rw [List.reverse_nil, trimSpaceRight, TrimRightFunc_nil]
  | append_singleton u c ih =>
    have hrev : (u ++ [c]).reverse = c :: u.reverse := by simp
    rw [hrev, trimSpaceRight]
    by_cases h : c ≥ RuneSelf
    · rw [if_pos h, ← hrev, List.reverse_reverse]
    · rw [if_neg h]
      have hc : c < 0x80 := by unfold RuneSelf at h; omega
      by_cases hsp : asciiSpace c = true
      · rw [if_pos hsp, ih, TrimRightFunc_append_space c hsp]
      · rw [if_neg hsp, ← hrev, List.reverse_reverse,
          TrimRightFunc_of_last_ascii u c hc (by simpa using hsp)]

theorem TrimLeftFunc_of_head_ascii (c : Nat) (t : GoString) (hc : c < 0x80)
    (hns : asciiSpace c = false) : TrimLeftFunc (c :: t) = c :: t := by
  unfold TrimLeftFunc
  rw [List.length_cons, trimLeftLoop, if_neg (by simp), decode_ascii c t hc]
  simp only [IsSpace_eq_asciiSpace hc, hns, Bool.false_eq_true, if_false]

/-- The fast path of `strings.TrimSpace` for ASCII gives what
`strings.TrimFunc(s, unicode.IsSpace)` gives. -/
theorem TrimSpace_eq_TrimFunc (s : GoString) : TrimSpace s = TrimFunc s := by
  induction s with
  | nil =>
    rw [TrimSpace]
    unfold TrimFunc TrimLeftFunc
    rw [List.length_nil, trimLeftLoop, TrimRightFunc_nil]
  | cons c t ih =>
    rw [TrimSpace]
    by_cases h : c ≥ RuneSelf
    · rw [if_pos h]
    · rw [if_neg h]
      have hc : c < 0x80 := by unfold RuneSelf at h; omega
      by_cases hsp : asciiSpace c = true
      · rw [if_pos hsp, ih]
        have := TrimFunc_rune_append c (IsSpace_of_asciiSpace hsp) t
        rw [encodeRune_ascii c hc] at this
        exact this.symm
      · rw [if_neg hsp, trimSpaceRight_eq]
        unfold TrimFunc
        rw [TrimLeftFunc_of_head_ascii c t hc (by simpa using hsp)]

/-- A white-space rune in front of a string does not change what `TrimSpace`
returns. -/
theorem TrimSpace_rune_append (r : Nat) (hr : IsSpace r = true) (t : GoString) :
    TrimSpace (encodeRune r ++ t) = TrimSpace t := by
  rw [TrimSpace_eq_TrimFunc, TrimSpace_eq_TrimFunc, TrimFunc_rune_append r hr]

/-- A white-space rune at the end of a string does not change what `TrimSpace`
returns. -/
theorem TrimSpace_append_rune (r : Nat) (hr : IsSpace r = true) (x : GoString) :
    TrimSpace (x ++ encodeRune r) = TrimSpace x := by
  rw [TrimSpace_eq_TrimFunc, TrimSpace_eq_TrimFunc, TrimFunc_append_rune r hr]

/-- Runs of white space of any kind around a string do not change what
`TrimSpace` returns. -/
theorem TrimSpace_spaceRun (p e s : GoString) (hp : SpaceRun p) (hs : SpaceRun s) :
    TrimSpace (p ++ e ++ s) = TrimSpace e := by
  obtain ⟨ps, hps, rfl⟩ := hp
  obtain ⟨ss, hss, rfl⟩ := hs
  have h1 : ∀ (ss : List Nat) (x : GoString), (∀ r ∈ ss, IsSpace r = true) →
      TrimSpace (x ++ (ss.map encodeRune).flatten) = TrimSpace x := by
    intro ss
    induction ss using List.reverseRecOn with
    | nil => intro x _; simp
    | append_singleton ss r ih =>
      intro x hss
      have hr : IsSpace r = true := hss r (by simp)
      have : x ++ ((ss ++ [r]).map encodeRune).flatten
          = (x ++ (ss.map encodeRune).flatten) ++ encodeRune r := by
        simp [List.append_assoc]
      rw [this, TrimSpace_append_rune r hr, ih x (fun r hr => hss r (by simp [hr]))]
  rw [h1 ss _ hss]
  induction ps with
  | nil => simp
  | cons r ps ih =>
    have hr : IsSpace r = true := hps r (by simp)
    have : (List.map encodeRune (r :: ps)).flatten ++ e
        = encodeRune r ++ ((ps.map encodeRune).flatten ++ e) := by
      simp [List.append_assoc]
    rw [this, TrimSpace_rune_append r hr, ih (fun r hr => hps r (by simp [hr]))]

/-! ### `strings.ToLower`, rune by rune -/

theorem mapRest_eq_lowerRunes (tbl : Nat → Nat) : ∀ (fuel : Nat) (s : GoString),
    mapRest tbl fuel s = ((lowerRunes tbl fuel s).map encodeRune).flatten := by
  intro fuel
  induction fuel with
  | zero => intro s; rfl
  | succ n ih =>
    intro s
    unfold mapRest lowerRunes
    by_cases hs : s = []
    · simp [hs]
    · rw [if_neg hs, if_neg hs]
      rcases DecodeRuneInString s with ⟨c, size⟩
      simp only [List.map_cons, List.flatten_cons, ih]

theorem mapRest_ascii (tbl : Nat → Nat) : ∀ (s : GoString) (fuel : Nat), s.length ≤ fuel →
    s.all (fun c => decide (c < RuneSelf)) = true → mapRest tbl fuel s = s.map asciiLower := by
  intro s
  induction s with
  | nil => intro fuel _ _; rw [mapRest_nil]; rfl
  | cons c t ih =>
    intro fuel hf hall
    obtain ⟨n, rfl⟩ : ∃ n, fuel = n + 1 := ⟨fuel - 1, by simp at hf; omega⟩
    rw [List.all_cons, Bool.and_eq_true, decide_eq_true_eq] at hall
    have hc : c < 0x80 := hall.1
    have hlow : asciiLower c < 0x80 := (asciiLower_lt_iff c).mpr hc
    rw [mapRest, if_neg (by simp), decode_ascii c t hc]
    simp only [List.drop_succ_cons, List.drop_zero, List.map_cons]
    rw [ih n (by simp at hf; omega) hall.2]
    have : unicodeToLower tbl c = asciiLower c := by
      unfold unicodeToLower; rw [if_pos (by omega)]
    rw [this, encodeRune_ascii _ hlow]
    rfl

/-- The function `strings.ToLower` maps every rune of the string, as `range`
yields them, by `unicode.ToLower`, and encodes the results. -/
theorem ToLower_eq_lowerRunes (tbl : Nat → Nat) (s : GoString) :
    ToLower tbl s = ((lowerRunes tbl s.length s).map encodeRune).flatten := by
  rw [← mapRest_eq_lowerRunes]
  by_cases h : s.all (fun c => decide (c < RuneSelf)) = true
  · rw [ToLower_ascii tbl s h, mapRest_ascii tbl s s.length (le_refl _) h]
  · unfold ToLower
    rw [if_neg h, mapFirst_eq_mapRest tbl _ _ _ (le_refl _), List.nil_append]

/-! ### Header matching: variants of a cell -/

/-- A string of ASCII white space is a run of white space. -/
theorem SpaceRun_of_asciiSpace (w : GoString) (h : w.all asciiSpace = true) : SpaceRun w := by
  refine ⟨w, fun r hr => IsSpace_of_asciiSpace (List.all_eq_true.mp h r hr), ?_⟩
  induction w with
  | nil => rfl
  | cons c t ih =>
    rw [List.all_cons, Bool.and_eq_true] at h
    rw [List.map_cons, List.flatten_cons, encodeRune_ascii c (asciiSpace_lt h.1), ← ih h.2]
    rfl

/-- Variants of a cell have the same trimmed, lower-cased form. -/
theorem norm_eq_of_variant (tbl : Nat → Nat) {a b : GoString} (h : CaseSpaceVariant tbl a b) :
    ToLower tbl (TrimSpace a) = ToLower tbl (TrimSpace b) := by
  obtain ⟨p, c, s, p', c', s', ha, hb, hp, hs, hp', hs', hc⟩ := h
  rw [ha, hb, TrimSpace_spaceRun p c s hp hs, TrimSpace_spaceRun p' c' s' hp' hs']
  rcases hc with hc | ⟨h1, h2, h3⟩
  · rw [← ToLower_map_lower tbl (TrimSpace c), ← ToLower_map_lower tbl (TrimSpace c'),
      ← TrimSpace_map_lower, ← TrimSpace_map_lower, hc]
  · rw [h1, h2, ToLower_eq_lowerRunes, ToLower_eq_lowerRunes, h3]

/-- C10, amended. Header matching ignores surrounding white space of any kind
and the case of letters as far as `unicode.ToLower` tells: replacing the cell
`header[i]` and the configured name by variants (runs of `unicode.IsSpace` runes
added or removed around a core; the core changed in the case of its ASCII
letters or, rune by rune, into runes with the same `unicode.ToLower` image)
leaves `findHeaderIndex(header, name)` unchanged; and `findHeaderIndex` returns
-1 exactly when no cell of the header equals the name after trimming and
lower-casing both. -/
theorem findHeaderIndex_case_space_insensitive (tbl : Nat → Nat) (header : List GoString)
    (name name' : GoString) (i : Nat) (cell' : GoString)
    (hcell : ∀ cell, header.get? i = some cell → CaseSpaceVariant tbl cell cell')
    (hname : CaseSpaceVariant tbl name name') :
    findHeaderIndex tbl (header.set i cell') name' = findHeaderIndex tbl header name
      ∧ (findHeaderIndex tbl header name = -1 ↔
          ∀ h ∈ header, ToLower tbl (TrimSpace h) ≠ ToLower tbl (TrimSpace name)) := by
  constructor
  · unfold findHeaderIndex
    rw [← norm_eq_of_variant tbl hname]
    apply findHeaderIndexLoop_congr
    exact map_set_eq _ cell' header i (fun x hx => norm_eq_of_variant tbl (hcell x hx))
  · unfold findHeaderIndex
    rcases findHeaderIndexLoop_spec tbl (ToLower tbl (TrimSpace name)) header 0 with
      ⟨h1, h2⟩ | ⟨pre, h, post, h1, h2, h3, h4⟩
    · rw [h2]; exact ⟨fun _ => h1, fun _ => rfl⟩
    · rw [h4]
      constructor
      · intro e; omega
      · intro hall
        exact absurd h3 (hall h (by rw [h1]; simp))

/-- C10 as it was stated fails for letters whose case `unicode.ToLower` does not
level: the long s `U+017F` is a lower-case letter whose upper case is `S`, so the
cells `S` and `ſ` differ only in letter case; with the name `s` the first is
found at index 0 and the second is not found. -/
theorem findHeaderIndex_case_counterexample :
    findHeaderIndex latin1Lower [ascii "S"] (ascii "s") = 0
      ∧ findHeaderIndex latin1Lower [encodeRune 0x17F] (ascii "s") = -1 := by
  decide

/-- C10, amended, for the header `n,ÉM`: the cell `ÉM` becomes `ém` with a
no-break space in front and a tab behind, and the name `ém` becomes `ÉM` with a
space behind. -/
theorem findHeaderIndex_case_space_insensitive_witness :
    (∀ cell, [ascii "n", [0xC3, 0x89, 77]].get? 1 = some cell →
        CaseSpaceVariant latin1Lower cell ([0xC2, 0xA0] ++ [0xC3, 0xA9, 109] ++ [9]))
      ∧ CaseSpaceVariant latin1Lower [0xC3, 0xA9, 109] ([0xC3, 0x89, 77] ++ [32])
      ∧ findHeaderIndex latin1Lower
            (List.set [ascii "n", [0xC3, 0x89, 77]] 1 ([0xC2, 0xA0] ++ [0xC3, 0xA9, 109] ++ [9]))
            ([0xC3, 0x89, 77] ++ [32])
          = findHeaderIndex latin1Lower [ascii "n", [0xC3, 0x89, 77]] [0xC3, 0xA9, 109]
      ∧ (findHeaderIndex latin1Lower [ascii "n", [0xC3, 0x89, 77]] [0xC3, 0xA9, 109] = -1 ↔
          ∀ h ∈ [ascii "n", [0xC3, 0x89, 77]],
            ToLower latin1Lower (TrimSpace h)
              ≠ ToLower latin1Lower (TrimSpace [0xC3, 0xA9, 109])) :=
  have hcell : ∀ cell, [ascii "n", [0xC3, 0x89, 77]].get? 1 = some cell →
      CaseSpaceVariant latin1Lower cell ([0xC2, 0xA0] ++ [0xC3, 0xA9, 109] ++ [9]) :=
    fun cell hc => by
      have : cell = [0xC3, 0x89, 77] := by simpa using hc.symm
      subst this
      exact ⟨[], [0xC3, 0x89, 77], [], [0xC2, 0xA0], [0xC3, 0xA9, 109], [9], rfl, rfl,
        ⟨[], by simp, rfl⟩, ⟨[], by simp, rfl⟩, ⟨[0xA0], by decide, by decide⟩,
        ⟨[9], by decide, by decide⟩, Or.inr ⟨by decide, by decide, by decide⟩⟩
  have hname : CaseSpaceVariant latin1Lower [0xC3, 0xA9, 109] ([0xC3, 0x89, 77] ++ [32]) :=
    ⟨[], [0xC3, 0xA9, 109], [], [], [0xC3, 0x89, 77], [32], rfl, rfl,
      ⟨[], by simp, rfl⟩, ⟨[], by simp, rfl⟩, ⟨[], by simp, rfl⟩,
      ⟨[32], by decide, by decide⟩, Or.inr ⟨by decide, by decide, by decide⟩⟩
  ⟨hcell, hname,
    findHeaderIndex_case_space_insensitive latin1Lower [ascii "n", [0xC3, 0x89, 77]]
      [0xC3, 0xA9, 109] ([0xC3, 0x89, 77] ++ [32]) 1 ([0xC2, 0xA0] ++ [0xC3, 0xA9, 109] ++ [9])
      hcell hname⟩

/-- Header cells beyond ASCII: `ÉMAIL` matches the name `émail`, a cell `email`
between two no-break spaces matches the name `email`, and neither is matched by
a cell that differs in more than case and surrounding white space. -/
theorem test_findHeaderIndex_unicode :
    findHeaderIndex latin1Lower [ascii "id", [0xC3, 0x89] ++ ascii "MAIL"]
        ([0xC3, 0xA9] ++ ascii "mail") = 1
      ∧ findHeaderIndex latin1Lower [[0xC2, 0xA0] ++ ascii "email" ++ [0xC2, 0xA0]]
          (ascii "email") = 0
      ∧ findHeaderIndex latin1Lower [ascii "e mail", [0xC3, 0xA8] ++ ascii "mail"]
          ([0xC3, 0xA9] ++ ascii "mail") = -1 := by
  decide

end EmailDomainCounter
